import Mathlib

/-
Verification of the docstring dialect engine of the pyment repository.

The engine (dialect parsers, composer, dispatcher and merge utility) is
modelled shallowly in Lean.  Texts are modelled as their lists of lines
(a line is a String that carries no newline); `compose` renders a
structured docstring to a list of lines and `parse` consumes a list of
lines.  The engine's own modules are not present under src/ (only the
package re-export files and the integration tests are), so the
definitions below are modelled from the specification, as their doc
comments record.
-/

/-- Splits a list of characters at the first occurrence of the character c,
returning the parts before and after it, or none when c does not occur. -/
def splitAtChar (c : Char) : List Char → Option (List Char × List Char)
  | [] => none
  | x :: xs =>
    if x = c then some ([], xs)
    else
      match splitAtChar c xs with
      | none => none
      | some (a, b) => some (x :: a, b)

/-- Drops a single leading space character when present. -/
def dropOneSpace : List Char → List Char
  | ' ' :: r => r
  | r => r

/-- Concatenation of the images of a list under a list-valued function. -/
def flatMapL (f : α → List β) : List α → List β
  | [] => []
  | x :: xs => f x ++ flatMapL f xs

/-- Joins a list of strings with single spaces. -/
def joinWith : List String → String
  | [] => ""
  | [l] => l
  | l :: r => l ++ " " ++ joinWith r

/-- A blank line: every character is a space (the empty line included). -/
def isBlank (l : String) : Bool :=
  l.data.all (fun ch => ch = ' ')

/-- A Numpydoc underline: a non-empty line consisting of dashes only. -/
def isDashLine (l : String) : Bool :=
  (!l.data.isEmpty) && l.data.all (fun ch => ch = '-')

/-- A plain prose atom: non-empty, no surrounding spaces, free of the
characters that act as structural markers in some dialect, not an underline
and not starting with an Epydoc tag character. -/
def textOk (s : String) : Bool :=
  match s.data with
  | [] => false
  | c :: _ =>
    (c ≠ ' ') && (c ≠ '@') && (s.data.getLast? ≠ some ' ') &&
      s.data.all (fun ch => ch ≠ ':' && ch ≠ '(' && ch ≠ ')') &&
      (!isDashLine s)

/-- A well-formed parameter name: non-empty and free of spaces, colons,
parentheses and of the underline shape. -/
def nameOk (s : String) : Bool :=
  (!s.data.isEmpty) &&
    s.data.all (fun ch => ch ≠ ' ' && ch ≠ ':' && ch ≠ '(' && ch ≠ ')') &&
    (!isDashLine s)

/-- A well-formed type annotation text: non-empty, trimmed, free of colons
and parentheses and not an underline (inner spaces are allowed). -/
def typeOk (s : String) : Bool :=
  match s.data with
  | [] => false
  | c :: _ =>
    (c ≠ ' ') && (s.data.getLast? ≠ some ' ') &&
      s.data.all (fun ch => ch ≠ ':' && ch ≠ '(' && ch ≠ ')') &&
      (!isDashLine s)

/-- Tests whether a string ends with a sentence terminator. -/
def endsWithTerm (s : String) : Bool :=
  match s.data.getLast? with
  | some c => c = '.' || c = '!' || c = '?'
  | none => false

/-- Modelled from the spec: normalization of the short description, which
must end with a sentence terminator after normalization (section 3 of the
spec); a missing terminator is repaired by appending a period. -/
def normalizeShort (s : String) : String :=
  if endsWithTerm s then s else s ++ "."

/-- Modelled from the spec: the four docstring dialects supported by the
engine (the missing common module defines DocstringStyle). -/
inductive DocstringStyle where
  | rest
  | google
  | numpydoc
  | epydoc
deriving DecidableEq, Repr

/-- Modelled from the spec: the kind of a documented parameter (the missing
common module defines it on DocstringParam); no dialect surface syntax is
given for it in the spec, so parsers always produce the positional kind. -/
inductive ParamKind where
  | positional
  | keyword
  | starArgs
  | starKwargs
deriving DecidableEq, Repr

/-- Modelled from the spec: the Meta Entry variants of the structured model
(the missing common module defines DocstringMeta and its subclasses). -/
inductive DocstringMeta where
  | param (name : String) (type_name : Option String) (description : String)
      (is_optional : Bool) (default : Option String) (kind : ParamKind)
  | returns (type_name : Option String) (description : String) (is_generator : Bool)
  | yields (type_name : Option String) (description : String)
  | raises (type_name : Option String) (description : String)
  | deprecated (version : Option String) (description : String)
  | exampleBlock (snippet : List String) (description : String)
  | generic (args : List String) (description : String)
deriving DecidableEq, Repr

/-- Modelled from the spec: the dialect-independent Structured Docstring
(the missing common module defines Docstring).  The dialect tag of a parsed
text is reported by the dispatcher as the second component of its result
pair, following the interface of section 4.3 of the spec. -/
structure Docstring where
  short_description : Option String
  long_description : Option (List String)
  blank_after_short_description : Bool
  blank_after_long_description : Bool
  meta : List DocstringMeta
deriving DecidableEq, Repr

/-- Modelled from the spec: a parse failure value carrying the offending
dialect, a 1-based line number and a human-readable message (section 6). -/
structure ParseError where
  style : DocstringStyle
  line : Nat
  message : String
deriving DecidableEq, Repr

/-- Names of the Params of a meta sequence, in order. -/
def paramNames (ms : List DocstringMeta) : List String :=
  ms.filterMap fun e =>
    match e with
    | .param n _ _ _ _ _ => some n
    | _ => none

/-- Tests that a list of strings has no duplicates. -/
def distinctStrings : List String → Bool
  | [] => true
  | x :: xs => (!xs.contains x) && distinctStrings xs

/-- Rank of a meta entry in the canonical section order of section 3 of the
spec (Params, then Returns, then Yields, then Raises; the remaining variants
are outside the canonical cross-dialect order). -/
def kindRank : DocstringMeta → Nat
  | .param _ _ _ _ _ _ => 0
  | .returns _ _ _ => 1
  | .yields _ _ => 2
  | .raises _ _ => 3
  | _ => 4

/-- Least rank allowed after a given entry: params may repeat, Returns and
Yields occur at most once, raises may repeat. -/
def nextRank : DocstringMeta → Nat
  | .param _ _ _ _ _ _ => 0
  | .returns _ _ _ => 2
  | .yields _ _ => 3
  | _ => 3

/-- Well-formedness of a single meta entry for the round-trip property:
names, types and descriptions are plain atoms and the attributes that no
dialect surface syntax covers keep their parser defaults. -/
def metaOk : DocstringMeta → Bool
  | .param n t d io df k =>
    nameOk n && (match t with | some ty => typeOk ty | none => true) &&
      textOk d && (io = false) && (df = none) && (k = ParamKind.positional)
  | .returns t d g =>
    (match t with | some ty => typeOk ty | none => true) && textOk d && (g = false)
  | .yields t d =>
    (match t with | some ty => typeOk ty | none => true) && textOk d
  | .raises t d =>
    (match t with | some ty => nameOk ty | none => false) && textOk d
  | _ => false

/-- Canonical ordering and multiplicity of a meta sequence, threaded by the
least admissible rank. -/
def validMetaFrom : Nat → List DocstringMeta → Bool
  | _, [] => true
  | k, e :: rest =>
    metaOk e && decide (k ≤ kindRank e) && validMetaFrom (nextRank e) rest

/-- Well-formedness of a long description block: non-empty, its first and
last lines plain text, interior lines blank or plain text. -/
def longBlockOk (ls : List String) : Bool :=
  match ls with
  | [] => false
  | h :: _ =>
    textOk h && (match ls.getLast? with | some z => textOk z | none => false) &&
      ls.all (fun l => isBlank l || textOk l)

/-- Valid, non-pathological structured docstrings: the field combinations
for which the spec asserts round-trip stability (section 8).  Descriptions
are plain prose atoms, the short description is already normalized, param
names are unique, meta entries stand in canonical grouped order, and the
blank flags are meaningful for the fields that are present. -/
def validDocstring (m : Docstring) : Bool :=
  (match m.short_description with
   | none =>
     (m.long_description = none) && (m.blank_after_short_description = false)
   | some s => textOk s && endsWithTerm s) &&
  (match m.long_description with
   | none => m.blank_after_long_description = false
   | some ls => longBlockOk ls) &&
  validMetaFrom 0 m.meta &&
  distinctStrings (paramNames m.meta)

/-- Builds a string from a list of characters. -/
def mkS (cs : List Char) : String := String.mk cs

/-- Indents a string by four spaces. -/
def indent4 (s : String) : String :=
  mkS (' ' :: ' ' :: ' ' :: ' ' :: s.data)

/-- Modelled from the spec: a reST or Epydoc field line, written with the
dialect's lead character, the tag, an optional argument and the description
text (sections 4.2 and 4.4; the missing dialect modules implement it). -/
def fieldLine (lead : Char) (tag : String) (arg : Option String) (body : String) : String :=
  mkS (lead :: tag.data ++
    (match arg with
     | some a => ' ' :: a.data
     | none => []) ++ ':' :: ' ' :: body.data)

/-- Modelled from the spec: the field lines a single meta entry contributes
in the reST and Epydoc dialects.  A separate type field accompanies a typed
param, a separate rtype or ytype field accompanies a typed Returns or
Yields entry, and variants without a field-list equivalent render as
generic tags (examples are skipped, having no field form). -/
def composeFieldEntry (lead : Char) : DocstringMeta → List String
  | .param n t d _ _ _ =>
    [fieldLine lead "param" (some n) d] ++
      (match t with
       | some ty => [fieldLine lead "type" (some n) ty]
       | none => [])
  | .returns t d _ =>
    [fieldLine lead "returns" none d] ++
      (match t with
       | some ty => [fieldLine lead "rtype" none ty]
       | none => [])
  | .yields t d =>
    [fieldLine lead "yields" none d] ++
      (match t with
       | some ty => [fieldLine lead "ytype" none ty]
       | none => [])
  | .raises t d => [fieldLine lead "raises" t d]
  | .deprecated _ d => [fieldLine lead "deprecated" none d]
  | .exampleBlock _ _ => []
  | .generic args d => [fieldLine lead (joinWith args) none d]

/-- Param triples (name, type, description) of a meta sequence, in order. -/
def paramTriples (ms : List DocstringMeta) : List (String × Option String × String) :=
  ms.filterMap fun e =>
    match e with
    | .param n t d _ _ _ => some (n, t, d)
    | _ => none

/-- Returns pairs (type, description) of a meta sequence, in order. -/
def returnsPairs (ms : List DocstringMeta) : List (Option String × String) :=
  ms.filterMap fun e =>
    match e with
    | .returns t d _ => some (t, d)
    | _ => none

/-- Yields pairs (type, description) of a meta sequence, in order. -/
def yieldsPairs (ms : List DocstringMeta) : List (Option String × String) :=
  ms.filterMap fun e =>
    match e with
    | .yields t d => some (t, d)
    | _ => none

/-- Raises pairs (type, description) of a meta sequence, in order. -/
def raisesPairs (ms : List DocstringMeta) : List (Option String × String) :=
  ms.filterMap fun e =>
    match e with
    | .raises t d => some (t, d)
    | _ => none

/-- Modelled from the spec: a Google Args entry line, of the form
name (type): description, or name: description when no type is given
(section 4.2 of the spec). -/
def googleParamLine (n : String) (t : Option String) (d : String) : String :=
  match t with
  | some ty =>
    indent4 (mkS (n.data ++ ' ' :: '(' :: ty.data ++ ')' :: ':' :: ' ' :: d.data))
  | none => indent4 (mkS (n.data ++ ':' :: ' ' :: d.data))

/-- Modelled from the spec: a Google Returns or Yields entry line, of the
form type: description, or the bare description when no type is given. -/
def googleRetLine (t : Option String) (d : String) : String :=
  match t with
  | some ty => indent4 (mkS (ty.data ++ ':' :: ' ' :: d.data))
  | none => indent4 d

/-- Modelled from the spec: a Google Raises entry line. -/
def googleRaiseLine (t : Option String) (d : String) : String :=
  match t with
  | some ty => indent4 (mkS (ty.data ++ ':' :: ' ' :: d.data))
  | none => indent4 d

/-- A Google section: the header line followed by its body, or nothing when
the body is empty. -/
def googleSection (hdr : String) (body : List String) : List String :=
  match body with
  | [] => []
  | _ => hdr :: body

/-- Modelled from the spec: the Google meta block, rendered in the fixed
canonical section order Args, Returns, Yields, Raises (sections 3 and 4.4);
variants without a Google section are skipped. -/
def composeGoogleBlock (ms : List DocstringMeta) : List String :=
  googleSection "Args:"
      ((paramTriples ms).map fun p => googleParamLine p.1 p.2.1 p.2.2) ++
    googleSection "Returns:"
      ((returnsPairs ms).map fun p => googleRetLine p.1 p.2) ++
    googleSection "Yields:"
      ((yieldsPairs ms).map fun p => googleRetLine p.1 p.2) ++
    googleSection "Raises:"
      ((raisesPairs ms).map fun p => googleRaiseLine p.1 p.2)

/-- Modelled from the spec: the dash underline of a Numpydoc section header,
of exactly the header's length. -/
def dashesOf (hdr : String) : String :=
  mkS (List.replicate hdr.length '-')

/-- A Numpydoc section: header, underline and body, or nothing when the body
is empty. -/
def npSection (hdr : String) (body : List String) : List String :=
  match body with
  | [] => []
  | _ => hdr :: dashesOf hdr :: body

/-- Modelled from the spec: a Numpydoc entry head line, of the form
name : type, or the bare name when no type is given. -/
def npEntryLine (n : String) (t : Option String) : String :=
  match t with
  | some ty => mkS (n.data ++ ' ' :: ':' :: ' ' :: ty.data)
  | none => n

/-- Modelled from the spec: the two lines of a Numpydoc Parameters entry:
the head line and the indented description. -/
def npParamLines (p : String × Option String × String) : List String :=
  [npEntryLine p.1 p.2.1, indent4 p.2.2]

/-- Modelled from the spec: the lines of a Numpydoc Returns or Yields
entry: the type line followed by the indented description, or the bare
description when no type is given. -/
def npRetLines (p : Option String × String) : List String :=
  match p.1 with
  | some ty => [ty, indent4 p.2]
  | none => [p.2]

/-- Modelled from the spec: the lines of a Numpydoc Raises entry: the
exception name line followed by the indented description. -/
def npRaiseLines (p : Option String × String) : List String :=
  match p.1 with
  | some ty => [ty, indent4 p.2]
  | none => [p.2]

/-- Modelled from the spec: the Numpydoc meta block, rendered in the fixed
canonical section order (underlined section headers, entries as a head line
plus an indented description block). -/
def composeNpBlock (ms : List DocstringMeta) : List String :=
  npSection "Parameters" (flatMapL npParamLines (paramTriples ms)) ++
    npSection "Returns" (flatMapL npRetLines (returnsPairs ms)) ++
    npSection "Yields" (flatMapL npRetLines (yieldsPairs ms)) ++
    npSection "Raises" (flatMapL npRaiseLines (raisesPairs ms))

/-- Modelled from the spec: the meta block of a docstring in each target
dialect. -/
def composeMetaBlock (style : DocstringStyle) (ms : List DocstringMeta) : List String :=
  match style with
  | .rest => flatMapL (composeFieldEntry ':') ms
  | .epydoc => flatMapL (composeFieldEntry '@') ms
  | .google => composeGoogleBlock ms
  | .numpydoc => composeNpBlock ms

/-- Lines contributed by the short description: the normalized summary line
and the recorded blank line after it. -/
def composeShort (m : Docstring) : List String :=
  match m.short_description with
  | none => []
  | some s =>
    normalizeShort s :: (if m.blank_after_short_description then [""] else [])

/-- Lines contributed by the long description: its lines and the recorded
blank line after them. -/
def composeLong (m : Docstring) : List String :=
  match m.long_description with
  | none => []
  | some ls => ls ++ (if m.blank_after_long_description then [""] else [])

/-- Modelled from the spec: the composer.  Renders a structured docstring to
canonical text (as a list of lines) in the target dialect: short
description, blank spacing as recorded by the blank flags, long
description, then the dialect's meta block (section 4.4). -/
def compose (m : Docstring) (style : DocstringStyle) : List String :=
  composeShort m ++ composeLong m ++ composeMetaBlock style m.meta

/-- Modelled from the spec: the raw facts a dialect parser extracts before
reconciliation (the local builder value of section 9 of the spec). -/
inductive RawItem where
  | rparam (name : String) (type_name : Option String) (description : String)
  | rtypeF (name : String) (type_name : String)
  | rret (type_name : Option String) (description : String)
  | rrtype (type_name : String)
  | ryield (type_name : Option String) (description : String)
  | rytype (type_name : String)
  | rraises (type_name : Option String) (description : String)
  | rdepr (description : String)
  | rexample (line : String)
  | rgeneric (args : List String) (description : String)
deriving DecidableEq, Repr

/-- Modelled from the spec: last-occurrence-wins deduplication of params by
name; the earlier occurrence is discarded (section 3 invariant). -/
def dedupLast (l : List (String × Option String × String)) :
    List (String × Option String × String) :=
  l.foldl (fun acc x => acc.filter (fun y => y.1 ≠ x.1) ++ [x]) []

/-- Last recorded separate type field for a name, when any. -/
def lookupLast (l : List (String × String)) (n : String) : Option String :=
  ((l.filter (fun y => y.1 = n)).getLast?).map (fun y => y.2)

/-- Selector of raw param triples. -/
def selParam : RawItem → Option (String × Option String × String)
  | .rparam n t d => some (n, t, d)
  | _ => none

/-- Selector of raw separate type fields. -/
def selTypeF : RawItem → Option (String × String)
  | .rtypeF n t => some (n, t)
  | _ => none

/-- Selector of types recorded for the Returns entry, inline or by a
separate rtype field. -/
def selRetType : RawItem → Option String
  | .rret (some t) _ => some t
  | .rrtype t => some t
  | _ => none

/-- Selector of descriptions recorded for the Returns entry. -/
def selRetDesc : RawItem → Option String
  | .rret _ d => some d
  | _ => none

/-- Selector of types recorded for the Yields entry. -/
def selYldType : RawItem → Option String
  | .ryield (some t) _ => some t
  | .rytype t => some t
  | _ => none

/-- Selector of descriptions recorded for the Yields entry. -/
def selYldDesc : RawItem → Option String
  | .ryield _ d => some d
  | _ => none

/-- Selector of raises entries. -/
def selRaises : RawItem → Option DocstringMeta
  | .rraises t d => some (.raises t d)
  | _ => none

/-- Selector of deprecated entries. -/
def selDepr : RawItem → Option DocstringMeta
  | .rdepr d => some (.deprecated none d)
  | _ => none

/-- Selector of example lines. -/
def selExample : RawItem → Option String
  | .rexample l => some l
  | _ => none

/-- Selector of generic entries. -/
def selGeneric : RawItem → Option DocstringMeta
  | .rgeneric args d => some (.generic args d)
  | _ => none

/-- Raw param triples of a raw item list. -/
def rawParams (items : List RawItem) : List (String × Option String × String) :=
  items.filterMap selParam

/-- Raw separate type fields of a raw item list. -/
def rawTypeFields (items : List RawItem) : List (String × String) :=
  items.filterMap selTypeF

/-- Last type recorded for the Returns entry, either inline or by a
separate rtype field. -/
def rawRetType (items : List RawItem) : Option String :=
  (items.filterMap selRetType).getLast?

/-- Last description recorded for the Returns entry. -/
def rawRetDesc (items : List RawItem) : Option String :=
  (items.filterMap selRetDesc).getLast?

/-- Last type recorded for the Yields entry. -/
def rawYldType (items : List RawItem) : Option String :=
  (items.filterMap selYldType).getLast?

/-- Last description recorded for the Yields entry. -/
def rawYldDesc (items : List RawItem) : Option String :=
  (items.filterMap selYldDesc).getLast?

/-- Modelled from the spec: reconciliation of the raw facts into the final
meta sequence: params are deduplicated last-wins and merged with their
separate type fields, the Returns and Yields entries are merged from their
description and type fields, unmatched separate type fields become Generic
entries, and the result stands in canonical grouped order. -/
def resolve (items : List RawItem) : List DocstringMeta :=
  let prm := dedupLast (rawParams items)
  let tmap := rawTypeFields items
  let params : List DocstringMeta := prm.map fun p =>
    .param p.1 (match p.2.1 with
                | some t => some t
                | none => lookupLast tmap p.1) p.2.2 false none .positional
  let rets : List DocstringMeta :=
    match rawRetDesc items, rawRetType items with
    | none, none => []
    | d, t => [.returns t (d.getD "") false]
  let ylds : List DocstringMeta :=
    match rawYldDesc items, rawYldType items with
    | none, none => []
    | d, t => [.yields t (d.getD "")]
  let rss : List DocstringMeta := items.filterMap selRaises
  let deps : List DocstringMeta := items.filterMap selDepr
  let exls : List String := items.filterMap selExample
  let exs : List DocstringMeta :=
    match exls with
    | [] => []
    | ls => [.exampleBlock ls ""]
  let unmatched : List DocstringMeta :=
    (tmap.filter fun y => !(prm.map (fun p => p.1)).contains y.1).map fun y =>
      .generic ["type", y.1] y.2
  let gens : List DocstringMeta := items.filterMap selGeneric
  params ++ rets ++ ylds ++ rss ++ deps ++ exs ++ unmatched ++ gens

/-- Result of splitting the description part of a docstring text. -/
structure DescSplit where
  short : Option String
  flagS : Bool
  long : Option (List String)
  flagL : Bool
  metaRest : List String
deriving DecidableEq, Repr

/-- Removes trailing blank lines. -/
def stripTrailingBlanks (ls : List String) : List String :=
  (ls.reverse.dropWhile isBlank).reverse

/-- Blank-after-short flag: whether the line after the short description is
blank. -/
def descFlagS : List String → Bool
  | r :: _ => isBlank r
  | [] => false

/-- Long-description extraction of the common splitting heuristic: the
lines up to the first marker form the long description, trailing blanks
are stripped and recorded in the blank flag, the rest is the meta block. -/
def descLongPart (isMark : String → Bool) (rest1 : List String) :
    Option (List String) × Bool × List String :=
  let long0 := rest1.takeWhile (fun l => !isMark l)
  let metaRest := rest1.dropWhile (fun l => !isMark l)
  let longS := stripTrailingBlanks long0
  ((match longS with
    | [] => none
    | _ => some longS),
    decide (longS.length ≠ long0.length), metaRest)

/-- Modelled from the spec: the common description-splitting heuristic of
all dialect parsers (section 4.2 step a): the first non-blank line is the
short description, a following blank line is recorded in the blank flag,
the lines up to the first dialect marker form the long description, and
trailing blank lines before the meta block are recorded in the second
blank flag.  A text that opens with a marker has no description part. -/
def splitDescPhase (isMark : String → Bool) (lines : List String) : DescSplit :=
  match lines.dropWhile isBlank with
  | [] => ⟨none, false, none, false, []⟩
  | first :: rest =>
    if isMark first then ⟨none, false, none, false, first :: rest⟩
    else
      let lp := descLongPart isMark (rest.dropWhile isBlank)
      ⟨some first, descFlagS rest, lp.1, lp.2.1, lp.2.2⟩

/-- Tag spellings recognized as a param field (section 4.2 of the spec). -/
def paramTags : List String := ["param", "parameter", "arg", "argument"]

/-- Tag spellings recognized as a returns field. -/
def returnsTags : List String := ["returns", "return"]

/-- Tag spellings recognized as a raises field. -/
def raisesTags : List String := ["raises", "raise", "except", "exception"]

/-- Tag spellings recognized as a yields field. -/
def yieldsTags : List String := ["yields", "yield"]

/-- Modelled from the spec: recognition of one reST or Epydoc field line
(section 4.2).  A field is the lead character, a tag with an optional
argument up to the next colon, and the description after the colon;
unknown tags yield a Generic entry, and a line that does not have the field
shape is not a marker.  Dispatch of a recognized field with an argument by
its tag. -/
def parseFieldArgTag (tag arg body : String) : Option RawItem :=
  if paramTags.contains tag then some (.rparam arg none body)
  else if tag = "type" then some (.rtypeF arg body)
  else if raisesTags.contains tag then some (.rraises (some arg) body)
  else some (.rgeneric [tag, arg] body)

/-- Dispatch of a recognized field without an argument by its tag. -/
def parseFieldNoArgTag (tag body : String) : Option RawItem :=
  if returnsTags.contains tag then some (.rret none body)
  else if tag = "rtype" then some (.rrtype body)
  else if yieldsTags.contains tag then some (.ryield none body)
  else if tag = "ytype" then some (.rytype body)
  else if tag = "deprecated" then some (.rdepr body)
  else if raisesTags.contains tag then some (.rraises none body)
  else some (.rgeneric [tag] body)

/-- Splits a recognized field into its tag and optional argument. -/
def parseFieldAfterColon (field after : List Char) : Option RawItem :=
  match splitAtChar ' ' field with
  | some (tagCs, argCs) =>
    parseFieldArgTag (mkS tagCs) (mkS argCs) (mkS (dropOneSpace after))
  | none => parseFieldNoArgTag (mkS field) (mkS (dropOneSpace after))

/-- Recognizes the field part after the lead character. -/
def parseFieldRest (rest : List Char) : Option RawItem :=
  match splitAtChar ':' rest with
  | none => none
  | some fa => parseFieldAfterColon fa.1 fa.2

/-- Recognizes a field line given as a character list. -/
def parseFieldCs (lead : Char) : List Char → Option RawItem
  | [] => none
  | c :: rest => if c = lead then parseFieldRest rest else none

def parseFieldLine (lead : Char) (l : String) : Option RawItem :=
  parseFieldCs lead l.data

/-- Modelled from the spec: the meta-block scan of the reST and Epydoc
parsers: field lines become raw items, blank lines separate fields, and any
unrecognized line is kept as prose to be appended to the long description
rather than failing (sections 4.2 and 7). -/
def fieldMetaScan (lead : Char) :
    List String → List RawItem → List String → List RawItem × List String
  | [], acc, prose => (acc, prose)
  | l :: rest, acc, prose =>
    match parseFieldLine lead l with
    | some item => fieldMetaScan lead rest (acc ++ [item]) prose
    | none =>
      if isBlank l then fieldMetaScan lead rest acc prose
      else fieldMetaScan lead rest acc (prose ++ [l])

/-- Joins the long description with trailing unclassified prose. -/
def mergeLong (long : Option (List String)) (prose : List String) :
    Option (List String) :=
  match long, prose with
  | none, [] => none
  | none, ps => some ps
  | some ls, ps => some (ls ++ ps)

/-- Assembles the final structured docstring from the description split,
the raw items and the leftover prose. -/
def mkDoc (ds : DescSplit) (items : List RawItem) (prose : List String) :
    Docstring :=
  { short_description := ds.short
    long_description := mergeLong ds.long prose
    blank_after_short_description := ds.flagS
    blank_after_long_description := ds.flagL
    meta := resolve items }

/-- Modelled from the spec: the reST and Epydoc parsers, parameterized by
the lead character of their field tags (sections 4.2 and 4.4); these
parsers are total and lenient, unclassified input becomes prose. -/
def fieldParse (lead : Char) (lines : List String) : Docstring :=
  let ds := splitDescPhase (fun l => (parseFieldLine lead l).isSome) lines
  let p := fieldMetaScan lead ds.metaRest [] []
  mkDoc ds p.1 p.2

/-- Google section kinds recognized by the parser. -/
inductive GSection where
  | args
  | returnsSec
  | yieldsSec
  | raisesSec
  | examplesSec
  | noteSec
deriving DecidableEq, Repr

/-- Modelled from the spec: recognition of a Google section header, a
literal header line at zero indentation (section 4.2). -/
def googleHeaderOf (l : String) : Option GSection :=
  if l = "Args:" then some .args
  else if l = "Returns:" then some .returnsSec
  else if l = "Yields:" then some .yieldsSec
  else if l = "Raises:" then some .raisesSec
  else if l = "Examples:" then some .examplesSec
  else if l = "Note:" then some .noteSec
  else none

/-- Tests whether a line is a Google section header. -/
def isGoogleHeader (l : String) : Bool :=
  (googleHeaderOf l).isSome

/-- Modelled from the spec: recognition of one Google Args entry, of the
form name (type): description or name: description. -/
def parseGoogleParam (cs : List Char) : RawItem :=
  match splitAtChar ':' cs with
  | none => .rparam (mkS cs) none ""
  | some (left, after) =>
    let body := mkS (dropOneSpace after)
    match splitAtChar ' ' left with
    | none => .rparam (mkS left) none body
    | some (nm, rest) =>
      match rest with
      | '(' :: inner =>
        if inner.getLast? = some ')' then
          .rparam (mkS nm) (some (mkS inner.dropLast)) body
        else .rparam (mkS left) none body
      | _ => .rparam (mkS left) none body

/-- Modelled from the spec: recognition of one Google Returns or Yields
entry, of the form type: description or a bare description. -/
def parseGoogleRet (cs : List Char) : Option String × String :=
  match splitAtChar ':' cs with
  | none => (none, mkS cs)
  | some (left, after) => (some (mkS left), mkS (dropOneSpace after))

/-- Raw item contributed by one indented entry line of a Google section. -/
def googleEntryRaw (sec : GSection) (cs : List Char) : RawItem :=
  match sec with
  | .args => parseGoogleParam cs
  | .returnsSec =>
    match parseGoogleRet cs with
    | (t, d) => .rret t d
  | .yieldsSec =>
    match parseGoogleRet cs with
    | (t, d) => .ryield t d
  | .raisesSec =>
    match parseGoogleRet cs with
    | (t, d) => .rraises t d
  | .examplesSec => .rexample (mkS cs)
  | .noteSec => .rgeneric ["Note"] (mkS cs)

/-- Content of a line indented by exactly the Google entry indentation of
four spaces, when it has that shape. -/
def googleEntryOf (l : String) : Option (List Char) :=
  match l.data with
  | ' ' :: ' ' :: ' ' :: ' ' :: cs => some cs
  | _ => none

/-- Modelled from the spec: the meta-block scan of the Google parser:
header lines switch the current section, lines indented by four spaces are
entries of the current section, blank lines are skipped, and any other line
is kept as prose to be appended to the long description. -/
def googleMetaScan :
    List String → Option GSection → List RawItem → List String →
      List RawItem × List String
  | [], _, acc, prose => (acc, prose)
  | l :: rest, cur, acc, prose =>
    match googleHeaderOf l with
    | some sec => googleMetaScan rest (some sec) acc prose
    | none =>
      if isBlank l then googleMetaScan rest cur acc prose
      else
        match googleEntryOf l, cur with
        | some cs, some sec =>
          googleMetaScan rest cur (acc ++ [googleEntryRaw sec cs]) prose
        | _, _ => googleMetaScan rest cur acc (prose ++ [l])

/-- Modelled from the spec: the Google parser (sections 4.2 and 4.4); total
and lenient, unclassified input becomes prose. -/
def googleParse (lines : List String) : Docstring :=
  let ds := splitDescPhase isGoogleHeader lines
  let p := googleMetaScan ds.metaRest none [] []
  mkDoc ds p.1 p.2

/-- Names recognized as Numpydoc section headers. -/
def npHeaderNames : List String :=
  ["Parameters", "Returns", "Yields", "Raises", "Examples"]

/-- Tests whether a line is a known Numpydoc section header name. -/
def isNpHeaderName (l : String) : Bool :=
  npHeaderNames.contains l

/-- Modelled from the spec: the structurally broken Numpydoc marker that
the parser must reject: a known section header whose dash underline is
strictly shorter than the header text (sections 4.2 and 8). -/
def npBadPair (l1 l2 : String) : Bool :=
  isNpHeaderName l1 && isDashLine l2 && decide (l2.length < l1.length)

/-- Modelled from the spec: the Numpydoc well-formedness scan; it walks all
adjacent line pairs and signals a parse failure, with the 1-based line
number of the header, at the first underline that is too short. -/
def npCheck : Nat → List String → Except ParseError Unit
  | i, l1 :: l2 :: rest =>
    if npBadPair l1 l2 then
      .error ⟨.numpydoc, i, "section underline shorter than its header"⟩
    else npCheck (i + 1) (l2 :: rest)
  | _, _ => .ok ()

/-- Modelled from the spec: the section scan of the Numpydoc parser.  A
known header line immediately followed by a dash underline opens a section;
lines before the first section form the description part and later lines
belong to the current section's body. -/
def npScanGo :
    List String → Option (String × List String) →
      List String × List (String × List String)
  | [], none => ([], [])
  | [], some hb => ([], [hb])
  | [l], none => ([l], [])
  | [l], some hb => ([], [(hb.1, hb.2 ++ [l])])
  | l1 :: l2 :: rest, cur =>
    if isNpHeaderName l1 && isDashLine l2 then
      let r := npScanGo rest (some (l1, []))
      match cur with
      | none => ([], r.2)
      | some hb => ([], (hb.1, hb.2) :: r.2)
    else
      match cur with
      | none =>
        let r := npScanGo (l2 :: rest) none
        (l1 :: r.1, r.2)
      | some hb => npScanGo (l2 :: rest) (some (hb.1, hb.2 ++ [l1]))

/-- Tests whether a line starts with four spaces. -/
def startsWith4 (l : String) : Bool :=
  match l.data with
  | ' ' :: ' ' :: ' ' :: ' ' :: _ => true
  | _ => false

/-- Removes four leading spaces from an indented line. -/
def strip4 (l : String) : String :=
  match l.data with
  | ' ' :: ' ' :: ' ' :: ' ' :: cs => mkS cs
  | cs => mkS cs

/-- Modelled from the spec: grouping of a Numpydoc section body into
entries: an unindented line opens an entry and the indented lines after it
form its description block; blank lines end an entry and stray indented
lines are dropped. -/
def npGroupGo :
    List String → Option (String × List String) → List (String × List String)
  | [], none => []
  | [], some hb => [hb]
  | l :: rest, cur =>
    if isBlank l then
      match cur with
      | none => npGroupGo rest none
      | some hb => hb :: npGroupGo rest none
    else if startsWith4 l then
      match cur with
      | none => npGroupGo rest none
      | some hb => npGroupGo rest (some (hb.1, hb.2 ++ [strip4 l]))
    else
      match cur with
      | none => npGroupGo rest (some (l, []))
      | some hb => hb :: npGroupGo rest (some (l, []))

/-- Modelled from the spec: recognition of one Numpydoc entry head line, of
the form name : type or a bare name. -/
def parseNpEntryHead (l : String) : String × Option String :=
  match splitAtChar ' ' l.data with
  | none => (l, none)
  | some (nm, rest) =>
    match rest with
    | ':' :: ' ' :: ty => (mkS nm, some (mkS ty))
    | _ => (l, none)

/-- Raw items contributed by one Numpydoc section. -/
def npSectionItems (sec : String × List String) : List RawItem :=
  if sec.1 = "Parameters" then
    (npGroupGo sec.2 none).map fun g =>
      match parseNpEntryHead g.1 with
      | (n, t) => .rparam n t (joinWith g.2)
  else if sec.1 = "Returns" then
    (npGroupGo sec.2 none).map fun g =>
      match g.2 with
      | [] => .rret none g.1
      | ds => .rret (some g.1) (joinWith ds)
  else if sec.1 = "Yields" then
    (npGroupGo sec.2 none).map fun g =>
      match g.2 with
      | [] => .ryield none g.1
      | ds => .ryield (some g.1) (joinWith ds)
  else if sec.1 = "Raises" then
    (npGroupGo sec.2 none).map fun g =>
      match g.2 with
      | [] => .rraises (some g.1) ""
      | ds => .rraises (some g.1) (joinWith ds)
  else
    (sec.2.filter fun l => !isBlank l).map fun l => .rexample (strip4 l)

/-- Modelled from the spec: the Numpydoc parser.  It first rejects
structurally broken section underlines, then splits the description part
from the underlined sections and reconciles the sections' entries
(sections 4.2, 4.4 and 8). -/
def npParse (lines : List String) : Except ParseError Docstring :=
  match npCheck 1 lines with
  | .error e => .error e
  | .ok _ =>
    let r := npScanGo lines none
    let ds := splitDescPhase (fun _ => false) r.1
    let items := flatMapL npSectionItems r.2
    .ok (mkDoc ds items [])

/-- Modelled from the spec: the parse operation of the engine boundary
(section 6): raw text plus a requested dialect, yielding a structured
docstring or a parse failure, always as a value. -/
def parse (lines : List String) (style : DocstringStyle) :
    Except ParseError Docstring :=
  match style with
  | .rest => .ok (fieldParse ':' lines)
  | .epydoc => .ok (fieldParse '@' lines)
  | .google => .ok (googleParse lines)
  | .numpydoc => npParse lines

/-- Params of a meta sequence (the full entries, in order). -/
def paramEntries (ms : List DocstringMeta) : List DocstringMeta :=
  ms.filter fun e =>
    match e with
    | .param _ _ _ _ _ _ => true
    | _ => false

/-- Returns entries of a meta sequence. -/
def returnsEntries (ms : List DocstringMeta) : List DocstringMeta :=
  ms.filter fun e =>
    match e with
    | .returns _ _ _ => true
    | _ => false

/-- Yields entries of a meta sequence. -/
def yieldsEntries (ms : List DocstringMeta) : List DocstringMeta :=
  ms.filter fun e =>
    match e with
    | .yields _ _ => true
    | _ => false

/-- Raises entries of a meta sequence. -/
def raisesEntries (ms : List DocstringMeta) : List DocstringMeta :=
  ms.filter fun e =>
    match e with
    | .raises _ _ => true
    | _ => false

/-- Deprecated entries of a meta sequence. -/
def deprecatedEntries (ms : List DocstringMeta) : List DocstringMeta :=
  ms.filter fun e =>
    match e with
    | .deprecated _ _ => true
    | _ => false

/-- Example entries of a meta sequence. -/
def exampleEntries (ms : List DocstringMeta) : List DocstringMeta :=
  ms.filter fun e =>
    match e with
    | .exampleBlock _ _ => true
    | _ => false

/-- Generic entries of a meta sequence. -/
def genericEntries (ms : List DocstringMeta) : List DocstringMeta :=
  ms.filter fun e =>
    match e with
    | .generic _ _ => true
    | _ => false

/-- Params of the base model whose names are absent from the override
model's params, in the base's original order (section 4.5 of the spec). -/
def missingBaseParams (override base : Docstring) : List DocstringMeta :=
  base.meta.filter fun e =>
    match e with
    | .param n _ _ _ _ _ => !(paramNames override.meta).contains n
    | _ => false

/-- Copies a kind of entries from the base only when the override has none
of that kind. -/
def keepOrInherit (ov bs : List DocstringMeta) : List DocstringMeta :=
  match ov with
  | [] => bs
  | _ => ov

/-- Modelled from the spec: the merge utility combine of section 4.5 (the
missing util module implements combine_docstrings).  Override descriptions
win with fallback to the base, params missing from the override are copied
from the base and appended after the override's own params in the base's
original order, and the remaining kinds are inherited from the base only
when the override has none of that kind. -/
def combine_docstrings (override base : Docstring) : Docstring :=
  { short_description :=
      match override.short_description with
      | some s => some s
      | none => base.short_description
    long_description :=
      match override.long_description with
      | some l => some l
      | none => base.long_description
    blank_after_short_description :=
      match override.short_description with
      | some _ => override.blank_after_short_description
      | none => base.blank_after_short_description
    blank_after_long_description :=
      match override.long_description with
      | some _ => override.blank_after_long_description
      | none => base.blank_after_long_description
    meta :=
      paramEntries override.meta ++ missingBaseParams override base ++
        keepOrInherit (returnsEntries override.meta) (returnsEntries base.meta) ++
        keepOrInherit (yieldsEntries override.meta) (yieldsEntries base.meta) ++
        keepOrInherit (raisesEntries override.meta) (raisesEntries base.meta) ++
        keepOrInherit (deprecatedEntries override.meta) (deprecatedEntries base.meta) ++
        keepOrInherit (exampleEntries override.meta) (exampleEntries base.meta) ++
        keepOrInherit (genericEntries override.meta) (genericEntries base.meta) }

/-- Modelled from the spec: the dialect requested by a caller, either an
explicit dialect or auto-detection (section 6). -/
inductive RequestedStyle where
  | explicitStyle (s : DocstringStyle)
  | auto
deriving DecidableEq, Repr

/-- Modelled from the spec: the fixed dialect priority order used to break
auto-detection ties (section 4.3). -/
def styleOrder : List DocstringStyle :=
  [.rest, .numpydoc, .google, .epydoc]

/-- Picks the candidate with the strictly highest count of structured meta
entries; on ties the earlier candidate, hence the higher-priority dialect,
wins (section 4.3). -/
def pickBest : List (Docstring × DocstringStyle) → Option (Docstring × DocstringStyle)
  | [] => none
  | c :: rest =>
    match pickBest rest with
    | none => some c
    | some b =>
      if b.1.meta.length > c.1.meta.length then some b else some c

/-- Modelled from the spec: the dialect dispatcher detect_and_parse
(section 4.3).  An explicit request runs only that parser; in auto mode all
four parsers run and the successful parse with the most structured meta
entries wins, ties broken by the fixed priority order. -/
def detect_and_parse (lines : List String) (req : RequestedStyle) :
    Except ParseError (Docstring × DocstringStyle) :=
  match req with
  | .explicitStyle s =>
    match parse lines s with
    | .ok m => .ok (m, s)
    | .error e => .error e
  | .auto =>
    let cands := styleOrder.filterMap fun s =>
      match parse lines s with
      | .ok m => some (m, s)
      | .error _ => none
    match pickBest cands with
    | some best => .ok best
    | none => .error ⟨.rest, 1, "no dialect parser succeeded"⟩

/-- Separate type fields induced by a list of param triples: one pair per
typed param. -/
def typesOf (ps : List (String × Option String × String)) : List (String × String) :=
  ps.filterMap fun p =>
    match p.2.1 with
    | some t => some (p.1, t)
    | none => none

/-- Canonical view of a valid meta sequence: params, at most one Returns,
at most one Yields, then raises entries (each with its exception name). -/
structure CanonMeta where
  ps : List (String × Option String × String)
  ret : Option (Option String × String)
  yld : Option (Option String × String)
  rss : List (String × String)
deriving DecidableEq, Repr

/-- List holding the image of an optional value. -/
def optMetaList (f : α → DocstringMeta) : Option α → List DocstringMeta
  | none => []
  | some x => [f x]

/-- The meta sequence denoted by a canonical view. -/
def canonToMeta (c : CanonMeta) : List DocstringMeta :=
  c.ps.map (fun p => .param p.1 p.2.1 p.2.2 false none .positional) ++
    optMetaList (fun r => .returns r.1 r.2 false) c.ret ++
    optMetaList (fun y => .yields y.1 y.2) c.yld ++
    c.rss.map (fun r => .raises (some r.1) r.2)

/-- Well-formedness of a param triple. -/
def tripleOk (p : String × Option String × String) : Bool :=
  nameOk p.1 &&
    (match p.2.1 with
     | some t => typeOk t
     | none => true) && textOk p.2.2

/-- Well-formedness of a Returns or Yields pair. -/
def pairOk (r : Option String × String) : Bool :=
  (match r.1 with
   | some t => typeOk t
   | none => true) && textOk r.2

/-- Well-formedness of a raises pair. -/
def raiseOk (r : String × String) : Bool :=
  nameOk r.1 && textOk r.2

/-- Well-formedness of a canonical view: all atoms well-formed and the
param names distinct. -/
def canonOk (c : CanonMeta) : Bool :=
  c.ps.all tripleOk &&
    (match c.ret with
     | some r => pairOk r
     | none => true) &&
    (match c.yld with
     | some y => pairOk y
     | none => true) &&
    c.rss.all raiseOk &&
    distinctStrings (c.ps.map fun p => p.1)

/-- Raw items the reST and Epydoc parsers extract from the composed field
lines of a canonical meta sequence: params carry no inline type and typed
params emit a separate type field, Returns and Yields split into a
description field and a separate rtype or ytype field. -/
def rawFieldOfCanon (c : CanonMeta) : List RawItem :=
  flatMapL (fun p =>
      RawItem.rparam p.1 none p.2.2 ::
        (match p.2.1 with
         | some t => [RawItem.rtypeF p.1 t]
         | none => [])) c.ps ++
    (match c.ret with
     | none => []
     | some r =>
       RawItem.rret none r.2 ::
         (match r.1 with
          | some t => [RawItem.rrtype t]
          | none => [])) ++
    (match c.yld with
     | none => []
     | some y =>
       RawItem.ryield none y.2 ::
         (match y.1 with
          | some t => [RawItem.rytype t]
          | none => [])) ++
    c.rss.map (fun r => RawItem.rraises (some r.1) r.2)

/-- Raw items the Google and Numpydoc parsers extract from the composed
section entries of a canonical meta sequence: every entry carries its type
inline. -/
def rawInlineOfCanon (c : CanonMeta) : List RawItem :=
  c.ps.map (fun p => RawItem.rparam p.1 p.2.1 p.2.2) ++
    (match c.ret with
     | none => []
     | some r => [RawItem.rret r.1 r.2]) ++
    (match c.yld with
     | none => []
     | some y => [RawItem.ryield y.1 y.2]) ++
    c.rss.map (fun r => RawItem.rraises (some r.1) r.2)

/-- Section list underlying the composed Numpydoc block of a canonical
view, pairing each canonical section header with its body lines. -/
def npCanonSections (c : CanonMeta) : List (String × List String) :=
  [("Parameters", flatMapL npParamLines c.ps),
   ("Returns", flatMapL npRetLines (c.ret.elim [] (fun r => [r]))),
   ("Yields", flatMapL npRetLines (c.yld.elim [] (fun y => [y]))),
   ("Raises", flatMapL npRaiseLines
     (c.rss.map fun r => ((some r.1 : Option String), r.2)))]

/-- Scan over all adjacent line pairs reporting whether no structurally
broken Numpydoc underline occurs. -/
def noBadScan : List String → Bool
  | l1 :: l2 :: rest => !npBadPair l1 l2 && noBadScan (l2 :: rest)
  | _ => true

/-- A line of plain unclassifiable input: blank or a prose atom free of all
dialect markers. -/
def plainLine (l : String) : Bool :=
  isBlank l || textOk l

/-- Concrete valid docstring used to witness the round-trip property. -/
def rtWitnessDoc : Docstring :=
  { short_description := some "Sum things."
    long_description := some ["Long text here", "", "more text"]
    blank_after_short_description := true
    blank_after_long_description := true
    meta := [.param "x" (some "int") "The x value." false none .positional,
             .param "y" none "The y value." false none .positional,
             .returns (some "ret type") "A value." false,
             .yields (some "int") "Items.",
             .raises (some "ValueError") "On bad input."] }

/-- Concrete docstring whose long description contains a field-shaped line;
recomposition after a parse reclassifies that content, refuting idempotent
composition for arbitrary models. -/
def idemCounterDoc : Docstring :=
  { short_description := none
    long_description := some ["a", ":param y: d"]
    blank_after_short_description := false
    blank_after_long_description := false
    meta := [] }

/-- Concrete override model of the merge-correctness scenario: only a short
description and one Param x. -/
def mergeOverrideDoc : Docstring :=
  { short_description := some "Override summary."
    long_description := none
    blank_after_short_description := false
    blank_after_long_description := false
    meta := [.param "x" none "override x description." false none .positional] }

/-- Concrete base model of the merge-correctness scenario: Params x and y
and a Returns entry. -/
def mergeBaseDoc : Docstring :=
  { short_description := some "Base summary."
    long_description := some ["Base long description."]
    blank_after_short_description := true
    blank_after_long_description := false
    meta := [.param "x" (some "int") "base x description." false none .positional,
             .param "y" (some "str") "base y description." false none .positional,
             .returns (some "int") "base result." false] }

/-- Concrete reST text with two param fields for the same name x. -/
def dupParamLines : List String :=
  [":param x: first description", ":param x: second description"]

/-- Concrete Google-style sample for auto-detection. -/
def googleSampleLines : List String :=
  ["Summary line.", "", "Args:", "    x (int): The x."]

/-- Concrete plain prose sample with no dialect markers. -/
def proseSampleLines : List String :=
  ["Just some prose."]

/-- Concrete reST text carrying both a returns field and an rtype field,
the docstring body of the integration test input. -/
def retRtypeLines : List String :=
  ["First line", "", ":returns: smthg", "", ":rtype: ret type", ""]

theorem mkS_data (s : String) : mkS s.data = s := by
  cases s
  rfl

theorem strData_append (a b : String) : (a ++ b).data = a.data ++ b.data := by
  cases a
  cases b
  rfl

theorem splitAtChar_first (c : Char) (a b : List Char)
    (h : a.all (fun ch => ch ≠ c) = true) :
    splitAtChar c (a ++ c :: b) = some (a, b) := by
  induction a with
  | nil => simp [splitAtChar]
  | cons x xs ih =>
    simp only [List.all_cons, Bool.and_eq_true, decide_eq_true_eq] at h
    simp [splitAtChar, h.1, ih h.2]

theorem splitAtChar_none (c : Char) (a : List Char)
    (h : a.all (fun ch => ch ≠ c) = true) :
    splitAtChar c a = none := by
  induction a with
  | nil => rfl
  | cons x xs ih =>
    simp only [List.all_cons, Bool.and_eq_true, decide_eq_true_eq] at h
    simp [splitAtChar, h.1, ih h.2]

theorem flatMapL_append (f : α → List β) (a b : List α) :
    flatMapL f (a ++ b) = flatMapL f a ++ flatMapL f b := by
  induction a with
  | nil => rfl
  | cons x xs ih => simp [flatMapL, ih]

theorem filterMap_flatMapL (g : β → Option γ) (f : α → List β) (l : List α) :
    (flatMapL f l).filterMap g = flatMapL (fun x => (f x).filterMap g) l := by
  induction l with
  | nil => rfl
  | cons x xs ih => simp [flatMapL, List.filterMap_append, ih]

theorem takeWhile_append_all (p : α → Bool) (xs ys : List α)
    (h : ∀ x ∈ xs, p x = true) :
    (xs ++ ys).takeWhile p = xs ++ ys.takeWhile p := by
  induction xs with
  | nil => rfl
  | cons x l ih =>
    have hx : p x = true := h x (by simp)
    simp [List.takeWhile_cons, hx]
    exact ih fun y hy => h y (by simp [hy])

theorem dropWhile_append_all (p : α → Bool) (xs ys : List α)
    (h : ∀ x ∈ xs, p x = true) :
    (xs ++ ys).dropWhile p = ys.dropWhile p := by
  induction xs with
  | nil => rfl
  | cons x l ih =>
    have hx : p x = true := h x (by simp)
    simp [List.dropWhile_cons, hx]
    exact ih fun y hy => h y (by simp [hy])

theorem takeWhile_all (p : α → Bool) (xs : List α) (h : ∀ x ∈ xs, p x = true) :
    xs.takeWhile p = xs := by
  have := takeWhile_append_all p xs [] h
  simpa using this

theorem dropWhile_all (p : α → Bool) (xs : List α) (h : ∀ x ∈ xs, p x = true) :
    xs.dropWhile p = [] := by
  have := dropWhile_append_all p xs [] h
  simpa using this

theorem strip_of_last_not_blank (ls : List String)
    (h : ∀ z, ls.getLast? = some z → isBlank z = false) :
    stripTrailingBlanks ls = ls := by
  unfold stripTrailingBlanks
  cases hrev : ls.reverse with
  | nil =>
    have : ls = [] := by simpa using congrArg List.reverse hrev
    simp [this]
  | cons z rest =>
    have hz : ls.getLast? = some z := by
      rw [← List.head?_reverse, hrev]
      rfl
    have hb : isBlank z = false := h z hz
    rw [List.dropWhile_cons, hb]
    simp only [Bool.false_eq_true, if_false]
    rw [← hrev, List.reverse_reverse]

theorem strip_append_blank (ls : List String)
    (h : ∀ z, ls.getLast? = some z → isBlank z = false) :
    stripTrailingBlanks (ls ++ [""]) = ls := by
  unfold stripTrailingBlanks
  rw [List.reverse_append]
  simp only [List.reverse_cons, List.reverse_nil, List.nil_append, List.singleton_append]
  rw [List.dropWhile_cons]
  have hbl : isBlank "" = true := by decide
  rw [hbl]
  simp only [if_true]
  cases hrev : ls.reverse with
  | nil =>
    have : ls = [] := by simpa using congrArg List.reverse hrev
    simp [this]
  | cons z rest =>
    have hz : ls.getLast? = some z := by
      rw [← List.head?_reverse, hrev]
      rfl
    have hb : isBlank z = false := h z hz
    rw [List.dropWhile_cons, hb]
    simp only [Bool.false_eq_true, if_false]
    rw [← hrev, List.reverse_reverse]

theorem textOk_not_blank (s : String) (h : textOk s = true) : isBlank s = false := by
  unfold textOk at h
  unfold isBlank
  cases hd : s.data with
  | nil => rw [hd] at h; simp at h
  | cons c cs =>
    rw [hd] at h
    simp only [Bool.and_eq_true, decide_eq_true_eq] at h
    simp [h.1.1.1.1]

theorem textOk_no_colon (s : String) (h : textOk s = true) :
    s.data.all (fun ch => ch ≠ ':') = true := by
  unfold textOk at h
  cases hd : s.data with
  | nil => simp
  | cons c cs =>
    rw [hd] at h
    simp only [Bool.and_eq_true, decide_eq_true_eq] at h
    have hall := h.1.2
    refine List.all_eq_true.mpr ?_
    intro x hx
    have hx2 := List.all_eq_true.mp hall x hx
    simp only [Bool.and_eq_true, decide_eq_true_eq] at hx2
    simp [hx2.1.1]

theorem textOk_head (s : String) (c : Char) (cs : List Char)
    (hd : s.data = c :: cs) (h : textOk s = true) :
    (c ≠ ' ' ∧ c ≠ '@') ∧ c ≠ ':' := by
  unfold textOk at h
  rw [hd] at h
  simp only [Bool.and_eq_true, decide_eq_true_eq] at h
  refine ⟨⟨h.1.1.1.1, h.1.1.1.2⟩, ?_⟩
  have hc := List.all_eq_true.mp h.1.2 c (by simp)
  simp only [Bool.and_eq_true, decide_eq_true_eq] at hc
  exact hc.1.1

theorem textOk_not_dash (s : String) (h : textOk s = true) : isDashLine s = false := by
  unfold textOk at h
  cases hd : s.data with
  | nil => unfold isDashLine; rw [hd]; rfl
  | cons c cs =>
    rw [hd] at h
    simp only [Bool.and_eq_true] at h
    have := h.2
    simpa using this

theorem parseFieldLine_none_of_textOk (lead : Char) (hl : lead = ':' ∨ lead = '@')
    (s : String) (h : textOk s = true) : parseFieldLine lead s = none := by
  unfold parseFieldLine
  cases hd : s.data with
  | nil => rfl
  | cons c cs =>
    have hc := textOk_head s c cs hd h
    have hne : c ≠ lead := by
      rcases hl with h1 | h1
      · rw [h1]; exact hc.2
      · rw [h1]; exact hc.1.2
    simp [parseFieldCs, hne]

theorem parseFieldLine_none_of_blank (lead : Char) (hl : lead = ':' ∨ lead = '@')
    (s : String) (h : isBlank s = true) : parseFieldLine lead s = none := by
  unfold parseFieldLine
  cases hd : s.data with
  | nil => rfl
  | cons c cs =>
    unfold isBlank at h
    rw [hd] at h
    simp only [List.all_cons, Bool.and_eq_true, decide_eq_true_eq] at h
    have hne : c ≠ lead := by
      rw [h.1]
      rcases hl with h1 | h1 <;> rw [h1] <;> decide
    simp [parseFieldCs, hne]

theorem googleHeaderOf_none_of_textOk (s : String) (h : textOk s = true) :
    googleHeaderOf s = none := by
  have h1 : s ≠ "Args:" := by intro he; rw [he] at h; exact absurd h (by decide)
  have h2 : s ≠ "Returns:" := by intro he; rw [he] at h; exact absurd h (by decide)
  have h3 : s ≠ "Yields:" := by intro he; rw [he] at h; exact absurd h (by decide)
  have h4 : s ≠ "Raises:" := by intro he; rw [he] at h; exact absurd h (by decide)
  have h5 : s ≠ "Examples:" := by intro he; rw [he] at h; exact absurd h (by decide)
  have h6 : s ≠ "Note:" := by intro he; rw [he] at h; exact absurd h (by decide)
  simp [googleHeaderOf, h1, h2, h3, h4, h5, h6]

theorem googleHeaderOf_none_of_blank (s : String) (h : isBlank s = true) :
    googleHeaderOf s = none := by
  have h1 : s ≠ "Args:" := by intro he; rw [he] at h; exact absurd h (by decide)
  have h2 : s ≠ "Returns:" := by intro he; rw [he] at h; exact absurd h (by decide)
  have h3 : s ≠ "Yields:" := by intro he; rw [he] at h; exact absurd h (by decide)
  have h4 : s ≠ "Raises:" := by intro he; rw [he] at h; exact absurd h (by decide)
  have h5 : s ≠ "Examples:" := by intro he; rw [he] at h; exact absurd h (by decide)
  have h6 : s ≠ "Note:" := by intro he; rw [he] at h; exact absurd h (by decide)
  simp [googleHeaderOf, h1, h2, h3, h4, h5, h6]

theorem isGoogleHeader_false_of_textOk (s : String) (h : textOk s = true) :
    isGoogleHeader s = false := by
  simp [isGoogleHeader, googleHeaderOf_none_of_textOk s h]

theorem isGoogleHeader_false_of_blank (s : String) (h : isBlank s = true) :
    isGoogleHeader s = false := by
  simp [isGoogleHeader, googleHeaderOf_none_of_blank s h]

theorem npHeaderName_cases (s : String) (h : isNpHeaderName s = true) :
    s = "Parameters" ∨ s = "Returns" ∨ s = "Yields" ∨ s = "Raises" ∨ s = "Examples" := by
  unfold isNpHeaderName npHeaderNames at h
  simpa using h

theorem npHeader_not_dash (s : String) (h : isNpHeaderName s = true) :
    isDashLine s = false := by
  rcases npHeaderName_cases s h with h1 | h1 | h1 | h1 | h1 <;> rw [h1] <;> decide

theorem npHeader_not_blank (s : String) (h : isNpHeaderName s = true) :
    isBlank s = false := by
  rcases npHeaderName_cases s h with h1 | h1 | h1 | h1 | h1 <;> rw [h1] <;> decide

theorem npBadPair_false_of_not_dash (a b : String) (h : isDashLine b = false) :
    npBadPair a b = false := by
  unfold npBadPair
  rw [h]
  simp

theorem isBlank_not_dash (s : String) (h : isBlank s = true) : isDashLine s = false := by
  unfold isDashLine
  cases hd : s.data with
  | nil => rfl
  | cons c cs =>
    unfold isBlank at h
    rw [hd] at h
    simp only [List.all_cons, Bool.and_eq_true, decide_eq_true_eq] at h
    rw [h.1]
    simp

theorem data_mkS (cs : List Char) : (mkS cs).data = cs := rfl

theorem parseFieldLine_arg_eq (lead : Char) (tag n d : String)
    (htagc : tag.data.all (fun ch => ch ≠ ':') = true)
    (htags : tag.data.all (fun ch => ch ≠ ' ') = true)
    (hn : n.data.all (fun ch => ch ≠ ':') = true) :
    parseFieldLine lead (fieldLine lead tag (some n) d) =
      parseFieldArgTag tag n d := by
  have hsplit1 :
      splitAtChar ':' (tag.data ++ ' ' :: n.data ++ ':' :: ' ' :: d.data) =
        some (tag.data ++ ' ' :: n.data, ' ' :: d.data) := by
    have hre : tag.data ++ ' ' :: n.data ++ ':' :: ' ' :: d.data =
        (tag.data ++ ' ' :: n.data) ++ ':' :: (' ' :: d.data) := by simp
    rw [hre]
    apply splitAtChar_first
    simp only [List.all_append, List.all_cons, Bool.and_eq_true]
    exact ⟨htagc, by decide, hn⟩
  have hsplit2 :
      splitAtChar ' ' (tag.data ++ ' ' :: n.data) =
        some (tag.data, n.data) := splitAtChar_first _ _ _ htags
  unfold fieldLine parseFieldLine
  simp only [data_mkS]
  show (if lead = lead then
      parseFieldRest (tag.data ++ ' ' :: n.data ++ ':' :: ' ' :: d.data)
    else none) = parseFieldArgTag tag n d
  rw [if_pos rfl]
  unfold parseFieldRest
  rw [hsplit1]
  unfold parseFieldAfterColon
  simp only []
  rw [hsplit2]
  simp only [dropOneSpace, mkS_data]

theorem parseFieldLine_noarg_eq (lead : Char) (tag d : String)
    (htagc : tag.data.all (fun ch => ch ≠ ':') = true)
    (htags : tag.data.all (fun ch => ch ≠ ' ') = true) :
    parseFieldLine lead (fieldLine lead tag none d) =
      parseFieldNoArgTag tag d := by
  have hsplit1 :
      splitAtChar ':' (tag.data ++ ':' :: ' ' :: d.data) =
        some (tag.data, ' ' :: d.data) := splitAtChar_first _ _ _ htagc
  have hsplit2 : splitAtChar ' ' tag.data = none := splitAtChar_none _ _ htags
  unfold fieldLine parseFieldLine
  simp only [data_mkS]
  show (if lead = lead then
      parseFieldRest (tag.data ++ [] ++ ':' :: ' ' :: d.data)
    else none) = parseFieldNoArgTag tag d
  rw [if_pos rfl]
  unfold parseFieldRest
  simp only [List.append_nil, List.nil_append]
  rw [hsplit1]
  unfold parseFieldAfterColon
  simp only []
  rw [hsplit2]
  simp only [dropOneSpace, mkS_data]

theorem nameOk_no_colon (s : String) (h : nameOk s = true) :
    s.data.all (fun ch => ch ≠ ':') = true := by
  unfold nameOk at h
  simp only [Bool.and_eq_true] at h
  refine List.all_eq_true.mpr ?_
  intro x hx
  have hx2 := List.all_eq_true.mp h.1.2 x hx
  simp only [Bool.and_eq_true, decide_eq_true_eq] at hx2
  simp [hx2.1.1.2]

theorem nameOk_no_space (s : String) (h : nameOk s = true) :
    s.data.all (fun ch => ch ≠ ' ') = true := by
  unfold nameOk at h
  simp only [Bool.and_eq_true] at h
  refine List.all_eq_true.mpr ?_
  intro x hx
  have hx2 := List.all_eq_true.mp h.1.2 x hx
  simp only [Bool.and_eq_true, decide_eq_true_eq] at hx2
  simp [hx2.1.1.1]

theorem typeOk_no_colon (s : String) (h : typeOk s = true) :
    s.data.all (fun ch => ch ≠ ':') = true := by
  unfold typeOk at h
  cases hd : s.data with
  | nil => simp
  | cons c cs =>
    rw [hd] at h
    simp only [Bool.and_eq_true] at h
    refine List.all_eq_true.mpr ?_
    intro x hx
    have hx2 := List.all_eq_true.mp h.1.2 x hx
    simp only [Bool.and_eq_true, decide_eq_true_eq] at hx2
    simp [hx2.1.1]

theorem parseField_param (lead : Char) (n d : String) (hn : nameOk n = true) :
    parseFieldLine lead (fieldLine lead "param" (some n) d) =
      some (.rparam n none d) := by
  rw [parseFieldLine_arg_eq lead "param" n d (by decide) (by decide)
    (nameOk_no_colon n hn)]
  rfl

theorem parseField_type (lead : Char) (n ty : String) (hn : nameOk n = true) :
    parseFieldLine lead (fieldLine lead "type" (some n) ty) =
      some (.rtypeF n ty) := by
  rw [parseFieldLine_arg_eq lead "type" n ty (by decide) (by decide)
    (nameOk_no_colon n hn)]
  rfl

theorem parseField_raises (lead : Char) (t d : String) (ht : nameOk t = true) :
    parseFieldLine lead (fieldLine lead "raises" (some t) d) =
      some (.rraises (some t) d) := by
  rw [parseFieldLine_arg_eq lead "raises" t d (by decide) (by decide)
    (nameOk_no_colon t ht)]
  rfl

theorem parseField_returns (lead : Char) (d : String) :
    parseFieldLine lead (fieldLine lead "returns" none d) =
      some (.rret none d) := by
  rw [parseFieldLine_noarg_eq lead "returns" d (by decide) (by decide)]
  rfl

theorem parseField_rtype (lead : Char) (d : String) :
    parseFieldLine lead (fieldLine lead "rtype" none d) =
      some (.rrtype d) := by
  rw [parseFieldLine_noarg_eq lead "rtype" d (by decide) (by decide)]
  rfl

theorem parseField_yields (lead : Char) (d : String) :
    parseFieldLine lead (fieldLine lead "yields" none d) =
      some (.ryield none d) := by
  rw [parseFieldLine_noarg_eq lead "yields" d (by decide) (by decide)]
  rfl

theorem parseField_ytype (lead : Char) (d : String) :
    parseFieldLine lead (fieldLine lead "ytype" none d) =
      some (.rytype d) := by
  rw [parseFieldLine_noarg_eq lead "ytype" d (by decide) (by decide)]
  rfl

theorem fieldMetaScan_fields (lead : Char) (ls : List String)
    (acc : List RawItem) (prose : List String)
    (h : ∀ l ∈ ls, (parseFieldLine lead l).isSome = true) :
    fieldMetaScan lead ls acc prose =
      (acc ++ ls.filterMap (parseFieldLine lead), prose) := by
  induction ls generalizing acc with
  | nil => simp [fieldMetaScan]
  | cons l rest ih =>
    obtain ⟨item, hit⟩ := Option.isSome_iff_exists.mp (h l (by simp))
    rw [fieldMetaScan, hit]
    show fieldMetaScan lead rest (acc ++ [item]) prose =
      (acc ++ List.filterMap (parseFieldLine lead) (l :: rest), prose)
    rw [ih (acc ++ [item]) fun y hy => h y (by simp [hy])]
    simp [List.filterMap_cons, hit]

theorem longBlockOk_parts (ls : List String) (h : longBlockOk ls = true) :
    (∃ a tl, ls = a :: tl ∧ textOk a = true) ∧
      (∀ z, ls.getLast? = some z → isBlank z = false) ∧
      (∀ l ∈ ls, isBlank l = true ∨ textOk l = true) := by
  unfold longBlockOk at h
  cases hls : ls with
  | nil => rw [hls] at h; simp at h
  | cons a tl =>
    rw [hls] at h
    simp only [Bool.and_eq_true] at h
    refine ⟨⟨a, tl, rfl, h.1.1⟩, ?_, ?_⟩
    · intro z hz
      have := h.1.2
      rw [hz] at this
      exact textOk_not_blank z this
    · intro l hl
      have := List.all_eq_true.mp h.2 l (hls ▸ hl)
      simp only [Bool.or_eq_true] at this
      exact this

theorem splitDescPhase_marker (isMark : String → Bool) (metaL : List String)
    (hmeta : ∀ x xs, metaL = x :: xs → isMark x = true ∧ isBlank x = false) :
    splitDescPhase isMark metaL = ⟨none, false, none, false, metaL⟩ := by
  cases hm : metaL with
  | nil => rfl
  | cons x xs =>
    obtain ⟨hx, hbx⟩ := hmeta x xs hm
    unfold splitDescPhase
    rw [List.dropWhile_cons, hbx]
    simp [hx]

theorem not_isMark_of_blank (isMark : String → Bool)
    (hblank : ∀ l, isBlank l = true → isMark l = false) (l : String)
    (h : isBlank l = true) : (!isMark l) = true := by
  rw [hblank l h]
  rfl

theorem takeWhile_meta_nil (isMark : String → Bool) (metaL : List String)
    (hmeta : ∀ x xs, metaL = x :: xs → isMark x = true ∧ isBlank x = false) :
    metaL.takeWhile (fun l => !isMark l) = [] := by
  cases hm : metaL with
  | nil => rfl
  | cons x xs =>
    obtain ⟨hx, _⟩ := hmeta x xs hm
    rw [List.takeWhile_cons, hx]
    rfl

theorem dropWhile_meta_self (isMark : String → Bool) (metaL : List String)
    (hmeta : ∀ x xs, metaL = x :: xs → isMark x = true ∧ isBlank x = false) :
    metaL.dropWhile (fun l => !isMark l) = metaL := by
  cases hm : metaL with
  | nil => rfl
  | cons x xs =>
    obtain ⟨hx, _⟩ := hmeta x xs hm
    rw [List.dropWhile_cons, hx]
    rfl

theorem dropWhile_blank_meta_self (metaL : List String)
    (hmeta : ∀ x xs, metaL = x :: xs → isBlank x = false) :
    metaL.dropWhile isBlank = metaL := by
  cases hm : metaL with
  | nil => rfl
  | cons x xs =>
    rw [List.dropWhile_cons, hmeta x xs hm]
    rfl


theorem descLongPart_meta (isMark : String → Bool) (metaL : List String)
    (hmeta : ∀ x xs, metaL = x :: xs → isMark x = true ∧ isBlank x = false) :
    descLongPart isMark metaL = (none, false, metaL) := by
  unfold descLongPart
  rw [takeWhile_meta_nil isMark metaL hmeta]
  rw [dropWhile_meta_self isMark metaL hmeta]
  rfl

theorem descLongPart_long (isMark : String → Bool) (ls : List String) (fL : Bool)
    (metaL : List String)
    (hok : longBlockOk ls = true) (hnm : ∀ l ∈ ls, isMark l = false)
    (hblank : ∀ l, isBlank l = true → isMark l = false)
    (hmeta : ∀ x xs, metaL = x :: xs → isMark x = true ∧ isBlank x = false) :
    descLongPart isMark ((ls ++ (if fL then [""] else [])) ++ metaL) =
      (some ls, fL, metaL) := by
  obtain ⟨⟨a, tl, hls, _⟩, hlast, _⟩ := longBlockOk_parts ls hok
  have hallnm : ∀ x ∈ ls ++ (if fL then [""] else []), (!isMark x) = true := by
    intro x hx
    rcases List.mem_append.mp hx with hx1 | hx1
    · rw [hnm x hx1]; rfl
    · cases fL with
      | false => simp at hx1
      | true =>
        simp only [if_pos] at hx1
        have hxe : x = "" := by simpa using hx1
        rw [hxe]
        exact not_isMark_of_blank isMark hblank "" (by decide)
  have htake :
      ((ls ++ (if fL then [""] else [])) ++ metaL).takeWhile (fun l => !isMark l) =
        ls ++ (if fL then [""] else []) := by
    rw [takeWhile_append_all _ _ _ hallnm]
    rw [takeWhile_meta_nil isMark metaL hmeta, List.append_nil]
  have hdrop :
      ((ls ++ (if fL then [""] else [])) ++ metaL).dropWhile (fun l => !isMark l) =
        metaL := by
    rw [dropWhile_append_all _ _ _ hallnm]
    exact dropWhile_meta_self isMark metaL hmeta
  have hstrip :
      stripTrailingBlanks (ls ++ (if fL then [""] else [])) = ls := by
    cases fL with
    | false =>
      simp only [Bool.false_eq_true, if_false, List.append_nil]
      exact strip_of_last_not_blank ls hlast
    | true =>
      simp only [if_pos]
      exact strip_append_blank ls hlast
  unfold descLongPart
  rw [htake, hdrop]
  dsimp only
  rw [hstrip]
  subst hls
  cases fL <;> simp

theorem dropWhile_cons_of_neg (p : α → Bool) (a : α) (l : List α)
    (h : p a = false) : (a :: l).dropWhile p = a :: l := by
  rw [List.dropWhile_cons, h]
  simp

theorem splitDescPhase_eq (isMark : String → Bool) (s : String)
    (fS fL : Bool) (lo : Option (List String)) (metaL : List String)
    (hs : textOk s = true) (hsm : isMark s = false)
    (hblank : ∀ l, isBlank l = true → isMark l = false)
    (hlo : match lo with
           | none => fL = false
           | some ls => longBlockOk ls = true ∧ ∀ l ∈ ls, isMark l = false)
    (hmeta : ∀ x xs, metaL = x :: xs → isMark x = true ∧ isBlank x = false) :
    splitDescPhase isMark
      (s :: ((if fS then [""] else []) ++
        ((match lo with
          | none => []
          | some ls => ls ++ (if fL then [""] else [])) ++ metaL))) =
      ⟨some s, fS, lo, fL, metaL⟩ := by
  have hsb : isBlank s = false := textOk_not_blank s hs
  have hmb : ∀ x xs, metaL = x :: xs → isBlank x = false :=
    fun x xs hx => (hmeta x xs hx).2
  cases lo with
  | none =>
    have hfL : fL = false := hlo
    subst hfL
    have hlp : descLongPart isMark metaL = (none, false, metaL) :=
      descLongPart_meta isMark metaL hmeta
    have hdwm : metaL.dropWhile isBlank = metaL :=
      dropWhile_blank_meta_self metaL hmb
    have hflag : descFlagS ((if fS then [""] else []) ++ ([] ++ metaL)) = fS := by
      cases fS with
      | true => rfl
      | false =>
        simp only [Bool.false_eq_true, if_false, List.nil_append]
        cases hm : metaL with
        | nil => rfl
        | cons x xs =>
          show isBlank x = false
          exact hmb x xs hm
    have hrest :
        ((if fS then [""] else []) ++ ([] ++ metaL)).dropWhile isBlank = metaL := by
      cases fS with
      | true =>
        simp only [if_pos, List.nil_append, List.singleton_append]
        rw [List.dropWhile_cons]
        exact hdwm
      | false =>
        simp only [Bool.false_eq_true, if_false, List.nil_append]
        exact hdwm
    unfold splitDescPhase
    rw [dropWhile_cons_of_neg isBlank s _ hsb]
    dsimp only
    rw [hsm]
    simp only [Bool.false_eq_true, if_false]
    rw [hflag, hrest, hlp]
  | some ls =>
    obtain ⟨hok, hnm⟩ := hlo
    obtain ⟨⟨a, tl, hls, hta⟩, _, _⟩ := longBlockOk_parts ls hok
    have hab : isBlank a = false := textOk_not_blank a hta
    have hlp := descLongPart_long isMark ls fL metaL hok hnm hblank hmeta
    have hflag :
        descFlagS ((if fS then [""] else []) ++
          ((ls ++ (if fL then [""] else [])) ++ metaL)) = fS := by
      cases fS with
      | true => rfl
      | false =>
        simp only [Bool.false_eq_true, if_false, List.nil_append]
        rw [hls]
        simp only [List.cons_append]
        show isBlank a = false
        exact hab
    have hrest :
        ((if fS then [""] else []) ++
          ((ls ++ (if fL then [""] else [])) ++ metaL)).dropWhile isBlank =
          (ls ++ (if fL then [""] else [])) ++ metaL := by
      have hbase :
          ((ls ++ (if fL then [""] else [])) ++ metaL).dropWhile isBlank =
            (ls ++ (if fL then [""] else [])) ++ metaL := by
        rw [hls]
        simp only [List.cons_append]
        exact dropWhile_cons_of_neg isBlank a _ hab
      cases fS with
      | true =>
        simp only [if_pos, List.singleton_append]
        rw [List.dropWhile_cons]
        have hbe : isBlank "" = true := by decide
        rw [hbe]
        simp only [if_true]
        simpa using hbase
      | false =>
        simp only [Bool.false_eq_true, if_false, List.nil_append]
        simpa using hbase
    unfold splitDescPhase
    rw [dropWhile_cons_of_neg isBlank s _ hsb]
    dsimp only
    rw [hsm]
    simp only [Bool.false_eq_true, if_false]
    rw [hflag, hrest, hlp]

theorem flatMapL_singleton (f : α → β) (l : List α) :
    flatMapL (fun x => [f x]) l = l.map f := by
  induction l with
  | nil => rfl
  | cons x xs ih => simp [flatMapL, ih]

theorem filterMap_const_none (l : List α) :
    l.filterMap (fun _ => (none : Option β)) = [] := by
  induction l with
  | nil => rfl
  | cons x xs ih => simp [List.filterMap_cons, ih]

theorem not_mem_of_contains_false (x : String) (l : List String)
    (h : l.contains x = false) : ¬ x ∈ l := by
  intro hm
  rw [List.contains_eq_any_beq] at h
  have : l.any (fun y => x == y) = true := by
    refine List.any_eq_true.mpr ?_
    exact ⟨x, hm, by simp⟩
  rw [this] at h
  cases h

theorem contains_true_of_mem (x : String) (l : List String)
    (h : x ∈ l) : l.contains x = true := by
  cases hc : l.contains x with
  | true => rfl
  | false => exact absurd h (not_mem_of_contains_false x l hc)

theorem mem_of_contains_true (x : String) (l : List String)
    (h : l.contains x = true) : x ∈ l := by
  rw [List.contains_eq_any_beq] at h
  obtain ⟨y, hy, he⟩ := List.any_eq_true.mp h
  have hxy : x = y := by simpa using he
  rw [hxy]
  exact hy

theorem distinct_names_sep (L1 L2 : List String) (n : String)
    (h : distinctStrings (L1 ++ n :: L2) = true) : ∀ m ∈ L1, m ≠ n := by
  induction L1 with
  | nil => intro m hm; cases hm
  | cons a as ih =>
    intro m hm
    simp only [List.cons_append, distinctStrings, Bool.and_eq_true] at h
    rcases List.mem_cons.mp hm with hm1 | hm1
    · subst hm1
      intro he
      subst he
      have hno := not_mem_of_contains_false m (as ++ m :: L2) (by simpa using h.1)
      exact hno (by simp)
    · exact ih h.2 m hm1

theorem contains_false_of_not_mem (x : String) (l : List String)
    (h : ¬ x ∈ l) : l.contains x = false := by
  cases hc : l.contains x with
  | false => rfl
  | true => exact absurd (mem_of_contains_true x l hc) h

theorem distinct_tail_append (L1 L2 : List String) (n : String)
    (h : distinctStrings (L1 ++ n :: L2) = true) :
    distinctStrings (L1 ++ L2) = true := by
  induction L1 with
  | nil =>
    simp only [List.nil_append, distinctStrings, Bool.and_eq_true] at h
    simpa using h.2
  | cons a as ih =>
    simp only [List.cons_append, distinctStrings, Bool.and_eq_true] at h ⊢
    refine ⟨?_, ih h.2⟩
    have hnm : ¬ a ∈ as ++ n :: L2 := not_mem_of_contains_false a _ (by simpa using h.1)
    have hnm2 : ¬ a ∈ as ++ L2 := by
      intro hm
      apply hnm
      rcases List.mem_append.mp hm with h3 | h3
      · exact List.mem_append.mpr (Or.inl h3)
      · exact List.mem_append.mpr (Or.inr (List.mem_cons.mpr (Or.inr h3)))
    show (!(as ++ L2).contains a) = true
    rw [contains_false_of_not_mem a (as ++ L2) hnm2]
    rfl

theorem dedupLast_aux (l : List (String × Option String × String)) :
    ∀ acc, distinctStrings ((acc ++ l).map (fun p => p.1)) = true →
    l.foldl (fun acc x => acc.filter (fun y => y.1 ≠ x.1) ++ [x]) acc = acc ++ l := by
  induction l with
  | nil => intro acc _; simp
  | cons x xs ih =>
    intro acc h
    have hsep : ∀ m ∈ acc.map (fun p => p.1), m ≠ x.1 := by
      have hmap : (acc ++ x :: xs).map (fun p => p.1) =
          acc.map (fun p => p.1) ++ x.1 :: xs.map (fun p => p.1) := by simp
      rw [hmap] at h
      exact distinct_names_sep _ _ _ h
    have hfilter : acc.filter (fun y => y.1 ≠ x.1) = acc := by
      refine List.filter_eq_self.mpr ?_
      intro a ha
      have := hsep a.1 (List.mem_map_of_mem _ ha)
      simpa using this
    simp only [List.foldl_cons]
    rw [hfilter]
    have h2 : distinctStrings (((acc ++ [x]) ++ xs).map (fun p => p.1)) = true := by
      have he : (acc ++ [x]) ++ xs = acc ++ x :: xs := by simp
      rw [he]
      exact h
    rw [ih (acc ++ [x]) h2]
    simp

theorem dedupLast_of_distinct (l : List (String × Option String × String))
    (h : distinctStrings (l.map (fun p => p.1)) = true) :
    dedupLast l = l := by
  unfold dedupLast
  have := dedupLast_aux l [] (by simpa using h)
  simpa using this

theorem typesOf_name_mem (ps : List (String × Option String × String)) :
    ∀ y ∈ typesOf ps, y.1 ∈ ps.map (fun p => p.1) := by
  induction ps with
  | nil => intro y hy; cases hy
  | cons q rest ih =>
    intro y hy
    unfold typesOf at hy
    rw [List.filterMap_cons] at hy
    cases hq : q.2.1 with
    | some t =>
      rw [hq] at hy
      rcases List.mem_cons.mp hy with h1 | h1
      · rw [h1]; simp
      · have := ih y h1
        simp [this]
    | none =>
      rw [hq] at hy
      have := ih y hy
      simp [this]

theorem lookupLast_all_ne (tm : List (String × String)) (n : String)
    (h : ∀ y ∈ tm, y.1 ≠ n) : lookupLast tm n = none := by
  unfold lookupLast
  have hfil : tm.filter (fun y => y.1 = n) = [] := by
    refine List.filter_eq_nil_iff.mpr ?_
    intro a ha
    simp [h a ha]
  rw [hfil]
  rfl

theorem lookupLast_typesOf (ps : List (String × Option String × String))
    (h : distinctStrings (ps.map (fun p => p.1)) = true) :
    ∀ p ∈ ps, lookupLast (typesOf ps) p.1 = p.2.1 := by
  induction ps with
  | nil => intro p hp; cases hp
  | cons q rest ih =>
    have hq1 : ¬ q.1 ∈ rest.map (fun p => p.1) := by
      simp only [List.map_cons, distinctStrings, Bool.and_eq_true] at h
      exact not_mem_of_contains_false _ _ (by simpa using h.1)
    have hdr : distinctStrings (rest.map (fun p => p.1)) = true := by
      simp only [List.map_cons, distinctStrings, Bool.and_eq_true] at h
      exact h.2
    have hrestne : ∀ y ∈ typesOf rest, y.1 ≠ q.1 := by
      intro y hy he
      exact hq1 (he ▸ typesOf_name_mem rest y hy)
    intro p hp
    rcases List.mem_cons.mp hp with hp1 | hp1
    · subst hp1
      unfold typesOf
      rw [List.filterMap_cons]
      cases hq : p.2.1 with
      | some t =>
        dsimp only
        unfold lookupLast
        have hrestne2 : ∀ y ∈ (rest.filterMap fun r =>
            match r.2.1 with
            | some ty => some (r.1, ty)
            | none => none), y.1 ≠ p.1 := hrestne
        have hfil : (rest.filterMap fun r =>
            match r.2.1 with
            | some ty => some (r.1, ty)
            | none => none).filter (fun y => y.1 = p.1) = [] := by
          refine List.filter_eq_nil_iff.mpr ?_
          intro a ha
          have hne2 := hrestne2 a ha
          simp [hne2]
        rw [List.filter_cons]
        simp only [decide_eq_true_eq]
        rw [if_pos trivial]
        rw [hfil]
        rfl
      | none =>
        dsimp only
        have hrestne2 : ∀ y ∈ (rest.filterMap fun r =>
            match r.2.1 with
            | some ty => some (r.1, ty)
            | none => none), y.1 ≠ p.1 := hrestne
        exact lookupLast_all_ne _ _ hrestne2
    · have hne : q.1 ≠ p.1 := by
        intro he
        exact hq1 (he ▸ List.mem_map_of_mem _ hp1)
      have hih := ih hdr p hp1
      unfold typesOf at hih ⊢
      rw [List.filterMap_cons]
      cases hq : q.2.1 with
      | some t =>
        dsimp only
        unfold lookupLast at hih ⊢
        rw [List.filter_cons]
        simp only [decide_eq_true_eq]
        rw [if_neg hne]
        exact hih
      | none =>
        dsimp only
        exact hih

theorem flatMapL_nil_of (f : α → List β) (l : List α)
    (h : ∀ x ∈ l, f x = []) : flatMapL f l = [] := by
  induction l with
  | nil => rfl
  | cons x xs ih =>
    simp only [flatMapL, h x (by simp)]
    exact ih fun y hy => h y (by simp [hy])

theorem filterMap_some_map (f : α → β) (l : List α) :
    l.filterMap (fun a => some (f a)) = l.map f := by
  induction l with
  | nil => rfl
  | cons x xs ih => simp [List.filterMap_cons, ih]

theorem fieldA_filterMap_none (s : RawItem → Option β)
    (ps : List (String × Option String × String))
    (h1 : ∀ n t d, s (.rparam n t d) = none)
    (h2 : ∀ n t, s (.rtypeF n t) = none) :
    (flatMapL (fun p =>
      RawItem.rparam p.1 none p.2.2 ::
        (match p.2.1 with
         | some t => [RawItem.rtypeF p.1 t]
         | none => [])) ps).filterMap s = [] := by
  rw [filterMap_flatMapL]
  apply flatMapL_nil_of
  intro p _
  cases hp : p.2.1 <;> simp [List.filterMap_cons, h1, h2, hp]

theorem fieldA_selParam (ps : List (String × Option String × String)) :
    (flatMapL (fun p =>
      RawItem.rparam p.1 none p.2.2 ::
        (match p.2.1 with
         | some t => [RawItem.rtypeF p.1 t]
         | none => [])) ps).filterMap selParam =
      ps.map (fun p => (p.1, none, p.2.2)) := by
  rw [filterMap_flatMapL]
  have h : ∀ p ∈ ps, (RawItem.rparam p.1 none p.2.2 ::
      (match p.2.1 with
       | some t => [RawItem.rtypeF p.1 t]
       | none => [])).filterMap selParam = [(p.1, none, p.2.2)] := by
    intro p _
    cases hp : p.2.1 <;> simp [List.filterMap_cons, selParam, hp]
  induction ps with
  | nil => rfl
  | cons x xs ih =>
    simp only [flatMapL, List.map_cons]
    rw [h x (by simp)]
    rw [ih fun y hy => h y (by simp [hy])]
    rfl

theorem fieldA_selTypeF (ps : List (String × Option String × String)) :
    (flatMapL (fun p =>
      RawItem.rparam p.1 none p.2.2 ::
        (match p.2.1 with
         | some t => [RawItem.rtypeF p.1 t]
         | none => [])) ps).filterMap selTypeF = typesOf ps := by
  rw [filterMap_flatMapL]
  have h : ∀ p ∈ ps, (RawItem.rparam p.1 none p.2.2 ::
      (match p.2.1 with
       | some t => [RawItem.rtypeF p.1 t]
       | none => [])).filterMap selTypeF =
        (match p.2.1 with
         | some t => [(p.1, t)]
         | none => []) := by
    intro p _
    cases hp : p.2.1 <;> simp [List.filterMap_cons, selTypeF, hp]
  induction ps with
  | nil => rfl
  | cons x xs ih =>
    simp only [flatMapL]
    rw [h x (by simp)]
    rw [ih fun y hy => h y (by simp [hy])]
    unfold typesOf
    rw [List.filterMap_cons]
    cases hx : x.2.1 <;> simp [typesOf]

theorem fieldB_filterMap_none (s : RawItem → Option β)
    (ret : Option (Option String × String))
    (h1 : ∀ d, s (.rret none d) = none) (h2 : ∀ t, s (.rrtype t) = none) :
    ((match ret with
      | none => []
      | some r =>
        RawItem.rret none r.2 ::
          (match r.1 with
           | some t => [RawItem.rrtype t]
           | none => [])) : List RawItem).filterMap s = [] := by
  cases ret with
  | none => rfl
  | some r =>
    obtain ⟨t1, d1⟩ := r
    cases t1 <;> simp [List.filterMap_cons, h1, h2]

theorem fieldC_filterMap_none (s : RawItem → Option β)
    (yld : Option (Option String × String))
    (h1 : ∀ d, s (.ryield none d) = none) (h2 : ∀ t, s (.rytype t) = none) :
    ((match yld with
      | none => []
      | some y =>
        RawItem.ryield none y.2 ::
          (match y.1 with
           | some t => [RawItem.rytype t]
           | none => [])) : List RawItem).filterMap s = [] := by
  cases yld with
  | none => rfl
  | some y =>
    obtain ⟨t1, d1⟩ := y
    cases t1 <;> simp [List.filterMap_cons, h1, h2]

theorem fieldD_filterMap_none (s : RawItem → Option β)
    (rss : List (String × String))
    (h : ∀ t d, s (.rraises (some t) d) = none) :
    ((rss.map fun r => RawItem.rraises (some r.1) r.2).filterMap s) = [] := by
  refine List.filterMap_eq_nil_iff.mpr ?_
  intro i hi
  obtain ⟨r, _, rfl⟩ := List.mem_map.mp hi
  exact h r.1 r.2

theorem field_rawParams (c : CanonMeta) :
    rawParams (rawFieldOfCanon c) = c.ps.map (fun p => (p.1, none, p.2.2)) := by
  unfold rawParams rawFieldOfCanon
  rw [List.filterMap_append, List.filterMap_append, List.filterMap_append]
  rw [fieldA_selParam]
  rw [fieldB_filterMap_none selParam c.ret (fun d => rfl) (fun t => rfl)]
  rw [fieldC_filterMap_none selParam c.yld (fun d => rfl) (fun t => rfl)]
  rw [fieldD_filterMap_none selParam c.rss (fun t d => rfl)]
  simp

theorem field_rawTypeFields (c : CanonMeta) :
    rawTypeFields (rawFieldOfCanon c) = typesOf c.ps := by
  unfold rawTypeFields rawFieldOfCanon
  rw [List.filterMap_append, List.filterMap_append, List.filterMap_append]
  rw [fieldA_selTypeF]
  rw [fieldB_filterMap_none selTypeF c.ret (fun d => rfl) (fun t => rfl)]
  rw [fieldC_filterMap_none selTypeF c.yld (fun d => rfl) (fun t => rfl)]
  rw [fieldD_filterMap_none selTypeF c.rss (fun t d => rfl)]
  simp

theorem field_rawRetDesc (c : CanonMeta) :
    rawRetDesc (rawFieldOfCanon c) = c.ret.map (fun r => r.2) := by
  unfold rawRetDesc rawFieldOfCanon
  rw [List.filterMap_append, List.filterMap_append, List.filterMap_append]
  rw [fieldA_filterMap_none selRetDesc c.ps (fun n t d => rfl) (fun n t => rfl)]
  rw [fieldC_filterMap_none selRetDesc c.yld (fun d => rfl) (fun t => rfl)]
  rw [fieldD_filterMap_none selRetDesc c.rss (fun t d => rfl)]
  cases c.ret with
  | none => rfl
  | some r =>
    obtain ⟨t1, d1⟩ := r
    cases t1 <;> simp [List.filterMap_cons, selRetDesc]

theorem field_rawRetType (c : CanonMeta) :
    rawRetType (rawFieldOfCanon c) =
      (match c.ret with
       | some r => r.1
       | none => none) := by
  unfold rawRetType rawFieldOfCanon
  rw [List.filterMap_append, List.filterMap_append, List.filterMap_append]
  rw [fieldA_filterMap_none selRetType c.ps (fun n t d => rfl) (fun n t => rfl)]
  rw [fieldC_filterMap_none selRetType c.yld (fun d => rfl) (fun t => rfl)]
  rw [fieldD_filterMap_none selRetType c.rss (fun t d => rfl)]
  cases c.ret with
  | none => rfl
  | some r =>
    obtain ⟨t1, d1⟩ := r
    cases t1 <;> simp [List.filterMap_cons, selRetType]

theorem field_rawYldDesc (c : CanonMeta) :
    rawYldDesc (rawFieldOfCanon c) = c.yld.map (fun y => y.2) := by
  unfold rawYldDesc rawFieldOfCanon
  rw [List.filterMap_append, List.filterMap_append, List.filterMap_append]
  rw [fieldA_filterMap_none selYldDesc c.ps (fun n t d => rfl) (fun n t => rfl)]
  rw [fieldB_filterMap_none selYldDesc c.ret (fun d => rfl) (fun t => rfl)]
  rw [fieldD_filterMap_none selYldDesc c.rss (fun t d => rfl)]
  cases c.yld with
  | none => rfl
  | some y =>
    obtain ⟨t1, d1⟩ := y
    cases t1 <;> simp [List.filterMap_cons, selYldDesc]

theorem field_rawYldType (c : CanonMeta) :
    rawYldType (rawFieldOfCanon c) =
      (match c.yld with
       | some y => y.1
       | none => none) := by
  unfold rawYldType rawFieldOfCanon
  rw [List.filterMap_append, List.filterMap_append, List.filterMap_append]
  rw [fieldA_filterMap_none selYldType c.ps (fun n t d => rfl) (fun n t => rfl)]
  rw [fieldB_filterMap_none selYldType c.ret (fun d => rfl) (fun t => rfl)]
  rw [fieldD_filterMap_none selYldType c.rss (fun t d => rfl)]
  cases c.yld with
  | none => rfl
  | some y =>
    obtain ⟨t1, d1⟩ := y
    cases t1 <;> simp [List.filterMap_cons, selYldType]

theorem field_rawRaises (c : CanonMeta) :
    (rawFieldOfCanon c).filterMap selRaises =
      c.rss.map (fun r => DocstringMeta.raises (some r.1) r.2) := by
  unfold rawFieldOfCanon
  rw [List.filterMap_append, List.filterMap_append, List.filterMap_append]
  rw [fieldA_filterMap_none selRaises c.ps (fun n t d => rfl) (fun n t => rfl)]
  rw [fieldB_filterMap_none selRaises c.ret (fun d => rfl) (fun t => rfl)]
  rw [fieldC_filterMap_none selRaises c.yld (fun d => rfl) (fun t => rfl)]
  rw [List.filterMap_map]
  rw [show (selRaises ∘ fun r : String × String =>
    RawItem.rraises (some r.1) r.2) =
      (fun r : String × String =>
        some (DocstringMeta.raises (some r.1) r.2)) from funext fun r => rfl]
  rw [filterMap_some_map]
  simp

theorem field_rawRest_nil (c : CanonMeta) (s : RawItem → Option β)
    (h1 : ∀ n t d, s (.rparam n t d) = none) (h2 : ∀ n t, s (.rtypeF n t) = none)
    (h3 : ∀ d, s (.rret none d) = none) (h4 : ∀ t, s (.rrtype t) = none)
    (h5 : ∀ d, s (.ryield none d) = none) (h6 : ∀ t, s (.rytype t) = none)
    (h7 : ∀ t d, s (.rraises (some t) d) = none) :
    (rawFieldOfCanon c).filterMap s = [] := by
  unfold rawFieldOfCanon
  rw [List.filterMap_append, List.filterMap_append, List.filterMap_append]
  rw [fieldA_filterMap_none s c.ps h1 h2]
  rw [fieldB_filterMap_none s c.ret h3 h4]
  rw [fieldC_filterMap_none s c.yld h5 h6]
  rw [fieldD_filterMap_none s c.rss h7]
  rfl

theorem inlineA_filterMap_none (s : RawItem → Option β)
    (ps : List (String × Option String × String))
    (h : ∀ n t d, s (.rparam n t d) = none) :
    ((ps.map fun p => RawItem.rparam p.1 p.2.1 p.2.2).filterMap s) = [] := by
  refine List.filterMap_eq_nil_iff.mpr ?_
  intro i hi
  obtain ⟨p, _, rfl⟩ := List.mem_map.mp hi
  exact h p.1 p.2.1 p.2.2

theorem inlineB_filterMap_none (s : RawItem → Option β)
    (ret : Option (Option String × String))
    (h : ∀ t d, s (.rret t d) = none) :
    ((match ret with
      | none => []
      | some r => [RawItem.rret r.1 r.2]) : List RawItem).filterMap s = [] := by
  cases ret with
  | none => rfl
  | some r => simp [List.filterMap_cons, h]

theorem inlineC_filterMap_none (s : RawItem → Option β)
    (yld : Option (Option String × String))
    (h : ∀ t d, s (.ryield t d) = none) :
    ((match yld with
      | none => []
      | some y => [RawItem.ryield y.1 y.2]) : List RawItem).filterMap s = [] := by
  cases yld with
  | none => rfl
  | some y => simp [List.filterMap_cons, h]

theorem inline_rawParams (c : CanonMeta) :
    rawParams (rawInlineOfCanon c) = c.ps := by
  unfold rawParams rawInlineOfCanon
  rw [List.filterMap_append, List.filterMap_append, List.filterMap_append]
  rw [List.filterMap_map]
  rw [show (selParam ∘ fun p : String × Option String × String =>
      RawItem.rparam p.1 p.2.1 p.2.2) = some from funext fun p => rfl]
  rw [List.filterMap_some]
  rw [inlineB_filterMap_none selParam c.ret (fun t d => rfl)]
  rw [inlineC_filterMap_none selParam c.yld (fun t d => rfl)]
  rw [fieldD_filterMap_none selParam c.rss (fun t d => rfl)]
  simp

theorem inline_rawTypeFields (c : CanonMeta) :
    rawTypeFields (rawInlineOfCanon c) = [] := by
  unfold rawTypeFields rawInlineOfCanon
  rw [List.filterMap_append, List.filterMap_append, List.filterMap_append]
  rw [inlineA_filterMap_none selTypeF c.ps (fun n t d => rfl)]
  rw [inlineB_filterMap_none selTypeF c.ret (fun t d => rfl)]
  rw [inlineC_filterMap_none selTypeF c.yld (fun t d => rfl)]
  rw [fieldD_filterMap_none selTypeF c.rss (fun t d => rfl)]
  rfl

theorem inline_rawRetDesc (c : CanonMeta) :
    rawRetDesc (rawInlineOfCanon c) = c.ret.map (fun r => r.2) := by
  unfold rawRetDesc rawInlineOfCanon
  rw [List.filterMap_append, List.filterMap_append, List.filterMap_append]
  rw [inlineA_filterMap_none selRetDesc c.ps (fun n t d => rfl)]
  rw [inlineC_filterMap_none selRetDesc c.yld (fun t d => rfl)]
  rw [fieldD_filterMap_none selRetDesc c.rss (fun t d => rfl)]
  cases c.ret with
  | none => rfl
  | some r => simp [List.filterMap_cons, selRetDesc]

theorem inline_rawRetType (c : CanonMeta) :
    rawRetType (rawInlineOfCanon c) =
      (match c.ret with
       | some r => r.1
       | none => none) := by
  unfold rawRetType rawInlineOfCanon
  rw [List.filterMap_append, List.filterMap_append, List.filterMap_append]
  rw [inlineA_filterMap_none selRetType c.ps (fun n t d => rfl)]
  rw [inlineC_filterMap_none selRetType c.yld (fun t d => rfl)]
  rw [fieldD_filterMap_none selRetType c.rss (fun t d => rfl)]
  cases c.ret with
  | none => rfl
  | some r =>
    obtain ⟨t1, d1⟩ := r
    cases t1 <;> simp [List.filterMap_cons, selRetType]

theorem inline_rawYldDesc (c : CanonMeta) :
    rawYldDesc (rawInlineOfCanon c) = c.yld.map (fun y => y.2) := by
  unfold rawYldDesc rawInlineOfCanon
  rw [List.filterMap_append, List.filterMap_append, List.filterMap_append]
  rw [inlineA_filterMap_none selYldDesc c.ps (fun n t d => rfl)]
  rw [inlineB_filterMap_none selYldDesc c.ret (fun t d => rfl)]
  rw [fieldD_filterMap_none selYldDesc c.rss (fun t d => rfl)]
  cases c.yld with
  | none => rfl
  | some y => simp [List.filterMap_cons, selYldDesc]

theorem inline_rawYldType (c : CanonMeta) :
    rawYldType (rawInlineOfCanon c) =
      (match c.yld with
       | some y => y.1
       | none => none) := by
  unfold rawYldType rawInlineOfCanon
  rw [List.filterMap_append, List.filterMap_append, List.filterMap_append]
  rw [inlineA_filterMap_none selYldType c.ps (fun n t d => rfl)]
  rw [inlineB_filterMap_none selYldType c.ret (fun t d => rfl)]
  rw [fieldD_filterMap_none selYldType c.rss (fun t d => rfl)]
  cases c.yld with
  | none => rfl
  | some y =>
    obtain ⟨t1, d1⟩ := y
    cases t1 <;> simp [List.filterMap_cons, selYldType]

theorem inline_rawRaises (c : CanonMeta) :
    (rawInlineOfCanon c).filterMap selRaises =
      c.rss.map (fun r => DocstringMeta.raises (some r.1) r.2) := by
  unfold rawInlineOfCanon
  rw [List.filterMap_append, List.filterMap_append, List.filterMap_append]
  rw [inlineA_filterMap_none selRaises c.ps (fun n t d => rfl)]
  rw [inlineB_filterMap_none selRaises c.ret (fun t d => rfl)]
  rw [inlineC_filterMap_none selRaises c.yld (fun t d => rfl)]
  rw [List.filterMap_map]
  rw [show (selRaises ∘ fun r : String × String =>
    RawItem.rraises (some r.1) r.2) =
      (fun r : String × String =>
        some (DocstringMeta.raises (some r.1) r.2)) from funext fun r => rfl]
  rw [filterMap_some_map]
  simp

theorem inline_rawRest_nil (c : CanonMeta) (s : RawItem → Option β)
    (h1 : ∀ n t d, s (.rparam n t d) = none)
    (h3 : ∀ t d, s (.rret t d) = none)
    (h5 : ∀ t d, s (.ryield t d) = none)
    (h7 : ∀ t d, s (.rraises (some t) d) = none) :
    (rawInlineOfCanon c).filterMap s = [] := by
  unfold rawInlineOfCanon
  rw [List.filterMap_append, List.filterMap_append, List.filterMap_append]
  rw [inlineA_filterMap_none s c.ps h1]
  rw [inlineB_filterMap_none s c.ret h3]
  rw [inlineC_filterMap_none s c.yld h5]
  rw [fieldD_filterMap_none s c.rss h7]
  rfl

theorem erase_names (ps : List (String × Option String × String)) :
    (ps.map (fun p => ((p.1, none, p.2.2) : String × Option String × String))).map
      (fun p => p.1) = ps.map (fun p => p.1) := by
  rw [List.map_map]
  rfl

theorem resolve_rawField (c : CanonMeta)
    (hd : distinctStrings (c.ps.map (fun p => p.1)) = true) :
    resolve (rawFieldOfCanon c) = canonToMeta c := by
  unfold resolve
  dsimp only
  rw [field_rawParams, field_rawTypeFields, field_rawRetDesc, field_rawRetType,
    field_rawYldDesc, field_rawYldType, field_rawRaises]
  rw [field_rawRest_nil c selDepr (fun n t d => rfl) (fun n t => rfl) (fun d => rfl)
    (fun t => rfl) (fun d => rfl) (fun t => rfl) (fun t d => rfl)]
  rw [field_rawRest_nil c selExample (fun n t d => rfl) (fun n t => rfl) (fun d => rfl)
    (fun t => rfl) (fun d => rfl) (fun t => rfl) (fun t d => rfl)]
  rw [field_rawRest_nil c selGeneric (fun n t d => rfl) (fun n t => rfl) (fun d => rfl)
    (fun t => rfl) (fun d => rfl) (fun t => rfl) (fun t d => rfl)]
  have hdd : distinctStrings
      ((c.ps.map (fun p => ((p.1, none, p.2.2) : String × Option String × String))).map
        (fun p => p.1)) = true := by
    rw [erase_names]
    exact hd
  rw [dedupLast_of_distinct _ hdd]
  have hparams :
      (c.ps.map (fun p => ((p.1, none, p.2.2) : String × Option String × String))).map
        (fun p => DocstringMeta.param p.1
          (match p.2.1 with
           | some t => some t
           | none => lookupLast (typesOf c.ps) p.1) p.2.2 false none .positional) =
      c.ps.map (fun p =>
        DocstringMeta.param p.1 p.2.1 p.2.2 false none .positional) := by
    rw [List.map_map]
    refine List.map_congr_left ?_
    intro p hp
    show DocstringMeta.param p.1 (lookupLast (typesOf c.ps) p.1) p.2.2 false none
      .positional = DocstringMeta.param p.1 p.2.1 p.2.2 false none .positional
    rw [lookupLast_typesOf c.ps hd p hp]
  rw [hparams]
  have hunmatched :
      ((typesOf c.ps).filter fun y =>
        !((c.ps.map (fun p =>
          ((p.1, none, p.2.2) : String × Option String × String))).map
            (fun p => p.1)).contains y.1) = [] := by
    refine List.filter_eq_nil_iff.mpr ?_
    intro y hy
    have hmem : y.1 ∈ c.ps.map (fun p => p.1) := typesOf_name_mem c.ps y hy
    rw [erase_names]
    rw [contains_true_of_mem y.1 _ hmem]
    simp
  rw [hunmatched]
  unfold canonToMeta
  cases hret : c.ret with
  | none =>
    cases hyld : c.yld with
    | none => simp [optMetaList]
    | some y => simp [optMetaList]
  | some r =>
    cases hyld : c.yld with
    | none => simp [optMetaList]
    | some y => simp [optMetaList]

theorem resolve_rawInline (c : CanonMeta)
    (hd : distinctStrings (c.ps.map (fun p => p.1)) = true) :
    resolve (rawInlineOfCanon c) = canonToMeta c := by
  unfold resolve
  dsimp only
  rw [inline_rawParams, inline_rawTypeFields, inline_rawRetDesc, inline_rawRetType,
    inline_rawYldDesc, inline_rawYldType, inline_rawRaises]
  rw [inline_rawRest_nil c selDepr (fun n t d => rfl) (fun t d => rfl)
    (fun t d => rfl) (fun t d => rfl)]
  rw [inline_rawRest_nil c selExample (fun n t d => rfl) (fun t d => rfl)
    (fun t d => rfl) (fun t d => rfl)]
  rw [inline_rawRest_nil c selGeneric (fun n t d => rfl) (fun t d => rfl)
    (fun t d => rfl) (fun t d => rfl)]
  rw [dedupLast_of_distinct _ hd]
  have hparams :
      c.ps.map (fun p => DocstringMeta.param p.1
        (match p.2.1 with
         | some t => some t
         | none => lookupLast [] p.1) p.2.2 false none .positional) =
      c.ps.map (fun p =>
        DocstringMeta.param p.1 p.2.1 p.2.2 false none .positional) := by
    refine List.map_congr_left ?_
    intro p _
    cases hp : p.2.1 with
    | some t => rfl
    | none => rfl
  rw [hparams]
  have hunmatched :
      (([] : List (String × String)).filter fun y =>
        !(c.ps.map (fun p => p.1)).contains y.1) = [] := rfl
  rw [hunmatched]
  unfold canonToMeta
  cases hret : c.ret with
  | none =>
    cases hyld : c.yld with
    | none => simp [optMetaList]
    | some y => simp [optMetaList]
  | some r =>
    cases hyld : c.yld with
    | none => simp [optMetaList]
    | some y => simp [optMetaList]

theorem validDecomp3 (ms : List DocstringMeta) (h : validMetaFrom 3 ms = true) :
    ∃ rss : List (String × String),
      ms = rss.map (fun r => DocstringMeta.raises (some r.1) r.2) ∧
        rss.all raiseOk = true := by
  induction ms with
  | nil => exact ⟨[], rfl, rfl⟩
  | cons e rest ih =>
    simp only [validMetaFrom, Bool.and_eq_true] at h
    obtain ⟨⟨hok, hrank⟩, hrest⟩ := h
    cases e with
    | param n t d io df k => simp [kindRank] at hrank
    | returns t d g => simp [kindRank] at hrank
    | yields t d => simp [kindRank] at hrank
    | raises t d =>
      cases t with
      | none => simp [metaOk] at hok
      | some ty =>
        have hrest3 : validMetaFrom 3 rest = true := hrest
        obtain ⟨rss, hms, hall⟩ := ih hrest3
        refine ⟨(ty, d) :: rss, ?_, ?_⟩
        · rw [hms]; rfl
        · simp only [List.all_cons, Bool.and_eq_true]
          refine ⟨?_, hall⟩
          unfold metaOk at hok
          unfold raiseOk
          simpa using hok
    | deprecated v d => simp [metaOk] at hok
    | exampleBlock s d => simp [metaOk] at hok
    | generic a d => simp [metaOk] at hok

theorem validDecomp2 (ms : List DocstringMeta) (h : validMetaFrom 2 ms = true) :
    ∃ (yld : Option (Option String × String)) (rss : List (String × String)),
      ms = optMetaList (fun y => DocstringMeta.yields y.1 y.2) yld ++
          rss.map (fun r => DocstringMeta.raises (some r.1) r.2) ∧
        (match yld with
         | some y => pairOk y
         | none => true) = true ∧ rss.all raiseOk = true := by
  cases ms with
  | nil => exact ⟨none, [], rfl, rfl, rfl⟩
  | cons e rest =>
    simp only [validMetaFrom, Bool.and_eq_true] at h
    obtain ⟨⟨hok, hrank⟩, hrest⟩ := h
    cases e with
    | param n t d io df k => simp [kindRank] at hrank
    | returns t d g => simp [kindRank] at hrank
    | yields t d =>
      have hrest3 : validMetaFrom 3 rest = true := hrest
      obtain ⟨rss, hms, hall⟩ := validDecomp3 rest hrest3
      refine ⟨some (t, d), rss, ?_, ?_, hall⟩
      · rw [hms]; rfl
      · unfold metaOk at hok
        unfold pairOk
        simpa using hok
    | raises t d =>
      have hall3 : validMetaFrom 3 (DocstringMeta.raises t d :: rest) = true := by
        simp only [validMetaFrom, Bool.and_eq_true]
        exact ⟨⟨hok, by simp [kindRank]⟩, hrest⟩
      obtain ⟨rss, hms, hall⟩ := validDecomp3 _ hall3
      exact ⟨none, rss, by rw [hms]; rfl, rfl, hall⟩
    | deprecated v d => simp [metaOk] at hok
    | exampleBlock s d => simp [metaOk] at hok
    | generic a d => simp [metaOk] at hok

theorem validDecomp0 (ms : List DocstringMeta) (h : validMetaFrom 0 ms = true) :
    ∃ c : CanonMeta, ms = canonToMeta c ∧
      c.ps.all tripleOk = true ∧
      (match c.ret with
       | some r => pairOk r
       | none => true) = true ∧
      (match c.yld with
       | some y => pairOk y
       | none => true) = true ∧
      c.rss.all raiseOk = true := by
  induction ms with
  | nil => exact ⟨⟨[], none, none, []⟩, rfl, rfl, rfl, rfl, rfl⟩
  | cons e rest ih =>
    simp only [validMetaFrom, Bool.and_eq_true] at h
    obtain ⟨⟨hok, _⟩, hrest⟩ := h
    cases e with
    | param n t d io df k =>
      have hio : io = false ∧ df = none ∧ k = ParamKind.positional := by
        unfold metaOk at hok
        simp only [Bool.and_eq_true, decide_eq_true_eq] at hok
        exact ⟨hok.1.1.2, hok.1.2, hok.2⟩
      obtain ⟨h1, h2, h3⟩ := hio
      subst h1
      subst h2
      subst h3
      have hrest0 : validMetaFrom 0 rest = true := hrest
      obtain ⟨c, hms, hps, hr, hy, hrs⟩ := ih hrest0
      refine ⟨⟨(n, t, d) :: c.ps, c.ret, c.yld, c.rss⟩, ?_, ?_, hr, hy, hrs⟩
      · rw [hms]
        unfold canonToMeta
        rfl
      · simp only [List.all_cons, Bool.and_eq_true]
        refine ⟨?_, hps⟩
        unfold metaOk at hok
        unfold tripleOk
        simpa using hok
    | returns t d g =>
      have hg : g = false := by
        unfold metaOk at hok
        simp only [Bool.and_eq_true, decide_eq_true_eq] at hok
        exact hok.2
      subst hg
      have hrest2 : validMetaFrom 2 rest = true := hrest
      obtain ⟨yld, rss, hms, hy, hrs⟩ := validDecomp2 rest hrest2
      refine ⟨⟨[], some (t, d), yld, rss⟩, ?_, rfl, ?_, hy, hrs⟩
      · rw [hms]
        unfold canonToMeta
        rfl
      · unfold metaOk at hok
        unfold pairOk
        simpa using hok
    | yields t d =>
      have hrest3 : validMetaFrom 3 rest = true := hrest
      obtain ⟨rss, hms, hall⟩ := validDecomp3 rest hrest3
      refine ⟨⟨[], none, some (t, d), rss⟩, ?_, rfl, rfl, ?_, hall⟩
      · rw [hms]
        unfold canonToMeta
        rfl
      · unfold metaOk at hok
        unfold pairOk
        simpa using hok
    | raises t d =>
      have hall3 : validMetaFrom 3 (DocstringMeta.raises t d :: rest) = true := by
        simp only [validMetaFrom, Bool.and_eq_true]
        exact ⟨⟨hok, by simp [kindRank]⟩, hrest⟩
      obtain ⟨rss, hms, hall⟩ := validDecomp3 _ hall3
      exact ⟨⟨[], none, none, rss⟩, by rw [hms]; rfl, rfl, rfl, rfl, hall⟩
    | deprecated v d => simp [metaOk] at hok
    | exampleBlock s d => simp [metaOk] at hok
    | generic a d => simp [metaOk] at hok

theorem paramNames_canonToMeta (c : CanonMeta) :
    paramNames (canonToMeta c) = c.ps.map (fun p => p.1) := by
  unfold paramNames canonToMeta
  rw [List.filterMap_append, List.filterMap_append, List.filterMap_append]
  rw [List.filterMap_map]
  rw [show ((fun e => match e with
      | DocstringMeta.param n _ _ _ _ _ => some n
      | _ => none) ∘ fun p : String × Option String × String =>
        DocstringMeta.param p.1 p.2.1 p.2.2 false none .positional) =
      (fun p : String × Option String × String => some p.1) from
    funext fun p => rfl]
  rw [filterMap_some_map]
  have hB : (optMetaList (fun r => DocstringMeta.returns r.1 r.2 false)
      c.ret).filterMap (fun e => match e with
        | DocstringMeta.param n _ _ _ _ _ => some n
        | _ => none) = [] := by
    cases c.ret with
    | none => rfl
    | some r => rfl
  have hC : (optMetaList (fun y => DocstringMeta.yields y.1 y.2)
      c.yld).filterMap (fun e => match e with
        | DocstringMeta.param n _ _ _ _ _ => some n
        | _ => none) = [] := by
    cases c.yld with
    | none => rfl
    | some y => rfl
  have hD : (c.rss.map (fun r => DocstringMeta.raises (some r.1) r.2)).filterMap
      (fun e => match e with
        | DocstringMeta.param n _ _ _ _ _ => some n
        | _ => none) = [] := by
    refine List.filterMap_eq_nil_iff.mpr ?_
    intro i hi
    obtain ⟨r, _, rfl⟩ := List.mem_map.mp hi
    rfl
  rw [hB, hC, hD]
  simp

theorem normalizeShort_of_term (s : String) (h : endsWithTerm s = true) :
    normalizeShort s = s := by
  unfold normalizeShort
  rw [h]
  rfl

theorem endsWithTerm_normalizeShort (s : String) :
    endsWithTerm (normalizeShort s) = true := by
  unfold normalizeShort
  cases he : endsWithTerm s with
  | true => simpa using he
  | false =>
    simp only [Bool.false_eq_true, if_false]
    unfold endsWithTerm
    rw [strData_append]
    have hlast : (s.data ++ ("." : String).data).getLast? = some '.' := by
      show (s.data ++ ['.']).getLast? = some '.'
      simp
    rw [hlast]
    decide

theorem fieldLine_not_blank (lead : Char) (hl : lead = ':' ∨ lead = '@')
    (tag : String) (arg : Option String) (d : String) :
    isBlank (fieldLine lead tag arg d) = false := by
  unfold isBlank fieldLine
  rw [data_mkS]
  rw [List.cons_append, List.cons_append]
  simp only [List.all_cons]
  have hsp : (decide (lead = ' ')) = false := by
    rcases hl with h1 | h1 <;> rw [h1] <;> decide
  rw [hsp]
  rfl

theorem mem_flatMapL (f : α → List β) (l : List α) (x : β) :
    x ∈ flatMapL f l ↔ ∃ a ∈ l, x ∈ f a := by
  induction l with
  | nil => simp [flatMapL]
  | cons a as ih =>
    simp only [flatMapL, List.mem_append, ih]
    constructor
    · rintro (h1 | ⟨b, hb, hx⟩)
      · exact ⟨a, by simp, h1⟩
      · exact ⟨b, by simp [hb], hx⟩
    · rintro ⟨b, hb, hx⟩
      rcases List.mem_cons.mp hb with hb1 | hb1
      · rw [← hb1]; exact Or.inl hx
      · exact Or.inr ⟨b, hb1, hx⟩

theorem validDocstring_parts (m : Docstring) (h : validDocstring m = true) :
    (match m.short_description with
     | none =>
       m.long_description = none ∧ m.blank_after_short_description = false
     | some s => textOk s = true ∧ endsWithTerm s = true) ∧
    (match m.long_description with
     | none => m.blank_after_long_description = false
     | some ls => longBlockOk ls = true) ∧
    validMetaFrom 0 m.meta = true ∧
    distinctStrings (paramNames m.meta) = true := by
  unfold validDocstring at h
  cases hs : m.short_description with
  | none =>
    rw [hs] at h
    cases hl2 : m.long_description with
    | none =>
      rw [hl2] at h
      simp only [Bool.and_eq_true, decide_eq_true_eq] at h
      exact ⟨⟨rfl, h.1.1.1.2⟩, h.1.1.2, h.1.2, h.2⟩
    | some ls =>
      rw [hl2] at h
      simp only [Bool.and_eq_true, decide_eq_true_eq] at h
      exact absurd h.1.1.1.1 (by simp)
  | some s =>
    rw [hs] at h
    cases hl2 : m.long_description with
    | none =>
      rw [hl2] at h
      simp only [Bool.and_eq_true, decide_eq_true_eq] at h
      exact ⟨⟨h.1.1.1.1, h.1.1.1.2⟩, h.1.1.2, h.1.2, h.2⟩
    | some ls =>
      rw [hl2] at h
      simp only [Bool.and_eq_true, decide_eq_true_eq] at h
      exact ⟨⟨h.1.1.1.1, h.1.1.1.2⟩, h.1.1.2, h.1.2, h.2⟩

theorem tripleOk_parts (p : String × Option String × String)
    (h : tripleOk p = true) :
    nameOk p.1 = true ∧
      (match p.2.1 with
       | some t => typeOk t
       | none => true) = true ∧ textOk p.2.2 = true := by
  unfold tripleOk at h
  simp only [Bool.and_eq_true] at h
  exact ⟨h.1.1, h.1.2, h.2⟩

theorem raiseOk_parts (r : String × String) (h : raiseOk r = true) :
    nameOk r.1 = true ∧ textOk r.2 = true := by
  unfold raiseOk at h
  simp only [Bool.and_eq_true] at h
  exact h

theorem fieldLines_params (lead : Char)
    (ps : List (String × Option String × String)) (hps : ps.all tripleOk = true) :
    (flatMapL (composeFieldEntry lead)
      (ps.map (fun p =>
        DocstringMeta.param p.1 p.2.1 p.2.2 false none .positional))).filterMap
          (parseFieldLine lead) =
      flatMapL (fun p =>
        RawItem.rparam p.1 none p.2.2 ::
          (match p.2.1 with
           | some t => [RawItem.rtypeF p.1 t]
           | none => [])) ps := by
  induction ps with
  | nil => rfl
  | cons p rest ih =>
    simp only [List.all_cons, Bool.and_eq_true] at hps
    have hn := (tripleOk_parts p hps.1).1
    simp only [List.map_cons, flatMapL, List.filterMap_append]
    rw [ih hps.2]
    have hhead : (composeFieldEntry lead
        (DocstringMeta.param p.1 p.2.1 p.2.2 false none .positional)).filterMap
          (parseFieldLine lead) =
        RawItem.rparam p.1 none p.2.2 ::
          (match p.2.1 with
           | some t => [RawItem.rtypeF p.1 t]
           | none => []) := by
      unfold composeFieldEntry
      cases hp : p.2.1 with
      | none =>
        simp [List.filterMap_cons, parseField_param lead p.1 p.2.2 hn]
      | some ty =>
        simp [List.filterMap_cons, parseField_param lead p.1 p.2.2 hn,
          parseField_type lead p.1 ty hn]
    rw [hhead]

theorem fieldLines_ret (lead : Char) (ret : Option (Option String × String)) :
    (flatMapL (composeFieldEntry lead)
      (optMetaList (fun r => DocstringMeta.returns r.1 r.2 false) ret)).filterMap
        (parseFieldLine lead) =
      ((match ret with
        | none => []
        | some r =>
          RawItem.rret none r.2 ::
            (match r.1 with
             | some t => [RawItem.rrtype t]
             | none => [])) : List RawItem) := by
  cases ret with
  | none => rfl
  | some r =>
    obtain ⟨t1, d1⟩ := r
    show (composeFieldEntry lead (DocstringMeta.returns t1 d1 false) ++
      []).filterMap (parseFieldLine lead) = _
    unfold composeFieldEntry
    cases t1 with
    | none =>
      simp [List.filterMap_cons, parseField_returns lead d1]
    | some ty =>
      simp [List.filterMap_cons, parseField_returns lead d1,
        parseField_rtype lead ty]

theorem fieldLines_yld (lead : Char) (yld : Option (Option String × String)) :
    (flatMapL (composeFieldEntry lead)
      (optMetaList (fun y => DocstringMeta.yields y.1 y.2) yld)).filterMap
        (parseFieldLine lead) =
      ((match yld with
        | none => []
        | some y =>
          RawItem.ryield none y.2 ::
            (match y.1 with
             | some t => [RawItem.rytype t]
             | none => [])) : List RawItem) := by
  cases yld with
  | none => rfl
  | some y =>
    obtain ⟨t1, d1⟩ := y
    show (composeFieldEntry lead (DocstringMeta.yields t1 d1) ++
      []).filterMap (parseFieldLine lead) = _
    unfold composeFieldEntry
    cases t1 with
    | none =>
      simp [List.filterMap_cons, parseField_yields lead d1]
    | some ty =>
      simp [List.filterMap_cons, parseField_yields lead d1,
        parseField_ytype lead ty]

theorem fieldLines_raises (lead : Char) (rss : List (String × String))
    (hrss : rss.all raiseOk = true) :
    (flatMapL (composeFieldEntry lead)
      (rss.map (fun r => DocstringMeta.raises (some r.1) r.2))).filterMap
        (parseFieldLine lead) =
      rss.map (fun r => RawItem.rraises (some r.1) r.2) := by
  induction rss with
  | nil => rfl
  | cons r rest ih =>
    simp only [List.all_cons, Bool.and_eq_true] at hrss
    have hn := (raiseOk_parts r hrss.1).1
    simp only [List.map_cons, flatMapL, List.filterMap_append]
    rw [ih hrss.2]
    have hhead : (composeFieldEntry lead
        (DocstringMeta.raises (some r.1) r.2)).filterMap (parseFieldLine lead) =
        [RawItem.rraises (some r.1) r.2] := by
      unfold composeFieldEntry
      simp [List.filterMap_cons, parseField_raises lead r.1 r.2 hn]
    rw [hhead]
    rfl

theorem fieldMeta_filterMap (lead : Char) (c : CanonMeta)
    (hps : c.ps.all tripleOk = true) (hrss : c.rss.all raiseOk = true) :
    (flatMapL (composeFieldEntry lead) (canonToMeta c)).filterMap
        (parseFieldLine lead) = rawFieldOfCanon c := by
  unfold canonToMeta rawFieldOfCanon
  rw [flatMapL_append, flatMapL_append, flatMapL_append]
  rw [List.filterMap_append, List.filterMap_append, List.filterMap_append]
  rw [fieldLines_params lead c.ps hps]
  rw [fieldLines_ret lead c.ret]
  rw [fieldLines_yld lead c.yld]
  rw [fieldLines_raises lead c.rss hrss]

theorem fieldLines_ok (lead : Char) (hl : lead = ':' ∨ lead = '@') (c : CanonMeta)
    (hps : c.ps.all tripleOk = true) (hrss : c.rss.all raiseOk = true) :
    ∀ l ∈ flatMapL (composeFieldEntry lead) (canonToMeta c),
      (parseFieldLine lead l).isSome = true ∧ isBlank l = false := by
  intro l hmem
  rw [mem_flatMapL] at hmem
  obtain ⟨e, he, hle⟩ := hmem
  unfold canonToMeta at he
  rcases List.mem_append.mp he with he1 | he4
  · rcases List.mem_append.mp he1 with he2 | he3
    · rcases List.mem_append.mp he2 with hpm | hrm
      · obtain ⟨p, hpmem, rfl⟩ := List.mem_map.mp hpm
        have hn := (tripleOk_parts p (List.all_eq_true.mp hps p hpmem)).1
        cases hp2 : p.2.1 with
        | none =>
          rw [show composeFieldEntry lead
              (DocstringMeta.param p.1 p.2.1 p.2.2 false none .positional) =
              [fieldLine lead "param" (some p.1) p.2.2] ++
                (match p.2.1 with
                 | some t => [fieldLine lead "type" (some p.1) t]
                 | none => []) from rfl, hp2] at hle
          simp only [List.append_nil, List.mem_singleton] at hle
          subst hle
          refine ⟨?_, fieldLine_not_blank lead hl _ _ _⟩
          rw [parseField_param lead p.1 p.2.2 hn]
          rfl
        | some ty =>
          rw [show composeFieldEntry lead
              (DocstringMeta.param p.1 p.2.1 p.2.2 false none .positional) =
              [fieldLine lead "param" (some p.1) p.2.2] ++
                (match p.2.1 with
                 | some t => [fieldLine lead "type" (some p.1) t]
                 | none => []) from rfl, hp2] at hle
          simp only [List.singleton_append, List.mem_cons, List.mem_singleton,
            List.not_mem_nil, or_false] at hle
          rcases hle with h1 | h1 <;> subst h1
          · refine ⟨?_, fieldLine_not_blank lead hl _ _ _⟩
            rw [parseField_param lead p.1 p.2.2 hn]
            rfl
          · refine ⟨?_, fieldLine_not_blank lead hl _ _ _⟩
            rw [parseField_type lead p.1 ty hn]
            rfl
      · cases hret : c.ret with
        | none => rw [hret] at hrm; cases hrm
        | some r =>
          rw [hret] at hrm
          have her : e = DocstringMeta.returns r.1 r.2 false := by
            simpa [optMetaList] using hrm
          subst her
          cases hr1 : r.1 with
          | none =>
            rw [show composeFieldEntry lead (DocstringMeta.returns r.1 r.2 false) =
                [fieldLine lead "returns" none r.2] ++
                  (match r.1 with
                   | some t => [fieldLine lead "rtype" none t]
                   | none => []) from rfl, hr1] at hle
            simp only [List.append_nil, List.mem_singleton] at hle
            subst hle
            refine ⟨?_, fieldLine_not_blank lead hl _ _ _⟩
            rw [parseField_returns lead r.2]
            rfl
          | some ty =>
            rw [show composeFieldEntry lead (DocstringMeta.returns r.1 r.2 false) =
                [fieldLine lead "returns" none r.2] ++
                  (match r.1 with
                   | some t => [fieldLine lead "rtype" none t]
                   | none => []) from rfl, hr1] at hle
            simp only [List.singleton_append, List.mem_cons, List.mem_singleton,
              List.not_mem_nil, or_false] at hle
            rcases hle with h1 | h1 <;> subst h1
            · refine ⟨?_, fieldLine_not_blank lead hl _ _ _⟩
              rw [parseField_returns lead r.2]
              rfl
            · refine ⟨?_, fieldLine_not_blank lead hl _ _ _⟩
              rw [parseField_rtype lead ty]
              rfl
    · cases hyld : c.yld with
      | none => rw [hyld] at he3; cases he3
      | some y =>
        rw [hyld] at he3
        have hey : e = DocstringMeta.yields y.1 y.2 := by
          simpa [optMetaList] using he3
        subst hey
        cases hy1 : y.1 with
        | none =>
          rw [show composeFieldEntry lead (DocstringMeta.yields y.1 y.2) =
              [fieldLine lead "yields" none y.2] ++
                (match y.1 with
                 | some t => [fieldLine lead "ytype" none t]
                 | none => []) from rfl, hy1] at hle
          simp only [List.append_nil, List.mem_singleton] at hle
          subst hle
          refine ⟨?_, fieldLine_not_blank lead hl _ _ _⟩
          rw [parseField_yields lead y.2]
          rfl
        | some ty =>
          rw [show composeFieldEntry lead (DocstringMeta.yields y.1 y.2) =
              [fieldLine lead "yields" none y.2] ++
                (match y.1 with
                 | some t => [fieldLine lead "ytype" none t]
                 | none => []) from rfl, hy1] at hle
          simp only [List.singleton_append, List.mem_cons, List.mem_singleton,
            List.not_mem_nil, or_false] at hle
          rcases hle with h1 | h1 <;> subst h1
          · refine ⟨?_, fieldLine_not_blank lead hl _ _ _⟩
            rw [parseField_yields lead y.2]
            rfl
          · refine ⟨?_, fieldLine_not_blank lead hl _ _ _⟩
            rw [parseField_ytype lead ty]
            rfl
  · obtain ⟨r, hrmem, rfl⟩ := List.mem_map.mp he4
    have hn := (raiseOk_parts r (List.all_eq_true.mp hrss r hrmem)).1
    have hle2 : l = fieldLine lead "raises" (some r.1) r.2 := by
      simpa [composeFieldEntry] using hle
    subst hle2
    refine ⟨?_, fieldLine_not_blank lead hl _ _ _⟩
    rw [parseField_raises lead r.1 r.2 hn]
    rfl

theorem splitDescPhase_eq_noLong (isMark : String → Bool) (s : String)
    (fS : Bool) (metaL : List String)
    (hs : textOk s = true) (hsm : isMark s = false)
    (hblank : ∀ l, isBlank l = true → isMark l = false)
    (hmeta : ∀ x xs, metaL = x :: xs → isMark x = true ∧ isBlank x = false) :
    splitDescPhase isMark (s :: ((if fS then [""] else []) ++ ([] ++ metaL))) =
      ⟨some s, fS, none, false, metaL⟩ :=
  splitDescPhase_eq isMark s fS false none metaL hs hsm hblank rfl hmeta

theorem splitDescPhase_eq_long (isMark : String → Bool) (s : String)
    (fS fL : Bool) (ls : List String) (metaL : List String)
    (hs : textOk s = true) (hsm : isMark s = false)
    (hblank : ∀ l, isBlank l = true → isMark l = false)
    (hok : longBlockOk ls = true) (hnm : ∀ l ∈ ls, isMark l = false)
    (hmeta : ∀ x xs, metaL = x :: xs → isMark x = true ∧ isBlank x = false) :
    splitDescPhase isMark
      (s :: ((if fS then [""] else []) ++
        ((ls ++ (if fL then [""] else [])) ++ metaL))) =
      ⟨some s, fS, some ls, fL, metaL⟩ :=
  splitDescPhase_eq isMark s fS fL (some ls) metaL hs hsm hblank ⟨hok, hnm⟩ hmeta

theorem fieldParse_roundtrip (lead : Char) (hl : lead = ':' ∨ lead = '@')
    (m : Docstring) (hv : validDocstring m = true) :
    fieldParse lead (composeShort m ++ composeLong m ++
      flatMapL (composeFieldEntry lead) m.meta) = m := by
  obtain ⟨hshort, hlong, hvm, hdist⟩ := validDocstring_parts m hv
  obtain ⟨c, hmeta_eq, hps, hr1, hy1, hrss⟩ := validDecomp0 m.meta hvm
  have hdist2 : distinctStrings (c.ps.map (fun p => p.1)) = true := by
    rw [← paramNames_canonToMeta, ← hmeta_eq]
    exact hdist
  have hlines := fieldLines_ok lead hl c hps hrss
  have hlines2 : ∀ l ∈ flatMapL (composeFieldEntry lead) m.meta,
      (parseFieldLine lead l).isSome = true ∧ isBlank l = false := by
    rw [hmeta_eq]
    exact hlines
  have hmetaL : ∀ x xs, flatMapL (composeFieldEntry lead) m.meta = x :: xs →
      (fun l => (parseFieldLine lead l).isSome) x = true ∧ isBlank x = false := by
    intro x xs hx
    exact hlines2 x (by rw [hx]; simp)
  have hblankmark : ∀ l, isBlank l = true →
      (fun l => (parseFieldLine lead l).isSome) l = false := by
    intro l hbl
    simp only [parseFieldLine_none_of_blank lead hl l hbl]
    rfl
  have hscan : fieldMetaScan lead (flatMapL (composeFieldEntry lead) m.meta) [] [] =
      (rawFieldOfCanon c, []) := by
    rw [fieldMetaScan_fields lead _ [] [] (fun l hml => (hlines2 l hml).1)]
    rw [List.nil_append]
    rw [hmeta_eq]
    rw [fieldMeta_filterMap lead c hps hrss]
  obtain ⟨sd, ld, bs, bl, meta⟩ := m
  cases sd with
  | none =>
    obtain ⟨hld, hbs⟩ := hshort
    simp only at hld
    subst hld
    subst hbs
    have hbl : bl = false := hlong
    subst hbl
    have hcs : composeShort ⟨none, none, false, false, meta⟩ = [] := rfl
    have hcl : composeLong ⟨none, none, false, false, meta⟩ = [] := rfl
    rw [hcs, hcl, List.nil_append, List.nil_append]
    unfold fieldParse
    rw [splitDescPhase_marker _ _ hmetaL]
    simp only
    rw [hscan]
    unfold mkDoc mergeLong
    simp only
    rw [resolve_rawField c hdist2]
    rw [← hmeta_eq]
  | some s =>
    obtain ⟨htx, hterm⟩ := hshort
    have hsm : (fun l => (parseFieldLine lead l).isSome) s = false := by
      simp only [parseFieldLine_none_of_textOk lead hl s htx]
      rfl
    have hcs : composeShort ⟨some s, ld, bs, bl, meta⟩ =
        s :: (if bs then [""] else []) := by
      unfold composeShort
      simp only
      rw [normalizeShort_of_term s hterm]
    cases ld with
    | none =>
      have hbl : bl = false := hlong
      subst hbl
      have hcl : composeLong ⟨some s, none, bs, false, meta⟩ = [] := rfl
      rw [hcs, hcl]
      have hassoc : (s :: (if bs then [""] else [])) ++ [] ++
          flatMapL (composeFieldEntry lead) meta =
          s :: ((if bs then [""] else []) ++
            ([] ++ flatMapL (composeFieldEntry lead) meta)) := by
        simp
      rw [hassoc]
      unfold fieldParse
      rw [splitDescPhase_eq_noLong _ s bs _ htx hsm hblankmark hmetaL]
      simp only
      rw [hscan]
      unfold mkDoc mergeLong
      simp only
      rw [resolve_rawField c hdist2]
      rw [← hmeta_eq]
    | some ls =>
      have hok : longBlockOk ls = true := hlong
      have hnm : ∀ l ∈ ls, (fun l => (parseFieldLine lead l).isSome) l = false := by
        intro l hml
        rcases (longBlockOk_parts ls hok).2.2 l hml with hbl2 | htx2
        · exact hblankmark l hbl2
        · simp only [parseFieldLine_none_of_textOk lead hl l htx2]
          rfl
      have hcl : composeLong ⟨some s, some ls, bs, bl, meta⟩ =
          ls ++ (if bl then [""] else []) := rfl
      rw [hcs, hcl]
      have hassoc : (s :: (if bs then [""] else [])) ++
          (ls ++ (if bl then [""] else [])) ++
          flatMapL (composeFieldEntry lead) meta =
          s :: ((if bs then [""] else []) ++
            ((ls ++ (if bl then [""] else [])) ++
              flatMapL (composeFieldEntry lead) meta)) := by
        simp
      rw [hassoc]
      unfold fieldParse
      rw [splitDescPhase_eq_long _ s bs bl ls _ htx hsm hblankmark hok hnm hmetaL]
      simp only
      rw [hscan]
      unfold mkDoc mergeLong
      simp only
      rw [resolve_rawField c hdist2]
      rw [← hmeta_eq]
      simp

theorem googleHeaderOf_indent4 (t : String) : googleHeaderOf (indent4 t) = none := by
  have hd : (indent4 t).data = ' ' :: ' ' :: ' ' :: ' ' :: t.data := rfl
  have h1 : indent4 t ≠ "Args:" := by
    intro he; rw [he] at hd; cases hd
  have h2 : indent4 t ≠ "Returns:" := by
    intro he; rw [he] at hd; cases hd
  have h3 : indent4 t ≠ "Yields:" := by
    intro he; rw [he] at hd; cases hd
  have h4 : indent4 t ≠ "Raises:" := by
    intro he; rw [he] at hd; cases hd
  have h5 : indent4 t ≠ "Examples:" := by
    intro he; rw [he] at hd; cases hd
  have h6 : indent4 t ≠ "Note:" := by
    intro he; rw [he] at hd; cases hd
  simp [googleHeaderOf, h1, h2, h3, h4, h5, h6]

theorem isBlank_indent4_false (t : String) (c0 : Char) (cs : List Char)
    (hc : t.data = c0 :: cs) (hc0 : c0 ≠ ' ') : isBlank (indent4 t) = false := by
  unfold isBlank indent4
  rw [data_mkS, hc]
  simp [hc0]

theorem googleEntryOf_indent4 (t : String) :
    googleEntryOf (indent4 t) = some t.data := rfl

theorem gscan_header (h : String) (sec : GSection) (hh : googleHeaderOf h = some sec)
    (rest : List String) (cur : Option GSection) (acc : List RawItem)
    (prose : List String) :
    googleMetaScan (h :: rest) cur acc prose =
      googleMetaScan rest (some sec) acc prose := by
  simp [googleMetaScan, hh]

theorem gscan_entry (l : String) (t : String) (hlt : l = indent4 t)
    (c0 : Char) (cs : List Char) (hc : t.data = c0 :: cs) (hc0 : c0 ≠ ' ')
    (sec : GSection) (rest : List String) (acc : List RawItem)
    (prose : List String) :
    googleMetaScan (l :: rest) (some sec) acc prose =
      googleMetaScan rest (some sec) (acc ++ [googleEntryRaw sec t.data]) prose := by
  subst hlt
  have hb := isBlank_indent4_false t c0 cs hc hc0
  simp [googleMetaScan, googleHeaderOf_indent4, hb, googleEntryOf_indent4]

theorem gscan_entries (sec : GSection) (ts : List String)
    (hts : ∀ t ∈ ts, ∃ c0 cs, t.data = c0 :: cs ∧ c0 ≠ ' ')
    (rest : List String) (acc : List RawItem) (prose : List String) :
    googleMetaScan (ts.map indent4 ++ rest) (some sec) acc prose =
      googleMetaScan rest (some sec)
        (acc ++ ts.map (fun t => googleEntryRaw sec t.data)) prose := by
  induction ts generalizing acc with
  | nil => simp
  | cons t rest2 ih =>
    obtain ⟨c0, cs, hc, hc0⟩ := hts t (by simp)
    simp only [List.map_cons, List.cons_append]
    rw [gscan_entry (indent4 t) t rfl c0 cs hc hc0]
    rw [ih (fun y hy => hts y (by simp [hy])) (acc ++ [googleEntryRaw sec t.data])]
    simp

theorem gscan_nil (cur : Option GSection) (acc : List RawItem)
    (prose : List String) :
    googleMetaScan [] cur acc prose = (acc, prose) := rfl

theorem no_colon_append3 (n ty : String)
    (hn : n.data.all (fun ch => ch ≠ ':') = true)
    (hty : ty.data.all (fun ch => ch ≠ ':') = true) :
    ((n.data ++ ' ' :: '(' :: ty.data ++ [')']).all fun ch => ch ≠ ':') = true := by
  have hre : n.data ++ ' ' :: '(' :: ty.data ++ [')'] =
      n.data ++ (' ' :: '(' :: (ty.data ++ [')'])) := by simp
  rw [hre]
  simp only [List.all_append, List.all_cons, Bool.and_eq_true]
  refine ⟨hn, by decide, by decide, ?_, by decide⟩
  simpa using hty

theorem parseGP_typed (n ty d : String) (hn : nameOk n = true)
    (hty : typeOk ty = true) :
    parseGoogleParam (n.data ++ ' ' :: '(' :: ty.data ++ ')' :: ':' :: ' ' :: d.data) =
      RawItem.rparam n (some ty) d := by
  have hre : n.data ++ ' ' :: '(' :: ty.data ++ ')' :: ':' :: ' ' :: d.data =
      (n.data ++ ' ' :: '(' :: ty.data ++ [')']) ++ ':' :: ' ' :: d.data := by simp
  have hsplit1 : splitAtChar ':' ((n.data ++ ' ' :: '(' :: ty.data ++ [')']) ++
      ':' :: ' ' :: d.data) =
      some (n.data ++ ' ' :: '(' :: ty.data ++ [')'], ' ' :: d.data) :=
    splitAtChar_first ':' _ _
      (no_colon_append3 n ty (nameOk_no_colon n hn) (typeOk_no_colon ty hty))
  have hre2 : n.data ++ ' ' :: '(' :: ty.data ++ [')'] =
      n.data ++ ' ' :: ('(' :: ty.data ++ [')']) := by simp
  have hsplit2 : splitAtChar ' ' (n.data ++ ' ' :: ('(' :: ty.data ++ [')'])) =
      some (n.data, '(' :: ty.data ++ [')']) :=
    splitAtChar_first ' ' _ _ (nameOk_no_space n hn)
  rw [hre]
  unfold parseGoogleParam
  rw [hsplit1]
  simp only []
  rw [hre2, hsplit2]
  simp only []
  have hlast : (('(' :: ty.data ++ [')'] : List Char).getLast? = some ')') := by
    have : ('(' :: ty.data ++ [')'] : List Char) = ('(' :: ty.data) ++ [')'] := by simp
    rw [this, List.getLast?_concat]
  simp [hlast, dropOneSpace, mkS_data]

theorem parseGP_untyped (n d : String) (hn : nameOk n = true) :
    parseGoogleParam (n.data ++ ':' :: ' ' :: d.data) =
      RawItem.rparam n none d := by
  have hsplit1 : splitAtChar ':' (n.data ++ ':' :: ' ' :: d.data) =
      some (n.data, ' ' :: d.data) :=
    splitAtChar_first ':' _ _ (nameOk_no_colon n hn)
  have hsplit2 : splitAtChar ' ' n.data = none :=
    splitAtChar_none ' ' _ (nameOk_no_space n hn)
  unfold parseGoogleParam
  rw [hsplit1]
  simp only []
  rw [hsplit2]
  simp [dropOneSpace, mkS_data]

theorem parseGR_typed (ty d : String)
    (hty : ty.data.all (fun ch => ch ≠ ':') = true) :
    parseGoogleRet (ty.data ++ ':' :: ' ' :: d.data) = (some ty, d) := by
  have hsplit1 : splitAtChar ':' (ty.data ++ ':' :: ' ' :: d.data) =
      some (ty.data, ' ' :: d.data) :=
    splitAtChar_first ':' _ _ hty
  unfold parseGoogleRet
  rw [hsplit1]
  simp [dropOneSpace, mkS_data]

theorem parseGR_untyped (d : String) (hd : textOk d = true) :
    parseGoogleRet d.data = (none, d) := by
  have hsplit1 : splitAtChar ':' d.data = none :=
    splitAtChar_none ':' _ (textOk_no_colon d hd)
  unfold parseGoogleRet
  rw [hsplit1]
  simp [mkS_data]

theorem nameOk_shape (s : String) (h : nameOk s = true) :
    ∃ c0 cs, s.data = c0 :: cs ∧ c0 ≠ ' ' := by
  unfold nameOk at h
  cases hd : s.data with
  | nil => rw [hd] at h; simp at h
  | cons c cs =>
    rw [hd] at h
    simp only [Bool.and_eq_true] at h
    have hc := List.all_eq_true.mp h.1.2 c (by simp)
    simp only [Bool.and_eq_true, decide_eq_true_eq] at hc
    exact ⟨c, cs, rfl, hc.1.1.1⟩

theorem typeOk_shape (s : String) (h : typeOk s = true) :
    ∃ c0 cs, s.data = c0 :: cs ∧ c0 ≠ ' ' := by
  unfold typeOk at h
  cases hd : s.data with
  | nil => rw [hd] at h; simp at h
  | cons c cs =>
    rw [hd] at h
    simp only [Bool.and_eq_true, decide_eq_true_eq] at h
    exact ⟨c, cs, rfl, h.1.1.1⟩

theorem textOk_shape (s : String) (h : textOk s = true) :
    ∃ c0 cs, s.data = c0 :: cs ∧ c0 ≠ ' ' := by
  unfold textOk at h
  cases hd : s.data with
  | nil => rw [hd] at h; simp at h
  | cons c cs =>
    rw [hd] at h
    simp only [Bool.and_eq_true, decide_eq_true_eq] at h
    exact ⟨c, cs, rfl, h.1.1.1.1⟩

theorem paramTriples_canonToMeta (c : CanonMeta) :
    paramTriples (canonToMeta c) = c.ps := by
  unfold paramTriples canonToMeta
  rw [List.filterMap_append, List.filterMap_append, List.filterMap_append]
  rw [List.filterMap_map]
  rw [show ((fun e => match e with
      | DocstringMeta.param n t d _ _ _ => some (n, t, d)
      | _ => none) ∘ fun p : String × Option String × String =>
        DocstringMeta.param p.1 p.2.1 p.2.2 false none .positional) =
      (fun p : String × Option String × String => some (p.1, p.2.1, p.2.2)) from
    funext fun p => rfl]
  have hA : c.ps.filterMap
      (fun p : String × Option String × String => some (p.1, p.2.1, p.2.2)) =
      c.ps := by
    induction c.ps with
    | nil => rfl
    | cons p rest ih => simp [List.filterMap_cons, ih]
  rw [hA]
  have hB : (optMetaList (fun r => DocstringMeta.returns r.1 r.2 false)
      c.ret).filterMap (fun e => match e with
        | DocstringMeta.param n t d _ _ _ => some (n, t, d)
        | _ => none) = [] := by
    cases c.ret with
    | none => rfl
    | some r => rfl
  have hC : (optMetaList (fun y => DocstringMeta.yields y.1 y.2)
      c.yld).filterMap (fun e => match e with
        | DocstringMeta.param n t d _ _ _ => some (n, t, d)
        | _ => none) = [] := by
    cases c.yld with
    | none => rfl
    | some y => rfl
  have hD : (c.rss.map (fun r => DocstringMeta.raises (some r.1) r.2)).filterMap
      (fun e => match e with
        | DocstringMeta.param n t d _ _ _ => some (n, t, d)
        | _ => none) = [] := by
    refine List.filterMap_eq_nil_iff.mpr ?_
    intro i hi
    obtain ⟨r, _, rfl⟩ := List.mem_map.mp hi
    rfl
  rw [hB, hC, hD]
  simp

theorem returnsPairs_canonToMeta (c : CanonMeta) :
    returnsPairs (canonToMeta c) =
      (match c.ret with
       | none => []
       | some r => [r]) := by
  unfold returnsPairs canonToMeta
  rw [List.filterMap_append, List.filterMap_append, List.filterMap_append]
  have hA : (c.ps.map (fun p =>
      DocstringMeta.param p.1 p.2.1 p.2.2 false none .positional)).filterMap
      (fun e => match e with
        | DocstringMeta.returns t d _ => some (t, d)
        | _ => none) = [] := by
    refine List.filterMap_eq_nil_iff.mpr ?_
    intro i hi
    obtain ⟨p, _, rfl⟩ := List.mem_map.mp hi
    rfl
  have hB : (optMetaList (fun r => DocstringMeta.returns r.1 r.2 false)
      c.ret).filterMap (fun e => match e with
        | DocstringMeta.returns t d _ => some (t, d)
        | _ => none) =
      (match c.ret with
       | none => []
       | some r => [r]) := by
    cases c.ret with
    | none => rfl
    | some r => rfl
  have hC : (optMetaList (fun y => DocstringMeta.yields y.1 y.2)
      c.yld).filterMap (fun e => match e with
        | DocstringMeta.returns t d _ => some (t, d)
        | _ => none) = [] := by
    cases c.yld with
    | none => rfl
    | some y => rfl
  have hD : (c.rss.map (fun r => DocstringMeta.raises (some r.1) r.2)).filterMap
      (fun e => match e with
        | DocstringMeta.returns t d _ => some (t, d)
        | _ => none) = [] := by
    refine List.filterMap_eq_nil_iff.mpr ?_
    intro i hi
    obtain ⟨r, _, rfl⟩ := List.mem_map.mp hi
    rfl
  rw [hA, hB, hC, hD]
  simp

theorem yieldsPairs_canonToMeta (c : CanonMeta) :
    yieldsPairs (canonToMeta c) =
      (match c.yld with
       | none => []
       | some y => [y]) := by
  unfold yieldsPairs canonToMeta
  rw [List.filterMap_append, List.filterMap_append, List.filterMap_append]
  have hA : (c.ps.map (fun p =>
      DocstringMeta.param p.1 p.2.1 p.2.2 false none .positional)).filterMap
      (fun e => match e with
        | DocstringMeta.yields t d => some (t, d)
        | _ => none) = [] := by
    refine List.filterMap_eq_nil_iff.mpr ?_
    intro i hi
    obtain ⟨p, _, rfl⟩ := List.mem_map.mp hi
    rfl
  have hB : (optMetaList (fun r => DocstringMeta.returns r.1 r.2 false)
      c.ret).filterMap (fun e => match e with
        | DocstringMeta.yields t d => some (t, d)
        | _ => none) = [] := by
    cases c.ret with
    | none => rfl
    | some r => rfl
  have hC : (optMetaList (fun y => DocstringMeta.yields y.1 y.2)
      c.yld).filterMap (fun e => match e with
        | DocstringMeta.yields t d => some (t, d)
        | _ => none) =
      (match c.yld with
       | none => []
       | some y => [y]) := by
    cases c.yld with
    | none => rfl
    | some y => rfl
  have hD : (c.rss.map (fun r => DocstringMeta.raises (some r.1) r.2)).filterMap
      (fun e => match e with
        | DocstringMeta.yields t d => some (t, d)
        | _ => none) = [] := by
    refine List.filterMap_eq_nil_iff.mpr ?_
    intro i hi
    obtain ⟨r, _, rfl⟩ := List.mem_map.mp hi
    rfl
  rw [hA, hB, hC, hD]
  simp

theorem raisesPairs_canonToMeta (c : CanonMeta) :
    raisesPairs (canonToMeta c) = c.rss.map (fun r => (some r.1, r.2)) := by
  unfold raisesPairs canonToMeta
  rw [List.filterMap_append, List.filterMap_append, List.filterMap_append]
  have hA : (c.ps.map (fun p =>
      DocstringMeta.param p.1 p.2.1 p.2.2 false none .positional)).filterMap
      (fun e => match e with
        | DocstringMeta.raises t d => some (t, d)
        | _ => none) = [] := by
    refine List.filterMap_eq_nil_iff.mpr ?_
    intro i hi
    obtain ⟨p, _, rfl⟩ := List.mem_map.mp hi
    rfl
  have hB : (optMetaList (fun r => DocstringMeta.returns r.1 r.2 false)
      c.ret).filterMap (fun e => match e with
        | DocstringMeta.raises t d => some (t, d)
        | _ => none) = [] := by
    cases c.ret with
    | none => rfl
    | some r => rfl
  have hC : (optMetaList (fun y => DocstringMeta.yields y.1 y.2)
      c.yld).filterMap (fun e => match e with
        | DocstringMeta.raises t d => some (t, d)
        | _ => none) = [] := by
    cases c.yld with
    | none => rfl
    | some y => rfl
  have hD : (c.rss.map (fun r => DocstringMeta.raises (some r.1) r.2)).filterMap
      (fun e => match e with
        | DocstringMeta.raises t d => some (t, d)
        | _ => none) = c.rss.map (fun r => (some r.1, r.2)) := by
    rw [List.filterMap_map]
    rw [show ((fun e => match e with
        | DocstringMeta.raises t d => some (t, d)
        | _ => none) ∘ fun r : String × String =>
          DocstringMeta.raises (some r.1) r.2) =
        (fun r : String × String => some ((some r.1 : Option String), r.2)) from
      funext fun r => rfl]
    rw [filterMap_some_map]
  rw [hA, hB, hC, hD]
  simp

theorem gscan_args (ps : List (String × Option String × String))
    (hps : ps.all tripleOk = true) (rest : List String) (acc : List RawItem)
    (prose : List String) :
    googleMetaScan ((ps.map fun p => googleParamLine p.1 p.2.1 p.2.2) ++ rest)
        (some GSection.args) acc prose =
      googleMetaScan rest (some GSection.args)
        (acc ++ ps.map fun p => RawItem.rparam p.1 p.2.1 p.2.2) prose := by
  induction ps generalizing acc with
  | nil => simp
  | cons p ps2 ih =>
    obtain ⟨n, tp, d⟩ := p
    simp only [List.all_cons, Bool.and_eq_true] at hps
    obtain ⟨hn, hty2, htx⟩ := tripleOk_parts (n, tp, d) hps.1
    obtain ⟨c0, cs, hd, hc0⟩ := nameOk_shape n hn
    simp only [List.map_cons, List.cons_append]
    cases tp with
    | some ty =>
      have hty : typeOk ty = true := hty2
      have hline : googleParamLine (n, some ty, d).1 (n, some ty, d).2.1
          (n, some ty, d).2.2 =
          indent4 (mkS (n.data ++ ' ' :: '(' :: ty.data ++ ')' :: ':' :: ' ' ::
            d.data)) := rfl
      have hdata : (mkS (n.data ++ ' ' :: '(' :: ty.data ++ ')' :: ':' :: ' ' ::
          d.data)).data =
          c0 :: (cs ++ ' ' :: '(' :: ty.data ++ ')' :: ':' :: ' ' :: d.data) := by
        rw [data_mkS, hd]
        rfl
      rw [gscan_entry _ _ hline c0 _ hdata hc0]
      have hraw : googleEntryRaw GSection.args
          (mkS (n.data ++ ' ' :: '(' :: ty.data ++ ')' :: ':' :: ' ' ::
            d.data)).data = RawItem.rparam n (some ty) d := by
        rw [data_mkS]
        show parseGoogleParam _ = _
        exact parseGP_typed n ty d hn hty
      rw [hraw, ih hps.2]
      simp
    | none =>
      have hline : googleParamLine (n, (none : Option String), d).1
          (n, (none : Option String), d).2.1 (n, (none : Option String), d).2.2 =
          indent4 (mkS (n.data ++ ':' :: ' ' :: d.data)) := rfl
      have hdata : (mkS (n.data ++ ':' :: ' ' :: d.data)).data =
          c0 :: (cs ++ ':' :: ' ' :: d.data) := by
        rw [data_mkS, hd]
        rfl
      rw [gscan_entry _ _ hline c0 _ hdata hc0]
      have hraw : googleEntryRaw GSection.args
          (mkS (n.data ++ ':' :: ' ' :: d.data)).data =
          RawItem.rparam n none d := by
        rw [data_mkS]
        show parseGoogleParam _ = _
        exact parseGP_untyped n d hn
      rw [hraw, ih hps.2]
      simp

theorem gscan_raises (rss : List (String × String))
    (hrss : rss.all raiseOk = true) (rest : List String) (acc : List RawItem)
    (prose : List String) :
    googleMetaScan ((rss.map fun r => googleRaiseLine (some r.1) r.2) ++ rest)
        (some GSection.raisesSec) acc prose =
      googleMetaScan rest (some GSection.raisesSec)
        (acc ++ rss.map fun r => RawItem.rraises (some r.1) r.2) prose := by
  induction rss generalizing acc with
  | nil => simp
  | cons r rss2 ih =>
    obtain ⟨nm, d⟩ := r
    simp only [List.all_cons, Bool.and_eq_true] at hrss
    obtain ⟨hn, htx⟩ := raiseOk_parts (nm, d) hrss.1
    obtain ⟨c0, cs, hd, hc0⟩ := nameOk_shape nm hn
    simp only [List.map_cons, List.cons_append]
    have hline : googleRaiseLine (some (nm, d).1) (nm, d).2 =
        indent4 (mkS (nm.data ++ ':' :: ' ' :: d.data)) := rfl
    have hdata : (mkS (nm.data ++ ':' :: ' ' :: d.data)).data =
        c0 :: (cs ++ ':' :: ' ' :: d.data) := by
      rw [data_mkS, hd]
      rfl
    rw [gscan_entry _ _ hline c0 _ hdata hc0]
    have hraw : googleEntryRaw GSection.raisesSec
        (mkS (nm.data ++ ':' :: ' ' :: d.data)).data =
        RawItem.rraises (some nm) d := by
      rw [data_mkS]
      simp [googleEntryRaw, parseGR_typed nm d (nameOk_no_colon nm hn)]
    rw [hraw, ih hrss.2]
    simp

theorem gsec_args (ps : List (String × Option String × String))
    (hps : ps.all tripleOk = true) (rest : List String) (acc : List RawItem)
    (prose : List String) (cur : Option GSection) :
    ∃ cur2, googleMetaScan
        (googleSection "Args:"
          (ps.map fun p => googleParamLine p.1 p.2.1 p.2.2) ++ rest)
        cur acc prose =
      googleMetaScan rest cur2
        (acc ++ ps.map fun p => RawItem.rparam p.1 p.2.1 p.2.2) prose := by
  cases ps with
  | nil => exact ⟨cur, by simp [googleSection]⟩
  | cons p ps2 =>
    refine ⟨some GSection.args, ?_⟩
    have hsec : googleSection "Args:"
        ((p :: ps2).map fun p => googleParamLine p.1 p.2.1 p.2.2) =
        "Args:" :: ((p :: ps2).map fun p => googleParamLine p.1 p.2.1 p.2.2) := rfl
    rw [hsec, List.cons_append, gscan_header "Args:" GSection.args rfl]
    exact gscan_args (p :: ps2) hps rest acc prose

theorem gsec_rets_some (r : Option String × String) (hro : pairOk r = true)
    (rest : List String) (acc : List RawItem) (prose : List String)
    (cur : Option GSection) :
    googleMetaScan ("Returns:" :: googleRetLine r.1 r.2 :: rest)
        cur acc prose =
      googleMetaScan rest (some GSection.returnsSec)
        (acc ++ [RawItem.rret r.1 r.2]) prose := by
  obtain ⟨tp, d⟩ := r
  unfold pairOk at hro
  simp only [Bool.and_eq_true] at hro
  have htx : textOk d = true := hro.2
  rw [gscan_header "Returns:" GSection.returnsSec rfl]
  show googleMetaScan (googleRetLine tp d :: rest) (some GSection.returnsSec)
    acc prose = _
  cases tp with
  | some ty =>
    have hty : typeOk ty = true := hro.1
    obtain ⟨c0, cs, hd, hc0⟩ := typeOk_shape ty hty
    have hline : googleRetLine (some ty) d =
        indent4 (mkS (ty.data ++ ':' :: ' ' :: d.data)) := rfl
    have hdata : (mkS (ty.data ++ ':' :: ' ' :: d.data)).data =
        c0 :: (cs ++ ':' :: ' ' :: d.data) := by
      rw [data_mkS, hd]
      rfl
    rw [gscan_entry _ _ hline c0 _ hdata hc0]
    have hraw : googleEntryRaw GSection.returnsSec
        (mkS (ty.data ++ ':' :: ' ' :: d.data)).data =
        RawItem.rret (some ty) d := by
      rw [data_mkS]
      simp [googleEntryRaw, parseGR_typed ty d (typeOk_no_colon ty hty)]
    rw [hraw]
  | none =>
    obtain ⟨c0, cs, hd, hc0⟩ := textOk_shape d htx
    have hline : googleRetLine none d = indent4 d := rfl
    rw [gscan_entry _ _ hline c0 _ hd hc0]
    have hraw : googleEntryRaw GSection.returnsSec d.data =
        RawItem.rret none d := by
      simp [googleEntryRaw, parseGR_untyped d htx]
    rw [hraw]

theorem gsec_ylds_some (y : Option String × String) (hyo : pairOk y = true)
    (rest : List String) (acc : List RawItem) (prose : List String)
    (cur : Option GSection) :
    googleMetaScan ("Yields:" :: googleRetLine y.1 y.2 :: rest)
        cur acc prose =
      googleMetaScan rest (some GSection.yieldsSec)
        (acc ++ [RawItem.ryield y.1 y.2]) prose := by
  obtain ⟨tp, d⟩ := y
  unfold pairOk at hyo
  simp only [Bool.and_eq_true] at hyo
  have htx : textOk d = true := hyo.2
  rw [gscan_header "Yields:" GSection.yieldsSec rfl]
  show googleMetaScan (googleRetLine tp d :: rest) (some GSection.yieldsSec)
    acc prose = _
  cases tp with
  | some ty =>
    have hty : typeOk ty = true := hyo.1
    obtain ⟨c0, cs, hd, hc0⟩ := typeOk_shape ty hty
    have hline : googleRetLine (some ty) d =
        indent4 (mkS (ty.data ++ ':' :: ' ' :: d.data)) := rfl
    have hdata : (mkS (ty.data ++ ':' :: ' ' :: d.data)).data =
        c0 :: (cs ++ ':' :: ' ' :: d.data) := by
      rw [data_mkS, hd]
      rfl
    rw [gscan_entry _ _ hline c0 _ hdata hc0]
    have hraw : googleEntryRaw GSection.yieldsSec
        (mkS (ty.data ++ ':' :: ' ' :: d.data)).data =
        RawItem.ryield (some ty) d := by
      rw [data_mkS]
      simp [googleEntryRaw, parseGR_typed ty d (typeOk_no_colon ty hty)]
    rw [hraw]
  | none =>
    obtain ⟨c0, cs, hd, hc0⟩ := textOk_shape d htx
    have hline : googleRetLine none d = indent4 d := rfl
    rw [gscan_entry _ _ hline c0 _ hd hc0]
    have hraw : googleEntryRaw GSection.yieldsSec d.data =
        RawItem.ryield none d := by
      simp [googleEntryRaw, parseGR_untyped d htx]
    rw [hraw]

theorem gsec_raises (rss : List (String × String))
    (hrss : rss.all raiseOk = true) (rest : List String) (acc : List RawItem)
    (prose : List String) (cur : Option GSection) :
    ∃ cur2, googleMetaScan
        (googleSection "Raises:"
          ((rss.map fun r => ((some r.1 : Option String), r.2)).map
            fun p => googleRaiseLine p.1 p.2) ++ rest)
        cur acc prose =
      googleMetaScan rest cur2
        (acc ++ rss.map fun r => RawItem.rraises (some r.1) r.2) prose := by
  have hmm : (rss.map fun r => ((some r.1 : Option String), r.2)).map
      (fun p => googleRaiseLine p.1 p.2) =
      rss.map fun r => googleRaiseLine (some r.1) r.2 := by
    rw [List.map_map]
    rfl
  rw [hmm]
  cases rss with
  | nil => exact ⟨cur, by simp [googleSection]⟩
  | cons r rss2 =>
    refine ⟨some GSection.raisesSec, ?_⟩
    have hsec : googleSection "Raises:"
        ((r :: rss2).map fun r => googleRaiseLine (some r.1) r.2) =
        "Raises:" :: ((r :: rss2).map fun r => googleRaiseLine (some r.1) r.2) := rfl
    rw [hsec, List.cons_append, gscan_header "Raises:" GSection.raisesSec rfl]
    exact gscan_raises (r :: rss2) hrss rest acc prose

theorem googleSection_nil (hdr : String) : googleSection hdr [] = [] := rfl

theorem googleSection_cons (hdr x : String) (xs : List String) :
    googleSection hdr (x :: xs) = hdr :: x :: xs := rfl

theorem gsec_raises_end (rss : List (String × String))
    (hrss : rss.all raiseOk = true) (acc : List RawItem) (prose : List String)
    (cur : Option GSection) :
    googleMetaScan
        (googleSection "Raises:"
          ((rss.map fun r => ((some r.1 : Option String), r.2)).map
            fun p => googleRaiseLine p.1 p.2))
        cur acc prose =
      (acc ++ rss.map fun r => RawItem.rraises (some r.1) r.2, prose) := by
  obtain ⟨cur2, h⟩ := gsec_raises rss hrss [] acc prose cur
  rw [List.append_nil] at h
  rw [h, gscan_nil]

theorem gblock_scan (ps : List (String × Option String × String))
    (ro yo : Option (Option String × String)) (rss : List (String × String))
    (hps : ps.all tripleOk = true)
    (hro : (match ro with
            | some r => pairOk r
            | none => true) = true)
    (hyo : (match yo with
            | some y => pairOk y
            | none => true) = true)
    (hrss : rss.all raiseOk = true) :
    googleMetaScan (composeGoogleBlock (canonToMeta ⟨ps, ro, yo, rss⟩)) none [] [] =
      (rawInlineOfCanon ⟨ps, ro, yo, rss⟩, []) := by
  cases ro with
  | none =>
    cases yo with
    | none =>
      simp only [composeGoogleBlock, paramTriples_canonToMeta,
        returnsPairs_canonToMeta, yieldsPairs_canonToMeta, raisesPairs_canonToMeta,
        List.map_cons, List.map_nil, googleSection_nil, googleSection_cons, List.append_assoc,
        List.cons_append, List.nil_append, List.append_nil]
      obtain ⟨cur1, h1⟩ := gsec_args ps hps _ [] [] none
      rw [h1, gsec_raises_end rss hrss _ [] cur1]
      unfold rawInlineOfCanon
      simp
    | some y =>
      have hy : pairOk y = true := hyo
      simp only [composeGoogleBlock, paramTriples_canonToMeta,
        returnsPairs_canonToMeta, yieldsPairs_canonToMeta, raisesPairs_canonToMeta,
        List.map_cons, List.map_nil, googleSection_nil, googleSection_cons, List.append_assoc,
        List.cons_append, List.nil_append, List.append_nil]
      obtain ⟨cur1, h1⟩ := gsec_args ps hps _ [] [] none
      rw [h1, gsec_ylds_some y hy _ _ [] cur1,
        gsec_raises_end rss hrss _ [] (some GSection.yieldsSec)]
      unfold rawInlineOfCanon
      simp
  | some r =>
    have hr : pairOk r = true := hro
    cases yo with
    | none =>
      simp only [composeGoogleBlock, paramTriples_canonToMeta,
        returnsPairs_canonToMeta, yieldsPairs_canonToMeta, raisesPairs_canonToMeta,
        List.map_cons, List.map_nil, googleSection_nil, googleSection_cons, List.append_assoc,
        List.cons_append, List.nil_append, List.append_nil]
      obtain ⟨cur1, h1⟩ := gsec_args ps hps _ [] [] none
      rw [h1, gsec_rets_some r hr _ _ [] cur1,
        gsec_raises_end rss hrss _ [] (some GSection.returnsSec)]
      unfold rawInlineOfCanon
      simp
    | some y =>
      have hy : pairOk y = true := hyo
      simp only [composeGoogleBlock, paramTriples_canonToMeta,
        returnsPairs_canonToMeta, yieldsPairs_canonToMeta, raisesPairs_canonToMeta,
        List.map_cons, List.map_nil, googleSection_nil, googleSection_cons, List.append_assoc,
        List.cons_append, List.nil_append, List.append_nil]
      obtain ⟨cur1, h1⟩ := gsec_args ps hps _ [] [] none
      rw [h1, gsec_rets_some r hr _ _ [] cur1,
        gsec_ylds_some y hy _ _ [] (some GSection.returnsSec),
        gsec_raises_end rss hrss _ [] (some GSection.yieldsSec)]
      unfold rawInlineOfCanon
      simp

theorem isGoogleHeader_of_textOk (s : String) (h : textOk s = true) :
    isGoogleHeader s = false := by
  have hcol := textOk_no_colon s h
  unfold isGoogleHeader googleHeaderOf
  by_cases h1 : s = "Args:"
  · subst h1; exact absurd hcol (by decide)
  by_cases h2 : s = "Returns:"
  · subst h2; exact absurd hcol (by decide)
  by_cases h3 : s = "Yields:"
  · subst h3; exact absurd hcol (by decide)
  by_cases h4 : s = "Raises:"
  · subst h4; exact absurd hcol (by decide)
  by_cases h5 : s = "Examples:"
  · subst h5; exact absurd hcol (by decide)
  by_cases h6 : s = "Note:"
  · subst h6; exact absurd hcol (by decide)
  simp [h1, h2, h3, h4, h5, h6]

theorem isGoogleHeader_of_blank (s : String) (h : isBlank s = true) :
    isGoogleHeader s = false := by
  unfold isGoogleHeader googleHeaderOf
  by_cases h1 : s = "Args:"
  · subst h1; exact absurd h (by decide)
  by_cases h2 : s = "Returns:"
  · subst h2; exact absurd h (by decide)
  by_cases h3 : s = "Yields:"
  · subst h3; exact absurd h (by decide)
  by_cases h4 : s = "Raises:"
  · subst h4; exact absurd h (by decide)
  by_cases h5 : s = "Examples:"
  · subst h5; exact absurd h (by decide)
  by_cases h6 : s = "Note:"
  · subst h6; exact absurd h (by decide)
  simp [h1, h2, h3, h4, h5, h6]

theorem googleBlock_head (ms : List DocstringMeta) :
    ∀ x xs, composeGoogleBlock ms = x :: xs →
      isGoogleHeader x = true ∧ isBlank x = false := by
  intro x xs hx
  unfold composeGoogleBlock at hx
  cases ha : (paramTriples ms).map (fun p => googleParamLine p.1 p.2.1 p.2.2) with
  | cons a as =>
    rw [ha, googleSection_cons] at hx
    simp only [List.cons_append] at hx
    injection hx with hx1 hx2
    subst hx1
    exact ⟨by decide, by decide⟩
  | nil =>
    rw [ha, googleSection_nil, List.nil_append] at hx
    cases hb : (returnsPairs ms).map (fun p => googleRetLine p.1 p.2) with
    | cons b bs =>
      rw [hb, googleSection_cons] at hx
      simp only [List.cons_append] at hx
      injection hx with hx1 hx2
      subst hx1
      exact ⟨by decide, by decide⟩
    | nil =>
      rw [hb, googleSection_nil, List.nil_append] at hx
      cases hc : (yieldsPairs ms).map (fun p => googleRetLine p.1 p.2) with
      | cons c cs =>
        rw [hc, googleSection_cons] at hx
        simp only [List.cons_append] at hx
        injection hx with hx1 hx2
        subst hx1
        exact ⟨by decide, by decide⟩
      | nil =>
        rw [hc, googleSection_nil, List.nil_append] at hx
        cases hd : (raisesPairs ms).map (fun p => googleRaiseLine p.1 p.2) with
        | cons d ds =>
          rw [hd, googleSection_cons] at hx
          injection hx with hx1 hx2
          subst hx1
          exact ⟨by decide, by decide⟩
        | nil =>
          rw [hd, googleSection_nil] at hx
          simp at hx

theorem googleParse_roundtrip (m : Docstring) (hv : validDocstring m = true) :
    googleParse (composeShort m ++ composeLong m ++ composeGoogleBlock m.meta) =
      m := by
  obtain ⟨hshort, hlong, hvm, hdist⟩ := validDocstring_parts m hv
  obtain ⟨c, hmeta_eq, hps, hr1, hy1, hrss⟩ := validDecomp0 m.meta hvm
  have hdist2 : distinctStrings (c.ps.map (fun p => p.1)) = true := by
    rw [← paramNames_canonToMeta, ← hmeta_eq]
    exact hdist
  have hscan : googleMetaScan (composeGoogleBlock m.meta) none [] [] =
      (rawInlineOfCanon c, []) := by
    rw [hmeta_eq]
    obtain ⟨ps, ro, yo, rss⟩ := c
    exact gblock_scan ps ro yo rss hps hr1 hy1 hrss
  have hmetaL : ∀ x xs, composeGoogleBlock m.meta = x :: xs →
      isGoogleHeader x = true ∧ isBlank x = false := googleBlock_head m.meta
  have hblankmark : ∀ l, isBlank l = true → isGoogleHeader l = false :=
    fun l hb => isGoogleHeader_of_blank l hb
  obtain ⟨sd, ld, bs, bl, meta⟩ := m
  cases sd with
  | none =>
    obtain ⟨hld, hbs⟩ := hshort
    simp only at hld
    subst hld
    subst hbs
    have hbl : bl = false := hlong
    subst hbl
    have hcs : composeShort ⟨none, none, false, false, meta⟩ = [] := rfl
    have hcl : composeLong ⟨none, none, false, false, meta⟩ = [] := rfl
    rw [hcs, hcl, List.nil_append, List.nil_append]
    unfold googleParse
    rw [splitDescPhase_marker _ _ hmetaL]
    simp only
    rw [hscan]
    unfold mkDoc mergeLong
    simp only
    rw [resolve_rawInline c hdist2]
    rw [← hmeta_eq]
  | some s =>
    obtain ⟨htx, hterm⟩ := hshort
    have hsm : isGoogleHeader s = false := isGoogleHeader_of_textOk s htx
    have hcs : composeShort ⟨some s, ld, bs, bl, meta⟩ =
        s :: (if bs then [""] else []) := by
      unfold composeShort
      simp only
      rw [normalizeShort_of_term s hterm]
    cases ld with
    | none =>
      have hbl : bl = false := hlong
      subst hbl
      have hcl : composeLong ⟨some s, none, bs, false, meta⟩ = [] := rfl
      rw [hcs, hcl]
      have hassoc : (s :: (if bs then [""] else [])) ++ [] ++
          composeGoogleBlock meta =
          s :: ((if bs then [""] else []) ++ ([] ++ composeGoogleBlock meta)) := by
        simp
      rw [hassoc]
      unfold googleParse
      rw [splitDescPhase_eq_noLong _ s bs _ htx hsm hblankmark hmetaL]
      simp only
      rw [hscan]
      unfold mkDoc mergeLong
      simp only
      rw [resolve_rawInline c hdist2]
      rw [← hmeta_eq]
    | some ls =>
      have hok : longBlockOk ls = true := hlong
      have hnm : ∀ l ∈ ls, isGoogleHeader l = false := by
        intro l hml
        rcases (longBlockOk_parts ls hok).2.2 l hml with hbl2 | htx2
        · exact isGoogleHeader_of_blank l hbl2
        · exact isGoogleHeader_of_textOk l htx2
      have hcl : composeLong ⟨some s, some ls, bs, bl, meta⟩ =
          ls ++ (if bl then [""] else []) := rfl
      rw [hcs, hcl]
      have hassoc : (s :: (if bs then [""] else [])) ++
          (ls ++ (if bl then [""] else [])) ++ composeGoogleBlock meta =
          s :: ((if bs then [""] else []) ++
            ((ls ++ (if bl then [""] else [])) ++ composeGoogleBlock meta)) := by
        simp
      rw [hassoc]
      unfold googleParse
      rw [splitDescPhase_eq_long _ s bs bl ls _ htx hsm hblankmark hok hnm hmetaL]
      simp only
      rw [hscan]
      unfold mkDoc mergeLong
      simp only
      rw [resolve_rawInline c hdist2]
      rw [← hmeta_eq]
      simp

theorem npSection_nil (hdr : String) : npSection hdr [] = [] := rfl

theorem npSection_cons (hdr x : String) (xs : List String) :
    npSection hdr (x :: xs) = hdr :: dashesOf hdr :: x :: xs := rfl

theorem dashesOf_length (hdr : String) : (dashesOf hdr).length = hdr.length := by
  show (List.replicate hdr.length '-').length = hdr.length
  simp

theorem npBadPair_hdr_dashes (hdr : String) :
    npBadPair hdr (dashesOf hdr) = false := by
  unfold npBadPair
  rw [dashesOf_length]
  simp

theorem noBadScan_cons_of_no_dash (x : String) (ls : List String)
    (h : ∀ l ∈ ls, isDashLine l = false) : noBadScan (x :: ls) = true := by
  induction ls generalizing x with
  | nil => rfl
  | cons y rest ih =>
    have hy : isDashLine y = false := h y (by simp)
    show (!npBadPair x y && noBadScan (y :: rest)) = true
    rw [npBadPair_false_of_not_dash x y hy, ih y (fun l hl => h l (by simp [hl]))]
    rfl

theorem noBadScan_of_no_dash (ls : List String)
    (h : ∀ l ∈ ls, isDashLine l = false) : noBadScan ls = true := by
  cases ls with
  | nil => rfl
  | cons x rest =>
    exact noBadScan_cons_of_no_dash x rest (fun l hl => h l (by simp [hl]))

theorem noBadScan_append_head (a b : List String) (ha : noBadScan a = true)
    (hb : noBadScan b = true)
    (hhead : ∀ y, b.head? = some y → isDashLine y = false) :
    noBadScan (a ++ b) = true := by
  induction a with
  | nil => simpa using hb
  | cons x a2 ih =>
    cases a2 with
    | nil =>
      simp only [List.singleton_append]
      cases b with
      | nil => rfl
      | cons y bs =>
        have hy : isDashLine y = false := hhead y rfl
        show (!npBadPair x y && noBadScan (y :: bs)) = true
        rw [npBadPair_false_of_not_dash x y hy, hb]
        rfl
    | cons z a3 =>
      have ha2 : (!npBadPair x z && noBadScan (z :: a3)) = true := ha
      simp only [Bool.and_eq_true, Bool.not_eq_true'] at ha2
      simp only [List.cons_append]
      show (!npBadPair x z && noBadScan (z :: (a3 ++ b))) = true
      have := ih ha2.2
      simp only [List.cons_append] at this
      rw [ha2.1, this]
      rfl

theorem noBadScan_npSection (hdr : String) (body : List String)
    (hb : ∀ l ∈ body, isDashLine l = false) :
    noBadScan (npSection hdr body) = true := by
  cases body with
  | nil => rfl
  | cons x xs =>
    rw [npSection_cons]
    show (!npBadPair hdr (dashesOf hdr) &&
      noBadScan (dashesOf hdr :: x :: xs)) = true
    rw [npBadPair_hdr_dashes]
    rw [noBadScan_cons_of_no_dash (dashesOf hdr) (x :: xs) hb]
    rfl

theorem npCheck_ok (i : Nat) (ls : List String) (h : noBadScan ls = true) :
    npCheck i ls = .ok () := by
  induction ls generalizing i with
  | nil => rfl
  | cons x rest ih =>
    cases rest with
    | nil => rfl
    | cons y rest2 =>
      have h2 : (!npBadPair x y && noBadScan (y :: rest2)) = true := h
      simp only [Bool.and_eq_true, Bool.not_eq_true'] at h2
      show (if npBadPair x y then _ else npCheck (i + 1) (y :: rest2)) = _
      rw [h2.1]
      simp only [Bool.false_eq_true, if_false]
      exact ih (i + 1) h2.2

theorem npCheck_err (i : Nat) (pre post : List String) (h1 h2 : String)
    (hbad : npBadPair h1 h2 = true) :
    ∃ e, npCheck i (pre ++ h1 :: h2 :: post) = Except.error e := by
  induction pre generalizing i with
  | nil =>
    refine ⟨⟨.numpydoc, i, "section underline shorter than its header"⟩, ?_⟩
    show (if npBadPair h1 h2 then _ else _) = _
    rw [hbad]
    simp
  | cons x pre2 ih =>
    cases hp : pre2 ++ h1 :: h2 :: post with
    | nil => exact absurd hp (by simp)
    | cons y tail =>
      simp only [List.cons_append, hp]
      by_cases hxy : npBadPair x y
      · refine ⟨⟨.numpydoc, i, "section underline shorter than its header"⟩, ?_⟩
        show (if npBadPair x y then _ else _) = _
        rw [hxy]
        simp
      · obtain ⟨e, he⟩ := ih (i + 1)
        refine ⟨e, ?_⟩
        show (if npBadPair x y then _ else npCheck (i + 1) (y :: tail)) = _
        rw [if_neg hxy, ← hp]
        exact he

theorem nameOk_not_dash (s : String) (h : nameOk s = true) :
    isDashLine s = false := by
  unfold nameOk at h
  simp only [Bool.and_eq_true, Bool.not_eq_true'] at h
  exact h.2

theorem typeOk_not_dash (s : String) (h : typeOk s = true) :
    isDashLine s = false := by
  unfold typeOk at h
  cases hd : s.data with
  | nil =>
    unfold isDashLine
    rw [hd]
    rfl
  | cons c cs =>
    rw [hd] at h
    simp only [Bool.and_eq_true, Bool.not_eq_true'] at h
    exact h.2

theorem indent4_not_dash (l : String) : isDashLine (indent4 l) = false := by
  unfold isDashLine
  rw [show (indent4 l).data = ' ' :: ' ' :: ' ' :: ' ' :: l.data from rfl]
  simp

theorem npEntryLine_not_dash (n : String) (t : Option String)
    (hn : nameOk n = true) : isDashLine (npEntryLine n t) = false := by
  cases t with
  | none => exact nameOk_not_dash n hn
  | some ty =>
    unfold isDashLine npEntryLine
    rw [data_mkS]
    have hall : ((n.data ++ ' ' :: ':' :: ' ' :: ty.data).all
        fun ch => ch = '-') = false := by
      refine List.all_eq_false.mpr ⟨' ', ?_, by decide⟩
      simp
    rw [hall]
    simp

theorem npScanGo_desc (d rest : List String)
    (hd : ∀ l ∈ d, isDashLine l = false)
    (hr : ∀ y, rest.head? = some y → isDashLine y = false) :
    npScanGo (d ++ rest) none =
      (d ++ (npScanGo rest none).1, (npScanGo rest none).2) := by
  induction d with
  | nil => simp
  | cons l1 d2 ih =>
    cases d2 with
    | nil =>
      cases rest with
      | nil =>
        show npScanGo [l1] none = _
        simp [npScanGo]
      | cons r1 rtail =>
        have hr1 : isDashLine r1 = false := hr r1 rfl
        show npScanGo (l1 :: r1 :: rtail) none = _
        simp [npScanGo, hr1]
    | cons a d3 =>
      have ha : isDashLine a = false := hd a (by simp)
      have ih2 := ih (fun l hl => hd l (by simp [hl]))
      show npScanGo (l1 :: a :: (d3 ++ rest)) none = _
      simp only [List.cons_append] at ih2
      simp [npScanGo, ha, ih2]

theorem npScanGo_body (b rest : List String) (hdr : String) (acc : List String)
    (hb : ∀ l ∈ b, isDashLine l = false)
    (hr : ∀ y, rest.head? = some y → isDashLine y = false) :
    npScanGo (b ++ rest) (some (hdr, acc)) =
      npScanGo rest (some (hdr, acc ++ b)) := by
  induction b generalizing acc with
  | nil => simp
  | cons l1 b2 ih =>
    cases b2 with
    | nil =>
      cases rest with
      | nil =>
        show npScanGo [l1] (some (hdr, acc)) = _
        simp [npScanGo]
      | cons r1 rtail =>
        have hr1 : isDashLine r1 = false := hr r1 rfl
        show npScanGo (l1 :: r1 :: rtail) (some (hdr, acc)) = _
        simp [npScanGo, hr1]
    | cons a b3 =>
      have ha : isDashLine a = false := hb a (by simp)
      have ih2 := ih (acc ++ [l1]) (fun l hl => hb l (by simp [hl]))
      show npScanGo (l1 :: a :: (b3 ++ rest)) (some (hdr, acc)) = _
      simp only [List.cons_append] at ih2
      simp [npScanGo, ha, ih2]

theorem npScanGo_section (hdr : String) (body rest : List String)
    (hhdr : isNpHeaderName hdr = true)
    (hbody : ∀ l ∈ body, isDashLine l = false)
    (hr : ∀ y, rest.head? = some y → isDashLine y = false)
    (cur : Option (String × List String)) :
    npScanGo ((hdr :: dashesOf hdr :: body) ++ rest) cur =
      ([], (match cur with
            | none => []
            | some hb => [hb]) ++ (npScanGo rest (some (hdr, body))).2) := by
  have hdash : isDashLine (dashesOf hdr) = true := by
    unfold isDashLine dashesOf
    rw [data_mkS]
    cases hh : hdr.length with
    | zero =>
      exact absurd hhdr (by
        have : hdr.data = [] := by
          have := congrArg id hh
          simpa [String.length] using List.length_eq_zero.mp this
        rcases hdr with ⟨d⟩
        simp at this
        subst this
        decide)
    | succ k => simp
  have hcond : (isNpHeaderName hdr && isDashLine (dashesOf hdr)) = true := by
    rw [hhdr, hdash]
    rfl
  have hbr := npScanGo_body body rest hdr [] hbody hr
  simp only [List.nil_append] at hbr
  cases cur with
  | none =>
    show npScanGo (hdr :: dashesOf hdr :: (body ++ rest)) none = _
    simp [npScanGo, hcond, hbr]
  | some hb =>
    show npScanGo (hdr :: dashesOf hdr :: (body ++ rest)) (some hb) = _
    simp [npScanGo, hcond, hbr]

theorem startsWith4_false_of_head (l : String) (c0 : Char) (cs : List Char)
    (hd : l.data = c0 :: cs) (hc0 : c0 ≠ ' ') : startsWith4 l = false := by
  unfold startsWith4
  rw [hd]
  split
  · next heq =>
      injection heq with h1 h2
      exact absurd h1 hc0
  · rfl

theorem isBlank_false_of_head (l : String) (c0 : Char) (cs : List Char)
    (hd : l.data = c0 :: cs) (hc0 : c0 ≠ ' ') : isBlank l = false := by
  unfold isBlank
  rw [hd]
  simp [hc0]

theorem startsWith4_indent4 (l : String) : startsWith4 (indent4 l) = true := rfl

theorem strip4_indent4 (l : String) : strip4 (indent4 l) = l := by
  unfold strip4
  rw [show (indent4 l).data = ' ' :: ' ' :: ' ' :: ' ' :: l.data from rfl]
  exact mkS_data l

theorem isBlank_indent4_of_textOk (d : String) (h : textOk d = true) :
    isBlank (indent4 d) = false := by
  obtain ⟨c0, cs, hd, hc0⟩ := textOk_shape d h
  exact isBlank_indent4_false d c0 cs hd hc0

theorem npGroupGo_pairs_go (es : List (String × String))
    (hes : ∀ e ∈ es, isBlank e.1 = false ∧ startsWith4 e.1 = false ∧
      textOk e.2 = true)
    (cur : String × List String) :
    npGroupGo (flatMapL (fun e => [e.1, indent4 e.2]) es) (some cur) =
      cur :: es.map (fun e => (e.1, [e.2])) := by
  induction es generalizing cur with
  | nil => rfl
  | cons e tl ih =>
    obtain ⟨hbl, hsw, htx⟩ := hes e (by simp)
    show npGroupGo (e.1 :: indent4 e.2 :: flatMapL (fun e => [e.1, indent4 e.2]) tl)
      (some cur) = _
    rw [show npGroupGo (e.1 :: indent4 e.2 ::
        flatMapL (fun e => [e.1, indent4 e.2]) tl) (some cur) =
        (if isBlank e.1 then _ else if startsWith4 e.1 then _ else
          cur :: npGroupGo (indent4 e.2 :: flatMapL (fun e => [e.1, indent4 e.2]) tl)
            (some (e.1, []))) from rfl]
    rw [hbl, hsw]
    simp only [Bool.false_eq_true, if_false]
    rw [show npGroupGo (indent4 e.2 :: flatMapL (fun e => [e.1, indent4 e.2]) tl)
        (some (e.1, [])) =
        (if isBlank (indent4 e.2) then _ else if startsWith4 (indent4 e.2) then
          npGroupGo (flatMapL (fun e => [e.1, indent4 e.2]) tl)
            (some (e.1, [] ++ [strip4 (indent4 e.2)]))
        else _) from rfl]
    rw [isBlank_indent4_of_textOk e.2 htx, startsWith4_indent4]
    simp only [Bool.false_eq_true, if_false, if_true, List.nil_append,
      strip4_indent4]
    rw [ih (fun x hx => hes x (by simp [hx])) (e.1, [e.2])]
    simp

theorem npGroupGo_pairs (es : List (String × String))
    (hes : ∀ e ∈ es, isBlank e.1 = false ∧ startsWith4 e.1 = false ∧
      textOk e.2 = true) :
    npGroupGo (flatMapL (fun e => [e.1, indent4 e.2]) es) none =
      es.map (fun e => (e.1, [e.2])) := by
  cases es with
  | nil => rfl
  | cons e tl =>
    obtain ⟨hbl, hsw, htx⟩ := hes e (by simp)
    show npGroupGo (e.1 :: indent4 e.2 :: flatMapL (fun e => [e.1, indent4 e.2]) tl)
      none = _
    rw [show npGroupGo (e.1 :: indent4 e.2 ::
        flatMapL (fun e => [e.1, indent4 e.2]) tl) none =
        (if isBlank e.1 then _ else if startsWith4 e.1 then _ else
          npGroupGo (indent4 e.2 :: flatMapL (fun e => [e.1, indent4 e.2]) tl)
            (some (e.1, []))) from rfl]
    rw [hbl, hsw]
    simp only [Bool.false_eq_true, if_false]
    rw [show npGroupGo (indent4 e.2 :: flatMapL (fun e => [e.1, indent4 e.2]) tl)
        (some (e.1, [])) =
        (if isBlank (indent4 e.2) then _ else if startsWith4 (indent4 e.2) then
          npGroupGo (flatMapL (fun e => [e.1, indent4 e.2]) tl)
            (some (e.1, [] ++ [strip4 (indent4 e.2)]))
        else _) from rfl]
    rw [isBlank_indent4_of_textOk e.2 htx, startsWith4_indent4]
    simp only [Bool.false_eq_true, if_false, if_true, List.nil_append,
      strip4_indent4]
    rw [npGroupGo_pairs_go tl (fun x hx => hes x (by simp [hx])) (e.1, [e.2])]
    simp

theorem npGroupGo_single (d : String) (hbl : isBlank d = false)
    (hsw : startsWith4 d = false) :
    npGroupGo [d] none = [(d, [])] := by
  show (if isBlank d then _ else if startsWith4 d then _ else
    npGroupGo [] (some (d, []))) = _
  rw [hbl, hsw]
  simp only [Bool.false_eq_true, if_false]
  rfl

theorem flatMapL_map (g : β → List γ) (f : α → β) (l : List α) :
    flatMapL g (l.map f) = flatMapL (fun x => g (f x)) l := by
  induction l with
  | nil => rfl
  | cons x xs ih => simp [flatMapL, ih]

theorem joinWith_single (l : String) : joinWith [l] = l := rfl

theorem npEntryLine_head (n : String) (t : Option String) (c0 : Char)
    (cs : List Char) (hd : n.data = c0 :: cs) :
    ∃ cs2, (npEntryLine n t).data = c0 :: cs2 := by
  cases t with
  | none => exact ⟨cs, hd⟩
  | some ty =>
    refine ⟨cs ++ ' ' :: ':' :: ' ' :: ty.data, ?_⟩
    show (mkS (n.data ++ ' ' :: ':' :: ' ' :: ty.data)).data = _
    rw [data_mkS, hd]
    rfl

theorem parseNpEntryHead_eq (n : String) (t : Option String)
    (hn : nameOk n = true) : parseNpEntryHead (npEntryLine n t) = (n, t) := by
  cases t with
  | some ty =>
    unfold parseNpEntryHead npEntryLine
    rw [data_mkS]
    rw [splitAtChar_first ' ' n.data (':' :: ' ' :: ty.data) (nameOk_no_space n hn)]
    simp [mkS_data]
  | none =>
    have he : npEntryLine n none = n := rfl
    unfold parseNpEntryHead
    rw [he, splitAtChar_none ' ' n.data (nameOk_no_space n hn)]


theorem npSectionItems_params_eq (body : List String) :
    npSectionItems ("Parameters", body) =
      (npGroupGo body none).map fun g =>
        match parseNpEntryHead g.1 with
        | (n, t) => RawItem.rparam n t (joinWith g.2) := by
  unfold npSectionItems
  simp

theorem npSectionItems_returns_eq (body : List String) :
    npSectionItems ("Returns", body) =
      (npGroupGo body none).map fun g =>
        match g.2 with
        | [] => RawItem.rret none g.1
        | ds => RawItem.rret (some g.1) (joinWith ds) := by
  unfold npSectionItems
  simp

theorem npSectionItems_yields_eq (body : List String) :
    npSectionItems ("Yields", body) =
      (npGroupGo body none).map fun g =>
        match g.2 with
        | [] => RawItem.ryield none g.1
        | ds => RawItem.ryield (some g.1) (joinWith ds) := by
  unfold npSectionItems
  simp

theorem npSectionItems_raises_eq (body : List String) :
    npSectionItems ("Raises", body) =
      (npGroupGo body none).map fun g =>
        match g.2 with
        | [] => RawItem.rraises (some g.1) ""
        | ds => RawItem.rraises (some g.1) (joinWith ds) := by
  unfold npSectionItems
  simp

theorem npSectionItems_params (ps : List (String × Option String × String))
    (hps : ps.all tripleOk = true) :
    npSectionItems ("Parameters", flatMapL npParamLines ps) =
      ps.map (fun p => RawItem.rparam p.1 p.2.1 p.2.2) := by
  have hbody : flatMapL npParamLines ps =
      flatMapL (fun e => [e.1, indent4 e.2])
        (ps.map fun p => (npEntryLine p.1 p.2.1, p.2.2)) := by
    rw [flatMapL_map]
    rfl
  have hcond : ∀ e ∈ ps.map fun p => (npEntryLine p.1 p.2.1, p.2.2),
      isBlank e.1 = false ∧ startsWith4 e.1 = false ∧ textOk e.2 = true := by
    intro e he
    obtain ⟨p, hp, rfl⟩ := List.mem_map.mp he
    obtain ⟨hn, hty, htx⟩ := tripleOk_parts p (List.all_eq_true.mp hps p hp)
    obtain ⟨c0, cs, hd, hc0⟩ := nameOk_shape p.1 hn
    obtain ⟨cs2, hd2⟩ := npEntryLine_head p.1 p.2.1 c0 cs hd
    exact ⟨isBlank_false_of_head _ c0 cs2 hd2 hc0,
      startsWith4_false_of_head _ c0 cs2 hd2 hc0, htx⟩
  rw [npSectionItems_params_eq]
  rw [hbody, npGroupGo_pairs _ hcond, List.map_map, List.map_map]
  refine List.map_congr_left ?_
  intro p hp
  obtain ⟨hn, hty, htx⟩ := tripleOk_parts p (List.all_eq_true.mp hps p hp)
  simp only [Function.comp]
  rw [parseNpEntryHead_eq p.1 p.2.1 hn]
  rfl

theorem npSectionItems_ret (r : Option String × String) (hro : pairOk r = true) :
    npSectionItems ("Returns", npRetLines r) = [RawItem.rret r.1 r.2] := by
  obtain ⟨tp, d⟩ := r
  unfold pairOk at hro
  simp only [Bool.and_eq_true] at hro
  have htx : textOk d = true := hro.2
  cases tp with
  | some ty =>
    have hty : typeOk ty = true := hro.1
    obtain ⟨c0, cs, hd, hc0⟩ := typeOk_shape ty hty
    have hgroup : npGroupGo [ty, indent4 d] none = [(ty, [d])] := by
      have hcond : ∀ e ∈ [((ty, d) : String × String)],
          isBlank e.1 = false ∧ startsWith4 e.1 = false ∧ textOk e.2 = true := by
        intro e he
        simp only [List.mem_singleton] at he
        subst he
        exact ⟨isBlank_false_of_head ty c0 cs hd hc0,
          startsWith4_false_of_head ty c0 cs hd hc0, htx⟩
      have := npGroupGo_pairs [(ty, d)] hcond
      simp only [flatMapL, List.append_nil, List.map_cons, List.map_nil] at this
      exact this
    show npSectionItems ("Returns", [ty, indent4 d]) = _
    rw [npSectionItems_returns_eq, hgroup]
    rfl
  | none =>
    obtain ⟨c0, cs, hd, hc0⟩ := textOk_shape d htx
    have hgroup : npGroupGo [d] none = [(d, [])] :=
      npGroupGo_single d (isBlank_false_of_head d c0 cs hd hc0)
        (startsWith4_false_of_head d c0 cs hd hc0)
    show npSectionItems ("Returns", [d]) = _
    rw [npSectionItems_returns_eq, hgroup]
    rfl

theorem npSectionItems_yld (y : Option String × String) (hyo : pairOk y = true) :
    npSectionItems ("Yields", npRetLines y) = [RawItem.ryield y.1 y.2] := by
  obtain ⟨tp, d⟩ := y
  unfold pairOk at hyo
  simp only [Bool.and_eq_true] at hyo
  have htx : textOk d = true := hyo.2
  cases tp with
  | some ty =>
    have hty : typeOk ty = true := hyo.1
    obtain ⟨c0, cs, hd, hc0⟩ := typeOk_shape ty hty
    have hgroup : npGroupGo [ty, indent4 d] none = [(ty, [d])] := by
      have hcond : ∀ e ∈ [((ty, d) : String × String)],
          isBlank e.1 = false ∧ startsWith4 e.1 = false ∧ textOk e.2 = true := by
        intro e he
        simp only [List.mem_singleton] at he
        subst he
        exact ⟨isBlank_false_of_head ty c0 cs hd hc0,
          startsWith4_false_of_head ty c0 cs hd hc0, htx⟩
      have := npGroupGo_pairs [(ty, d)] hcond
      simp only [flatMapL, List.append_nil, List.map_cons, List.map_nil] at this
      exact this
    show npSectionItems ("Yields", [ty, indent4 d]) = _
    rw [npSectionItems_yields_eq, hgroup]
    rfl
  | none =>
    obtain ⟨c0, cs, hd, hc0⟩ := textOk_shape d htx
    have hgroup : npGroupGo [d] none = [(d, [])] :=
      npGroupGo_single d (isBlank_false_of_head d c0 cs hd hc0)
        (startsWith4_false_of_head d c0 cs hd hc0)
    show npSectionItems ("Yields", [d]) = _
    rw [npSectionItems_yields_eq, hgroup]
    rfl

theorem npSectionItems_raises (rss : List (String × String))
    (hrss : rss.all raiseOk = true) :
    npSectionItems ("Raises",
        flatMapL npRaiseLines (rss.map fun r => ((some r.1 : Option String), r.2))) =
      rss.map (fun r => RawItem.rraises (some r.1) r.2) := by
  have hbody : flatMapL npRaiseLines
      (rss.map fun r => ((some r.1 : Option String), r.2)) =
      flatMapL (fun e => [e.1, indent4 e.2]) rss := by
    rw [flatMapL_map]
    rfl
  have hcond : ∀ e ∈ rss,
      isBlank e.1 = false ∧ startsWith4 e.1 = false ∧ textOk e.2 = true := by
    intro e he
    obtain ⟨hn, htx⟩ := raiseOk_parts e (List.all_eq_true.mp hrss e he)
    obtain ⟨c0, cs, hd, hc0⟩ := nameOk_shape e.1 hn
    exact ⟨isBlank_false_of_head _ c0 cs hd hc0,
      startsWith4_false_of_head _ c0 cs hd hc0, htx⟩
  rw [npSectionItems_raises_eq]
  rw [hbody, npGroupGo_pairs rss hcond, List.map_map]
  rfl

theorem sections_head (ss : List (String × List String))
    (hss : ∀ s ∈ ss, isNpHeaderName s.1 = true) :
    ∀ y, (flatMapL (fun s => npSection s.1 s.2) ss).head? = some y →
      isNpHeaderName y = true := by
  induction ss with
  | nil =>
    intro y hy
    simp [flatMapL] at hy
  | cons s tl ih =>
    intro y hy
    obtain ⟨hdr, body⟩ := s
    cases body with
    | nil =>
      have hflat : flatMapL (fun s => npSection s.1 s.2) ((hdr, []) :: tl) =
          flatMapL (fun s => npSection s.1 s.2) tl := by
        show npSection hdr [] ++ _ = _
        rw [npSection_nil, List.nil_append]
      rw [hflat] at hy
      exact ih (fun x hx => hss x (by simp [hx])) y hy
    | cons b0 bs =>
      have hflat : flatMapL (fun s => npSection s.1 s.2) ((hdr, b0 :: bs) :: tl) =
          hdr :: dashesOf hdr :: b0 :: bs ++
            flatMapL (fun s => npSection s.1 s.2) tl := by
        show npSection hdr (b0 :: bs) ++ _ = _
        rw [npSection_cons]
      rw [hflat] at hy
      simp only [List.cons_append, List.head?_cons, Option.some.injEq] at hy
      subst hy
      exact hss (hdr, b0 :: bs) (by simp)

theorem noBadScan_sections (ss : List (String × List String))
    (hss : ∀ s ∈ ss, isNpHeaderName s.1 = true ∧
      ∀ l ∈ s.2, isDashLine l = false) :
    noBadScan (flatMapL (fun s => npSection s.1 s.2) ss) = true := by
  induction ss with
  | nil => rfl
  | cons s tl ih =>
    obtain ⟨hhdr, hbody⟩ := hss s (by simp)
    obtain ⟨hdr, body⟩ := s
    show noBadScan (npSection hdr body ++ _) = true
    refine noBadScan_append_head _ _ (noBadScan_npSection hdr body hbody)
      (ih (fun x hx => hss x (by simp [hx]))) ?_
    intro y hy
    exact npHeader_not_dash y
      (sections_head tl (fun x hx => (hss x (by simp [hx])).1) y hy)

theorem npScanGo_sections (ss : List (String × List String))
    (hss : ∀ s ∈ ss, isNpHeaderName s.1 = true ∧
      ∀ l ∈ s.2, isDashLine l = false) :
    ∀ cur, npScanGo (flatMapL (fun s => npSection s.1 s.2) ss) cur =
      ([], cur.elim [] (fun hb => [hb]) ++ ss.filter fun s => !s.2.isEmpty) := by
  induction ss with
  | nil =>
    intro cur
    cases cur with
    | none => rfl
    | some hb => rfl
  | cons s tl ih =>
    intro cur
    obtain ⟨hhdr, hbody⟩ := hss s (by simp)
    have ihtl := ih (fun x hx => hss x (by simp [hx]))
    obtain ⟨hdr, body⟩ := s
    cases body with
    | nil =>
      show npScanGo (npSection hdr [] ++ _) cur = _
      rw [npSection_nil, List.nil_append, ihtl cur]
      simp [List.filter]
    | cons b0 bs =>
      have hrest : ∀ y,
          (flatMapL (fun s => npSection s.1 s.2) tl).head? = some y →
          isDashLine y = false := by
        intro y hy
        exact npHeader_not_dash y
          (sections_head tl (fun x hx => (hss x (by simp [hx])).1) y hy)
      show npScanGo (npSection hdr (b0 :: bs) ++ _) cur = _
      rw [npSection_cons]
      rw [npScanGo_section hdr (b0 :: bs) _ hhdr hbody hrest cur]
      rw [ihtl (some (hdr, b0 :: bs))]
      cases cur with
      | none => simp [List.filter]
      | some hb => simp [List.filter]

theorem npSectionItems_nilbody (hdr : String) :
    npSectionItems (hdr, []) = [] := by
  unfold npSectionItems
  split
  · rfl
  split
  · rfl
  split
  · rfl
  split
  · rfl
  · rfl

theorem flatMapL_filter_nonempty (ss : List (String × List String)) :
    flatMapL npSectionItems (ss.filter fun s => !s.2.isEmpty) =
      flatMapL npSectionItems ss := by
  induction ss with
  | nil => rfl
  | cons s tl ih =>
    obtain ⟨hdr, body⟩ := s
    cases body with
    | nil =>
      have hf : List.filter (fun s => !s.2.isEmpty) ((hdr, ([] : List String)) :: tl) =
          List.filter (fun s => !s.2.isEmpty) tl := by
        simp [List.filter]
      rw [hf, ih]
      show _ = npSectionItems (hdr, []) ++ flatMapL npSectionItems tl
      rw [npSectionItems_nilbody, List.nil_append]
    | cons b0 bs =>
      have hf : List.filter (fun s => !s.2.isEmpty) ((hdr, b0 :: bs) :: tl) =
          (hdr, b0 :: bs) :: List.filter (fun s => !s.2.isEmpty) tl := by
        simp [List.filter]
      rw [hf]
      show npSectionItems (hdr, b0 :: bs) ++ _ = _
      rw [ih]
      rfl

theorem npParamLines_not_dash (ps : List (String × Option String × String))
    (hps : ps.all tripleOk = true) :
    ∀ l ∈ flatMapL npParamLines ps, isDashLine l = false := by
  intro l hl
  rw [mem_flatMapL] at hl
  obtain ⟨p, hp, hlp⟩ := hl
  obtain ⟨hn, hty, htx⟩ := tripleOk_parts p (List.all_eq_true.mp hps p hp)
  unfold npParamLines at hlp
  simp only [List.mem_cons, List.mem_singleton, List.not_mem_nil, or_false] at hlp
  rcases hlp with h1 | h1
  · rw [h1]
    exact npEntryLine_not_dash p.1 p.2.1 hn
  · rw [h1]
    exact indent4_not_dash p.2.2

theorem npRetLines_not_dash (r : Option String × String) (hro : pairOk r = true) :
    ∀ l ∈ npRetLines r, isDashLine l = false := by
  obtain ⟨tp, d⟩ := r
  unfold pairOk at hro
  simp only [Bool.and_eq_true] at hro
  have htx : textOk d = true := hro.2
  intro l hl
  cases tp with
  | some ty =>
    have hty : typeOk ty = true := hro.1
    unfold npRetLines at hl
    simp only [List.mem_cons, List.mem_singleton, List.not_mem_nil, or_false] at hl
    rcases hl with h1 | h1
    · rw [h1]
      exact typeOk_not_dash ty hty
    · rw [h1]
      exact indent4_not_dash d
  | none =>
    unfold npRetLines at hl
    simp only [List.mem_singleton] at hl
    rw [hl]
    exact textOk_not_dash d htx

theorem npRaiseLines_not_dash (rss : List (String × String))
    (hrss : rss.all raiseOk = true) :
    ∀ l ∈ flatMapL npRaiseLines
      (rss.map fun r => ((some r.1 : Option String), r.2)),
      isDashLine l = false := by
  intro l hl
  rw [flatMapL_map] at hl
  rw [mem_flatMapL] at hl
  obtain ⟨r, hr, hlr⟩ := hl
  obtain ⟨hn, htx⟩ := raiseOk_parts r (List.all_eq_true.mp hrss r hr)
  have hshape : npRaiseLines ((some r.1 : Option String), r.2) =
      [r.1, indent4 r.2] := rfl
  rw [hshape] at hlr
  simp only [List.mem_cons, List.mem_singleton, List.not_mem_nil, or_false] at hlr
  rcases hlr with h1 | h1
  · rw [h1]
    exact nameOk_not_dash r.1 hn
  · rw [h1]
    exact indent4_not_dash r.2

theorem retPairs_elim (c : CanonMeta) :
    returnsPairs (canonToMeta c) = c.ret.elim [] (fun r => [r]) := by
  rw [returnsPairs_canonToMeta]
  obtain ⟨ps, ro, yo, rss⟩ := c
  cases ro <;> rfl

theorem yldPairs_elim (c : CanonMeta) :
    yieldsPairs (canonToMeta c) = c.yld.elim [] (fun y => [y]) := by
  rw [yieldsPairs_canonToMeta]
  obtain ⟨ps, ro, yo, rss⟩ := c
  cases yo <;> rfl

theorem rawInlineOfCanon_elim (c : CanonMeta) :
    rawInlineOfCanon c =
      c.ps.map (fun p => RawItem.rparam p.1 p.2.1 p.2.2) ++
        c.ret.elim [] (fun r => [RawItem.rret r.1 r.2]) ++
        c.yld.elim [] (fun y => [RawItem.ryield y.1 y.2]) ++
        c.rss.map (fun r => RawItem.rraises (some r.1) r.2) := by
  obtain ⟨ps, ro, yo, rss⟩ := c
  unfold rawInlineOfCanon
  cases ro <;> cases yo <;> rfl

theorem npBlock_as_sections (c : CanonMeta) :
    composeNpBlock (canonToMeta c) =
      flatMapL (fun s => npSection s.1 s.2) (npCanonSections c) := by
  unfold composeNpBlock npCanonSections
  rw [paramTriples_canonToMeta, retPairs_elim, yldPairs_elim,
    raisesPairs_canonToMeta]
  have hpl : (c.ps.map fun p => npParamLines p) = c.ps.map npParamLines := rfl
  simp [flatMapL, List.append_assoc]

theorem npCanonSections_ok (c : CanonMeta)
    (hps : c.ps.all tripleOk = true)
    (hro : ∀ r, c.ret = some r → pairOk r = true)
    (hyo : ∀ y, c.yld = some y → pairOk y = true)
    (hrss : c.rss.all raiseOk = true) :
    ∀ s ∈ npCanonSections c, isNpHeaderName s.1 = true ∧
      ∀ l ∈ s.2, isDashLine l = false := by
  intro s hs
  unfold npCanonSections at hs
  simp only [List.mem_cons, List.not_mem_nil, or_false] at hs
  rcases hs with h1 | h1 | h1 | h1
  · subst h1
    exact ⟨(by decide : isNpHeaderName "Parameters" = true),
      npParamLines_not_dash c.ps hps⟩
  · subst h1
    refine ⟨(by decide : isNpHeaderName "Returns" = true), ?_⟩
    cases hc : c.ret with
    | none =>
      intro l hl
      simp [flatMapL] at hl
    | some r =>
      intro l hl
      have hb : flatMapL npRetLines ((some r).elim [] (fun r => [r])) =
          npRetLines r := by
        simp [flatMapL]
      rw [show (("Returns", flatMapL npRetLines
        ((some r).elim [] (fun r => [r]))).2) = flatMapL npRetLines
          ((some r).elim [] (fun r => [r])) from rfl, hb] at hl
      exact npRetLines_not_dash r (hro r hc) l hl
  · subst h1
    refine ⟨(by decide : isNpHeaderName "Yields" = true), ?_⟩
    cases hc : c.yld with
    | none =>
      intro l hl
      simp [flatMapL] at hl
    | some y =>
      intro l hl
      have hb : flatMapL npRetLines ((some y).elim [] (fun y => [y])) =
          npRetLines y := by
        simp [flatMapL]
      rw [show (("Yields", flatMapL npRetLines
        ((some y).elim [] (fun y => [y]))).2) = flatMapL npRetLines
          ((some y).elim [] (fun y => [y])) from rfl, hb] at hl
      exact npRetLines_not_dash y (hyo y hc) l hl
  · subst h1
    exact ⟨(by decide : isNpHeaderName "Raises" = true),
      npRaiseLines_not_dash c.rss hrss⟩

theorem npItems_ret_elim (ro : Option (Option String × String))
    (hro : ∀ r, ro = some r → pairOk r = true) :
    npSectionItems ("Returns", flatMapL npRetLines (ro.elim [] (fun r => [r]))) =
      ro.elim [] (fun r => [RawItem.rret r.1 r.2]) := by
  cases ro with
  | none =>
    show npSectionItems ("Returns", []) = ([] : List RawItem)
    exact npSectionItems_nilbody "Returns"
  | some r =>
    have hb : flatMapL npRetLines ((some r).elim [] (fun r => [r])) =
        npRetLines r := by
      simp [flatMapL]
    rw [hb]
    exact npSectionItems_ret r (hro r rfl)

theorem npItems_yld_elim (yo : Option (Option String × String))
    (hyo : ∀ y, yo = some y → pairOk y = true) :
    npSectionItems ("Yields", flatMapL npRetLines (yo.elim [] (fun y => [y]))) =
      yo.elim [] (fun y => [RawItem.ryield y.1 y.2]) := by
  cases yo with
  | none =>
    show npSectionItems ("Yields", []) = ([] : List RawItem)
    exact npSectionItems_nilbody "Yields"
  | some y =>
    have hb : flatMapL npRetLines ((some y).elim [] (fun y => [y])) =
        npRetLines y := by
      simp [flatMapL]
    rw [hb]
    exact npSectionItems_yld y (hyo y rfl)

theorem npItems_block (c : CanonMeta)
    (hps : c.ps.all tripleOk = true)
    (hro : ∀ r, c.ret = some r → pairOk r = true)
    (hyo : ∀ y, c.yld = some y → pairOk y = true)
    (hrss : c.rss.all raiseOk = true) :
    flatMapL npSectionItems
        ((npCanonSections c).filter fun s => !s.2.isEmpty) =
      rawInlineOfCanon c := by
  rw [flatMapL_filter_nonempty]
  unfold npCanonSections
  show npSectionItems ("Parameters", flatMapL npParamLines c.ps) ++
    (npSectionItems ("Returns", flatMapL npRetLines
      (c.ret.elim [] (fun r => [r]))) ++
      (npSectionItems ("Yields", flatMapL npRetLines
        (c.yld.elim [] (fun y => [y]))) ++
        (npSectionItems ("Raises", flatMapL npRaiseLines
          (c.rss.map fun r => ((some r.1 : Option String), r.2))) ++ []))) = _
  rw [npSectionItems_params c.ps hps, npItems_ret_elim c.ret hro,
    npItems_yld_elim c.yld hyo, npSectionItems_raises c.rss hrss,
    rawInlineOfCanon_elim]
  simp [List.append_assoc]

theorem noBadScan_npBlock (c : CanonMeta)
    (hps : c.ps.all tripleOk = true)
    (hro : ∀ r, c.ret = some r → pairOk r = true)
    (hyo : ∀ y, c.yld = some y → pairOk y = true)
    (hrss : c.rss.all raiseOk = true) :
    noBadScan (composeNpBlock (canonToMeta c)) = true := by
  rw [npBlock_as_sections]
  exact noBadScan_sections _ (npCanonSections_ok c hps hro hyo hrss)

theorem npBlock_head_name (c : CanonMeta)
    (hps : c.ps.all tripleOk = true)
    (hro : ∀ r, c.ret = some r → pairOk r = true)
    (hyo : ∀ y, c.yld = some y → pairOk y = true)
    (hrss : c.rss.all raiseOk = true) :
    ∀ y, (composeNpBlock (canonToMeta c)).head? = some y →
      isNpHeaderName y = true := by
  rw [npBlock_as_sections]
  exact sections_head _ (fun s hs => (npCanonSections_ok c hps hro hyo hrss s hs).1)

theorem npScanGo_block (c : CanonMeta)
    (hps : c.ps.all tripleOk = true)
    (hro : ∀ r, c.ret = some r → pairOk r = true)
    (hyo : ∀ y, c.yld = some y → pairOk y = true)
    (hrss : c.rss.all raiseOk = true) :
    npScanGo (composeNpBlock (canonToMeta c)) none =
      ([], (npCanonSections c).filter fun s => !s.2.isEmpty) := by
  rw [npBlock_as_sections]
  have := npScanGo_sections (npCanonSections c)
    (npCanonSections_ok c hps hro hyo hrss) none
  simpa using this

theorem npParse_roundtrip (m : Docstring) (hv : validDocstring m = true) :
    npParse (composeShort m ++ composeLong m ++ composeNpBlock m.meta) =
      .ok m := by
  obtain ⟨hshort, hlong, hvm, hdist⟩ := validDocstring_parts m hv
  obtain ⟨c, hmeta_eq, hps, hr1, hy1, hrss⟩ := validDecomp0 m.meta hvm
  have hdist2 : distinctStrings (c.ps.map (fun p => p.1)) = true := by
    rw [← paramNames_canonToMeta, ← hmeta_eq]
    exact hdist
  have hro : ∀ r, c.ret = some r → pairOk r = true := by
    intro r hr
    rw [hr] at hr1
    exact hr1
  have hyo : ∀ y, c.yld = some y → pairOk y = true := by
    intro y hy
    rw [hy] at hy1
    exact hy1
  have hcheckBlock := noBadScan_npBlock c hps hro hyo hrss
  have hscanBlock := npScanGo_block c hps hro hyo hrss
  have hitems := npItems_block c hps hro hyo hrss
  have hheadBlock := npBlock_head_name c hps hro hyo hrss
  have hheadND : ∀ y, (composeNpBlock (canonToMeta c)).head? = some y →
      isDashLine y = false :=
    fun y hy => npHeader_not_dash y (hheadBlock y hy)
  obtain ⟨sd, ld, bs, bl, meta⟩ := m
  simp only at hmeta_eq
  subst hmeta_eq
  cases sd with
  | none =>
    obtain ⟨hld, hbs⟩ := hshort
    simp only at hld
    subst hld
    subst hbs
    have hbl : bl = false := hlong
    subst hbl
    have hcs : composeShort ⟨none, none, false, false, canonToMeta c⟩ = [] := rfl
    have hcl : composeLong ⟨none, none, false, false, canonToMeta c⟩ = [] := rfl
    rw [hcs, hcl, List.nil_append, List.nil_append]
    show npParse (composeNpBlock (canonToMeta c)) = _
    unfold npParse
    rw [npCheck_ok 1 _ hcheckBlock]
    simp only
    rw [hscanBlock]
    simp only
    have hsplit : splitDescPhase (fun _ => false) [] =
        ⟨none, false, none, false, []⟩ := rfl
    rw [hsplit]
    unfold mkDoc mergeLong
    simp only
    rw [hitems, resolve_rawInline c hdist2]
  | some s =>
    obtain ⟨htx, hterm⟩ := hshort
    have hcs : composeShort ⟨some s, ld, bs, bl, canonToMeta c⟩ =
        s :: (if bs then [""] else []) := by
      unfold composeShort
      simp only
      rw [normalizeShort_of_term s hterm]
    cases ld with
    | none =>
      have hbl : bl = false := hlong
      subst hbl
      have hcl : composeLong ⟨some s, none, bs, false, canonToMeta c⟩ = [] := rfl
      rw [hcs, hcl]
      have hD : ∀ l ∈ s :: (if bs then [""] else []), isDashLine l = false := by
        intro l hl
        simp only [List.mem_cons] at hl
        rcases hl with h1 | h1
        · rw [h1]
          exact textOk_not_dash s htx
        · cases hbs2 : bs with
          | true =>
            rw [hbs2] at h1
            simp at h1
            rw [h1]
            decide
          | false =>
            rw [hbs2] at h1
            simp at h1
      have hassoc : (s :: (if bs then [""] else [])) ++ [] ++
          composeNpBlock (canonToMeta c) =
          (s :: (if bs then [""] else [])) ++
            composeNpBlock (canonToMeta c) := by
        simp
      rw [hassoc]
      unfold npParse
      have hcheck : npCheck 1 ((s :: (if bs then [""] else [])) ++
          composeNpBlock (canonToMeta c)) = .ok () := by
        refine npCheck_ok 1 _ ?_
        exact noBadScan_append_head _ _
          (noBadScan_of_no_dash _ hD) hcheckBlock hheadND
      rw [hcheck]
      simp only
      have hscan : npScanGo ((s :: (if bs then [""] else [])) ++
          composeNpBlock (canonToMeta c)) none =
          ((s :: (if bs then [""] else [])) ++ [],
            (npCanonSections c).filter fun s => !s.2.isEmpty) := by
        rw [npScanGo_desc _ _ hD hheadND, hscanBlock]
      rw [hscan]
      simp only
      rw [List.append_nil]
      have hsplit : splitDescPhase (fun _ => false)
          (s :: (if bs then [""] else [])) =
          ⟨some s, bs, none, false, []⟩ := by
        have := splitDescPhase_eq_noLong (fun _ => false) s bs []
          htx rfl (fun l _ => rfl) (fun x xs hx => by simp at hx)
        simpa using this
      rw [hsplit]
      unfold mkDoc mergeLong
      simp only
      rw [hitems, resolve_rawInline c hdist2]
    | some ls =>
      have hok : longBlockOk ls = true := hlong
      have hcl : composeLong ⟨some s, some ls, bs, bl, canonToMeta c⟩ =
          ls ++ (if bl then [""] else []) := rfl
      rw [hcs, hcl]
      have hD : ∀ l ∈ (s :: (if bs then [""] else [])) ++
          (ls ++ (if bl then [""] else [])), isDashLine l = false := by
        intro l hl
        simp only [List.mem_append, List.mem_cons] at hl
        rcases hl with (h1 | h1) | (h1 | h1)
        · rw [h1]
          exact textOk_not_dash s htx
        · cases hbs2 : bs with
          | true =>
            rw [hbs2] at h1
            simp at h1
            rw [h1]
            decide
          | false =>
            rw [hbs2] at h1
            simp at h1
        · rcases (longBlockOk_parts ls hok).2.2 l h1 with hbl2 | htx2
          · exact isBlank_not_dash l hbl2
          · exact textOk_not_dash l htx2
        · cases hbl2 : bl with
          | true =>
            rw [hbl2] at h1
            simp at h1
            rw [h1]
            decide
          | false =>
            rw [hbl2] at h1
            simp at h1
      have hassoc : (s :: (if bs then [""] else [])) ++
          (ls ++ (if bl then [""] else [])) ++
          composeNpBlock (canonToMeta c) =
          ((s :: (if bs then [""] else [])) ++
            (ls ++ (if bl then [""] else []))) ++
            composeNpBlock (canonToMeta c) := by
        simp
      rw [hassoc]
      unfold npParse
      have hcheck : npCheck 1 (((s :: (if bs then [""] else [])) ++
          (ls ++ (if bl then [""] else []))) ++
          composeNpBlock (canonToMeta c)) = .ok () := by
        refine npCheck_ok 1 _ ?_
        exact noBadScan_append_head _ _
          (noBadScan_of_no_dash _ hD) hcheckBlock hheadND
      rw [hcheck]
      simp only
      have hscan : npScanGo (((s :: (if bs then [""] else [])) ++
          (ls ++ (if bl then [""] else []))) ++
          composeNpBlock (canonToMeta c)) none =
          (((s :: (if bs then [""] else [])) ++
            (ls ++ (if bl then [""] else []))) ++ [],
            (npCanonSections c).filter fun s => !s.2.isEmpty) := by
        rw [npScanGo_desc _ _ hD hheadND, hscanBlock]
      rw [hscan]
      simp only
      rw [List.append_nil]
      have hnm : ∀ l ∈ ls, (fun _ => false) l = false := fun l _ => rfl
      have hsplit : splitDescPhase (fun _ => false)
          ((s :: (if bs then [""] else [])) ++
            (ls ++ (if bl then [""] else []))) =
          ⟨some s, bs, some ls, bl, []⟩ := by
        have := splitDescPhase_eq_long (fun _ => false) s bs bl ls []
          htx rfl (fun l _ => rfl) hok hnm (fun x xs hx => by simp at hx)
        simpa using this
      rw [hsplit]
      unfold mkDoc mergeLong
      simp only
      rw [hitems, resolve_rawInline c hdist2]
      simp

theorem distinctStrings_iff_nodup (l : List String) :
    distinctStrings l = true ↔ l.Nodup := by
  induction l with
  | nil => simp [distinctStrings]
  | cons x xs ih =>
    unfold distinctStrings
    rw [List.nodup_cons, ← ih]
    simp only [Bool.and_eq_true, Bool.not_eq_true']
    constructor
    · rintro ⟨h1, h2⟩
      refine ⟨?_, h2⟩
      intro hm
      rw [contains_true_of_mem x xs hm] at h1
      cases h1
    · rintro ⟨h1, h2⟩
      exact ⟨contains_false_of_not_mem x xs h1, h2⟩

theorem dedupLast_go_nodup (l acc : List (String × Option String × String))
    (hacc : ((acc.map fun p => p.1).Nodup)) :
    (((l.foldl (fun acc x => acc.filter (fun y => y.1 ≠ x.1) ++ [x]) acc).map
      fun p => p.1).Nodup) := by
  induction l generalizing acc with
  | nil => exact hacc
  | cons x xs ih =>
    simp only [List.foldl_cons]
    apply ih
    rw [List.map_append]
    refine List.Nodup.append ?_ (by simp) ?_
    · exact hacc.sublist ((List.filter_sublist acc).map fun p => p.1)
    · intro a ha hax
      simp only [List.map_cons, List.map_nil, List.mem_singleton] at hax
      subst hax
      obtain ⟨p, hp, hpa⟩ := List.mem_map.mp ha
      have := List.of_mem_filter hp
      simp only [decide_eq_true_eq] at this
      exact this (by rw [hpa])

theorem dedupLast_nodup (l : List (String × Option String × String)) :
    distinctStrings ((dedupLast l).map fun p => p.1) = true := by
  rw [distinctStrings_iff_nodup]
  exact dedupLast_go_nodup l [] (by simp)

theorem paramNames_resolve (items : List RawItem) :
    paramNames (resolve items) =
      (dedupLast (rawParams items)).map (fun p => p.1) := by
  unfold resolve paramNames
  dsimp only
  rw [List.filterMap_append, List.filterMap_append, List.filterMap_append,
    List.filterMap_append, List.filterMap_append, List.filterMap_append,
    List.filterMap_append]
  have h1 : ((dedupLast (rawParams items)).map fun p =>
      DocstringMeta.param p.1
        (match p.2.1 with
         | some t => some t
         | none => lookupLast (rawTypeFields items) p.1) p.2.2 false none
        .positional).filterMap (fun e =>
          match e with
          | DocstringMeta.param n _ _ _ _ _ => some n
          | _ => none) =
      (dedupLast (rawParams items)).map (fun p => p.1) := by
    rw [List.filterMap_map]
    rw [show ((fun e =>
        match e with
        | DocstringMeta.param n _ _ _ _ _ => some n
        | _ => none) ∘ fun p : String × Option String × String =>
          DocstringMeta.param p.1
            (match p.2.1 with
             | some t => some t
             | none => lookupLast (rawTypeFields items) p.1) p.2.2 false none
            .positional) =
        (fun p : String × Option String × String => some p.1) from
      funext fun p => rfl]
    exact filterMap_some_map _ _
  have h2 : ((match rawRetDesc items, rawRetType items with
      | none, none => []
      | d, t => [DocstringMeta.returns t (d.getD "") false]) : List DocstringMeta).filterMap
        (fun e =>
          match e with
          | DocstringMeta.param n _ _ _ _ _ => some n
          | _ => none) = [] := by
    cases rawRetDesc items <;> cases rawRetType items <;> rfl
  have h3 : ((match rawYldDesc items, rawYldType items with
      | none, none => []
      | d, t => [DocstringMeta.yields t (d.getD "")]) : List DocstringMeta).filterMap
        (fun e =>
          match e with
          | DocstringMeta.param n _ _ _ _ _ => some n
          | _ => none) = [] := by
    cases rawYldDesc items <;> cases rawYldType items <;> rfl
  have h4 : (items.filterMap selRaises).filterMap (fun e =>
      match e with
      | DocstringMeta.param n _ _ _ _ _ => some n
      | _ => none) = [] := by
    refine List.filterMap_eq_nil_iff.mpr ?_
    intro e he
    obtain ⟨i, hi, hsel⟩ := List.mem_filterMap.mp he
    cases i <;> simp [selRaises] at hsel
    rw [← hsel]
  have h5 : (items.filterMap selDepr).filterMap (fun e =>
      match e with
      | DocstringMeta.param n _ _ _ _ _ => some n
      | _ => none) = [] := by
    refine List.filterMap_eq_nil_iff.mpr ?_
    intro e he
    obtain ⟨i, hi, hsel⟩ := List.mem_filterMap.mp he
    cases i <;> simp [selDepr] at hsel
    rw [← hsel]
  have h6 : ((match items.filterMap selExample with
      | [] => []
      | ls => [DocstringMeta.exampleBlock ls ""]) : List DocstringMeta).filterMap
        (fun e =>
          match e with
          | DocstringMeta.param n _ _ _ _ _ => some n
          | _ => none) = [] := by
    cases items.filterMap selExample <;> rfl
  have h7 : (((rawTypeFields items).filter fun y =>
      !((dedupLast (rawParams items)).map (fun p => p.1)).contains y.1).map
        (fun y => DocstringMeta.generic ["type", y.1] y.2)).filterMap (fun e =>
          match e with
          | DocstringMeta.param n _ _ _ _ _ => some n
          | _ => none) = [] := by
    refine List.filterMap_eq_nil_iff.mpr ?_
    intro e he
    obtain ⟨y, hy, hye⟩ := List.mem_map.mp he
    rw [← hye]
  have h8 : (items.filterMap selGeneric).filterMap (fun e =>
      match e with
      | DocstringMeta.param n _ _ _ _ _ => some n
      | _ => none) = [] := by
    refine List.filterMap_eq_nil_iff.mpr ?_
    intro e he
    obtain ⟨i, hi, hsel⟩ := List.mem_filterMap.mp he
    cases i <;> simp [selGeneric] at hsel
    rw [← hsel]
  rw [h1, h2, h3, h4, h5, h6, h7, h8]
  simp

theorem paramNames_resolve_distinct (items : List RawItem) :
    distinctStrings (paramNames (resolve items)) = true := by
  rw [paramNames_resolve]
  exact dedupLast_nodup (rawParams items)

theorem splitDescPhase_metaRest_nil (isMark : String → Bool)
    (lines : List String) (h : ∀ l ∈ lines, isMark l = false) :
    (splitDescPhase isMark lines).metaRest = [] := by
  unfold splitDescPhase
  cases hdw : lines.dropWhile isBlank with
  | nil => rfl
  | cons first rest =>
    have hmem : ∀ l ∈ first :: rest, l ∈ lines := by
      intro l hl
      exact (List.dropWhile_sublist isBlank).mem (hdw ▸ hl)
    have hfm : isMark first = false := h first (hmem first (by simp))
    show (if isMark first = true then
        (⟨none, false, none, false, first :: rest⟩ : DescSplit)
      else
        let lp := descLongPart isMark (rest.dropWhile isBlank)
        (⟨some first, descFlagS rest, lp.1, lp.2.1, lp.2.2⟩ : DescSplit)).metaRest = []
    rw [hfm]
    simp only [Bool.false_eq_true, if_false]
    unfold descLongPart
    dsimp only
    rw [dropWhile_all]
    intro l hl
    have hl2 : l ∈ rest := (List.dropWhile_sublist isBlank).mem hl
    rw [h l (hmem l (by simp [hl2]))]
    rfl

theorem fieldParse_plain (lead : Char) (hl : lead = ':' ∨ lead = '@')
    (lines : List String) (h : ∀ l ∈ lines, plainLine l = true) :
    (fieldParse lead lines).meta = [] := by
  unfold fieldParse
  dsimp only
  have hmark : ∀ l ∈ lines, (parseFieldLine lead l).isSome = false := by
    intro l hml
    have hp := h l hml
    unfold plainLine at hp
    simp only [Bool.or_eq_true] at hp
    rcases hp with hb | ht
    · rw [parseFieldLine_none_of_blank lead hl l hb]
      rfl
    · rw [parseFieldLine_none_of_textOk lead hl l ht]
      rfl
  rw [splitDescPhase_metaRest_nil _ lines hmark]
  rfl

theorem googleParse_plain (lines : List String)
    (h : ∀ l ∈ lines, plainLine l = true) :
    (googleParse lines).meta = [] := by
  unfold googleParse
  dsimp only
  have hmark : ∀ l ∈ lines, isGoogleHeader l = false := by
    intro l hml
    have hp := h l hml
    unfold plainLine at hp
    simp only [Bool.or_eq_true] at hp
    rcases hp with hb | ht
    · exact isGoogleHeader_of_blank l hb
    · exact isGoogleHeader_of_textOk l ht
  rw [splitDescPhase_metaRest_nil _ lines hmark]
  rfl

theorem npParse_plain (lines : List String)
    (h : ∀ l ∈ lines, plainLine l = true) :
    ∃ m, npParse lines = .ok m ∧ m.meta = [] := by
  have hnd : ∀ l ∈ lines, isDashLine l = false := by
    intro l hml
    have hp := h l hml
    unfold plainLine at hp
    simp only [Bool.or_eq_true] at hp
    rcases hp with hb | ht
    · exact isBlank_not_dash l hb
    · exact textOk_not_dash l ht
  have hcheck : npCheck 1 lines = .ok () :=
    npCheck_ok 1 lines (noBadScan_of_no_dash lines hnd)
  have hscan : npScanGo lines none = (lines, []) := by
    have := npScanGo_desc lines [] hnd (fun y hy => by simp at hy)
    rw [List.append_nil] at this
    rw [show npScanGo [] none =
      (([] : List String), ([] : List (String × List String))) from rfl] at this
    simpa using this
  refine ⟨mkDoc (splitDescPhase (fun _ => false) lines) [] [], ?_, ?_⟩
  · unfold npParse
    rw [hcheck]
    simp only
    rw [hscan]
    rfl
  · show resolve [] = []
    rfl

theorem parse_plain (lines : List String) (style : DocstringStyle)
    (h : ∀ l ∈ lines, plainLine l = true) :
    ∃ m, parse lines style = .ok m ∧ m.meta = [] := by
  cases style with
  | rest =>
    exact ⟨fieldParse ':' lines, rfl,
      fieldParse_plain ':' (Or.inl rfl) lines h⟩
  | epydoc =>
    exact ⟨fieldParse '@' lines, rfl,
      fieldParse_plain '@' (Or.inr rfl) lines h⟩
  | google => exact ⟨googleParse lines, rfl, googleParse_plain lines h⟩
  | numpydoc => exact npParse_plain lines h

theorem paramEntries_append (a b : List DocstringMeta) :
    paramEntries (a ++ b) = paramEntries a ++ paramEntries b := by
  unfold paramEntries
  rw [List.filter_append]

theorem paramEntries_filter_none (ms : List DocstringMeta)
    (q : DocstringMeta → Bool)
    (hq : ∀ e, q e = true →
      (match e with
       | DocstringMeta.param _ _ _ _ _ _ => true
       | _ => false) = false) :
    paramEntries (ms.filter q) = [] := by
  unfold paramEntries
  rw [List.filter_eq_nil_iff]
  intro e he
  have hqe := List.of_mem_filter he
  simp [hq e hqe]

theorem paramEntries_filter_sub (ms : List DocstringMeta)
    (q : DocstringMeta → Bool)
    (hq : ∀ e, q e = true →
      (match e with
       | DocstringMeta.param _ _ _ _ _ _ => true
       | _ => false) = true) :
    paramEntries (ms.filter q) = ms.filter q := by
  unfold paramEntries
  rw [List.filter_eq_self]
  intro e he
  have hqe := List.of_mem_filter he
  simp [hq e hqe]

theorem paramEntries_keepOrInherit_none (X Y : List DocstringMeta)
    (hX : paramEntries X = []) (hY : paramEntries Y = []) :
    paramEntries (keepOrInherit X Y) = [] := by
  unfold keepOrInherit
  cases X with
  | nil => exact hY
  | cons x xs => exact hX

theorem combine_paramEntries (o b : Docstring) :
    paramEntries (combine_docstrings o b).meta =
      paramEntries o.meta ++ missingBaseParams o b := by
  have hmain : (combine_docstrings o b).meta =
      paramEntries o.meta ++ missingBaseParams o b ++
        keepOrInherit (returnsEntries o.meta) (returnsEntries b.meta) ++
        keepOrInherit (yieldsEntries o.meta) (yieldsEntries b.meta) ++
        keepOrInherit (raisesEntries o.meta) (raisesEntries b.meta) ++
        keepOrInherit (deprecatedEntries o.meta) (deprecatedEntries b.meta) ++
        keepOrInherit (exampleEntries o.meta) (exampleEntries b.meta) ++
        keepOrInherit (genericEntries o.meta) (genericEntries b.meta) := rfl
  rw [hmain]
  simp only [paramEntries_append]
  have h1 : paramEntries (paramEntries o.meta) = paramEntries o.meta := by
    unfold paramEntries
    rw [List.filter_eq_self]
    intro e he
    simpa using List.of_mem_filter he
  have h2 : paramEntries (missingBaseParams o b) = missingBaseParams o b := by
    unfold missingBaseParams
    refine paramEntries_filter_sub b.meta _ ?_
    intro e he
    cases e <;> simp_all
  have hret : paramEntries (keepOrInherit (returnsEntries o.meta)
      (returnsEntries b.meta)) = [] := by
    refine paramEntries_keepOrInherit_none _ _ ?_ ?_ <;>
      · refine paramEntries_filter_none _ _ ?_
        intro e he
        cases e <;> simp_all
  have hyld : paramEntries (keepOrInherit (yieldsEntries o.meta)
      (yieldsEntries b.meta)) = [] := by
    refine paramEntries_keepOrInherit_none _ _ ?_ ?_ <;>
      · refine paramEntries_filter_none _ _ ?_
        intro e he
        cases e <;> simp_all
  have hrai : paramEntries (keepOrInherit (raisesEntries o.meta)
      (raisesEntries b.meta)) = [] := by
    refine paramEntries_keepOrInherit_none _ _ ?_ ?_ <;>
      · refine paramEntries_filter_none _ _ ?_
        intro e he
        cases e <;> simp_all
  have hdep : paramEntries (keepOrInherit (deprecatedEntries o.meta)
      (deprecatedEntries b.meta)) = [] := by
    refine paramEntries_keepOrInherit_none _ _ ?_ ?_ <;>
      · refine paramEntries_filter_none _ _ ?_
        intro e he
        cases e <;> simp_all
  have hexa : paramEntries (keepOrInherit (exampleEntries o.meta)
      (exampleEntries b.meta)) = [] := by
    refine paramEntries_keepOrInherit_none _ _ ?_ ?_ <;>
      · refine paramEntries_filter_none _ _ ?_
        intro e he
        cases e <;> simp_all
  have hgen : paramEntries (keepOrInherit (genericEntries o.meta)
      (genericEntries b.meta)) = [] := by
    refine paramEntries_keepOrInherit_none _ _ ?_ ?_ <;>
      · refine paramEntries_filter_none _ _ ?_
        intro e he
        cases e <;> simp_all
  rw [h1, h2, hret, hyld, hrai, hdep, hexa, hgen]
  simp

theorem fieldMetaScan_item (lead : Char) (l : String) (item : RawItem)
    (hitem : parseFieldLine lead l = some item) (rest : List String)
    (acc : List RawItem) (prose : List String) :
    fieldMetaScan lead (l :: rest) acc prose =
      fieldMetaScan lead rest (acc ++ [item]) prose := by
  rw [fieldMetaScan, hitem]

theorem fieldMetaScan_blank (lead : Char) (l : String)
    (hnone : parseFieldLine lead l = none) (hb : isBlank l = true)
    (rest : List String) (acc : List RawItem) (prose : List String) :
    fieldMetaScan lead (l :: rest) acc prose =
      fieldMetaScan lead rest acc prose := by
  rw [fieldMetaScan, hnone]
  simp [hb]

theorem dedupLast_two (x : String) (t1 t2 : Option String) (d1 d2 : String) :
    dedupLast [(x, t1, d1), (x, t2, d2)] = [(x, t2, d2)] := by
  unfold dedupLast
  simp

theorem resolve_dup_pair (x d1 d2 : String) :
    resolve [RawItem.rparam x none d1, RawItem.rparam x none d2] =
      [DocstringMeta.param x none d2 false none .positional] := by
  unfold resolve
  dsimp only
  rw [show rawParams [RawItem.rparam x none d1, RawItem.rparam x none d2] =
    [(x, none, d1), (x, none, d2)] from rfl]
  rw [dedupLast_two]
  rfl

theorem fieldParse_dup_param (x d1 d2 : String) (hx : nameOk x = true) :
    fieldParse ':' [fieldLine ':' "param" (some x) d1,
      fieldLine ':' "param" (some x) d2] =
      ⟨none, none, false, false,
        [DocstringMeta.param x none d2 false none .positional]⟩ := by
  have hf1 := parseField_param ':' x d1 hx
  have hf2 := parseField_param ':' x d2 hx
  have hmetaL : ∀ a xs, [fieldLine ':' "param" (some x) d1,
      fieldLine ':' "param" (some x) d2] = a :: xs →
      (fun l => (parseFieldLine ':' l).isSome) a = true ∧ isBlank a = false := by
    intro a xs hax
    injection hax with h1 h2
    subst h1
    constructor
    · simp only [hf1]
      rfl
    · exact fieldLine_not_blank ':' (Or.inl rfl) "param" (some x) d1
  unfold fieldParse
  rw [splitDescPhase_marker _ _ hmetaL]
  simp only
  rw [fieldMetaScan_item ':' _ _ hf1, fieldMetaScan_item ':' _ _ hf2]
  show mkDoc _ ([] ++ [RawItem.rparam x none d1] ++ [RawItem.rparam x none d2])
    (fieldMetaScan ':' [] _ []).2 = _
  unfold mkDoc mergeLong
  simp only
  rw [show ([] ++ [RawItem.rparam x none d1] ++ [RawItem.rparam x none d2]) =
    [RawItem.rparam x none d1, RawItem.rparam x none d2] from by simp]
  rw [resolve_dup_pair]
  rfl

theorem fieldParse_ret_rtype (d t : String) :
    fieldParse ':' ["First line", "", fieldLine ':' "returns" none d, "",
      fieldLine ':' "rtype" none t, ""] =
      ⟨some "First line", none, true, false,
        [DocstringMeta.returns (some t) d false]⟩ := by
  have hf1 := parseField_returns ':' d
  have hf2 := parseField_rtype ':' t
  have hs : textOk "First line" = true := by decide
  have hsm : (fun l => (parseFieldLine ':' l).isSome) "First line" = false := by
    simp only [parseFieldLine_none_of_textOk ':' (Or.inl rfl) "First line" hs]
    rfl
  have hblankmark : ∀ l, isBlank l = true →
      (fun l => (parseFieldLine ':' l).isSome) l = false := by
    intro l hbl
    simp only [parseFieldLine_none_of_blank ':' (Or.inl rfl) l hbl]
    rfl
  have hmetaL : ∀ a xs, [fieldLine ':' "returns" none d, "",
      fieldLine ':' "rtype" none t, ""] = a :: xs →
      (fun l => (parseFieldLine ':' l).isSome) a = true ∧ isBlank a = false := by
    intro a xs hax
    injection hax with h1 h2
    subst h1
    constructor
    · simp only [hf1]
      rfl
    · exact fieldLine_not_blank ':' (Or.inl rfl) "returns" none d
  have hshape : (["First line", "", fieldLine ':' "returns" none d, "",
      fieldLine ':' "rtype" none t, ""] : List String) =
      "First line" :: ((if true then [""] else []) ++
        ([] ++ [fieldLine ':' "returns" none d, "",
          fieldLine ':' "rtype" none t, ""])) := by
    simp
  unfold fieldParse
  rw [hshape]
  rw [splitDescPhase_eq_noLong _ "First line" true _ hs hsm hblankmark hmetaL]
  simp only
  rw [fieldMetaScan_item ':' _ _ hf1,
    fieldMetaScan_blank ':' "" (by decide) (by decide),
    fieldMetaScan_item ':' _ _ hf2,
    fieldMetaScan_blank ':' "" (by decide) (by decide)]
  show mkDoc _ ([] ++ [RawItem.rret none d] ++ [RawItem.rrtype t])
    (fieldMetaScan ':' [] _ []).2 = _
  unfold mkDoc mergeLong
  simp only
  rw [show ([] ++ [RawItem.rret none d] ++ [RawItem.rrtype t]) =
    [RawItem.rret none d, RawItem.rrtype t] from by simp]
  rw [show resolve [RawItem.rret none d, RawItem.rrtype t] =
    [DocstringMeta.returns (some t) d false] from rfl]
  rfl

theorem compose_single_ret_np (s d t : String) :
    compose ⟨some s, none, true, false,
      [DocstringMeta.returns (some t) d false]⟩ DocstringStyle.numpydoc =
      [normalizeShort s, "", "Returns", dashesOf "Returns", t, indent4 d] := rfl

theorem parse_compose_roundtrip (m : Docstring) (S : DocstringStyle)
    (hv : validDocstring m = true) : parse (compose m S) S = .ok m := by
  cases S with
  | rest =>
    show Except.ok (fieldParse ':' (composeShort m ++ composeLong m ++
      flatMapL (composeFieldEntry ':') m.meta)) = Except.ok m
    rw [fieldParse_roundtrip ':' (Or.inl rfl) m hv]
  | epydoc =>
    show Except.ok (fieldParse '@' (composeShort m ++ composeLong m ++
      flatMapL (composeFieldEntry '@') m.meta)) = Except.ok m
    rw [fieldParse_roundtrip '@' (Or.inr rfl) m hv]
  | google =>
    show Except.ok (googleParse (composeShort m ++ composeLong m ++
      composeGoogleBlock m.meta)) = Except.ok m
    rw [googleParse_roundtrip m hv]
  | numpydoc =>
    show npParse (composeShort m ++ composeLong m ++
      composeNpBlock m.meta) = Except.ok m
    exact npParse_roundtrip m hv

/-- Claim C1: for every structured docstring built from valid,
non-pathological field combinations and every dialect, parsing the text
produced by compose with the same dialect yields the original model. -/
theorem claim_C1_roundtrip (m : Docstring) (S : DocstringStyle)
    (hv : validDocstring m = true) : parse (compose m S) S = .ok m :=
  parse_compose_roundtrip m S hv

/-- Witness for claim C1 at a concrete valid docstring and the numpydoc
dialect. -/
theorem claim_C1_roundtrip_witness :
    validDocstring rtWitnessDoc = true ∧
    parse (compose rtWitnessDoc DocstringStyle.numpydoc)
      DocstringStyle.numpydoc = .ok rtWitnessDoc :=
  ⟨by decide,
    claim_C1_roundtrip rtWitnessDoc DocstringStyle.numpydoc (by decide)⟩

/-- Claim C2, corrected: recomposition after one parse is byte-identical
for every docstring that is valid in the model; the unrestricted claim of
the spec is refuted by the counterexample below. -/
theorem claim_C2_idempotent_on_valid (m : Docstring) (S : DocstringStyle)
    (hv : validDocstring m = true) :
    (parse (compose m S) S).map (fun d2 => compose d2 S) =
      .ok (compose m S) := by
  rw [parse_compose_roundtrip m S hv]
  rfl

/-- Witness for the corrected claim C2 at a concrete valid docstring. -/
theorem claim_C2_witness :
    validDocstring rtWitnessDoc = true ∧
    (parse (compose rtWitnessDoc DocstringStyle.rest) DocstringStyle.rest).map
      (fun d2 => compose d2 DocstringStyle.rest) =
      .ok (compose rtWitnessDoc DocstringStyle.rest) :=
  ⟨by decide, claim_C2_idempotent_on_valid rtWitnessDoc DocstringStyle.rest
    (by decide)⟩

/-- Claim C2 counterexample: the spec asserts byte-identical recomposition
for every model; the model whose long description holds a field-shaped line
refutes it, because the reparse reclassifies the first long-description
line as a short description and the recompose then appends a terminator, so
the second compose output differs byte-wise from the first. -/
theorem claim_C2_idempotence_counterexample :
    compose idemCounterDoc DocstringStyle.rest = ["a", ":param y: d"] ∧
    (parse ["a", ":param y: d"] DocstringStyle.rest).map
      (fun d2 => compose d2 DocstringStyle.rest) =
      .ok ["a.", ":param y: d"] := by
  exact ⟨by decide, rfl⟩

/-- Claim C3: parse always returns an outcome as a value, and input made
only of unclassifiable plain lines parses successfully in every dialect as
pure prose with an empty meta sequence. -/
theorem claim_C3_failures_as_values :
    (∀ lines style, (∃ m, parse lines style = .ok m) ∨
      (∃ e, parse lines style = .error e)) ∧
    (∀ lines style, (∀ l ∈ lines, plainLine l = true) →
      ∃ m, parse lines style = .ok m ∧ m.meta = []) := by
  constructor
  · intro lines style
    cases hp : parse lines style with
    | ok m => exact Or.inl ⟨m, rfl⟩
    | error e => exact Or.inr ⟨e, rfl⟩
  · intro lines style h
    exact parse_plain lines style h

/-- Witness for claim C3 on the concrete plain-prose sample. -/
theorem claim_C3_witness :
    (∀ l ∈ proseSampleLines, plainLine l = true) ∧
    ∃ m, parse proseSampleLines DocstringStyle.rest = .ok m ∧ m.meta = [] :=
  ⟨by decide,
    claim_C3_failures_as_values.2 proseSampleLines DocstringStyle.rest
      (by decide)⟩

/-- Claim C4: combine keeps the override's params first and appends the
base's params whose names are absent from the override, in the base's
original order; on the concrete merge scenario it yields the override's
short description, the override's param x, the base's param y and the
base's Returns entry. -/
theorem claim_C4_combine_params :
    (∀ o b : Docstring, paramEntries (combine_docstrings o b).meta =
      paramEntries o.meta ++ missingBaseParams o b) ∧
    combine_docstrings mergeOverrideDoc mergeBaseDoc =
      ⟨some "Override summary.", some ["Base long description."], false, false,
        [.param "x" none "override x description." false none .positional,
         .param "y" (some "str") "base y description." false none .positional,
         .returns (some "int") "base result." false]⟩ :=
  ⟨combine_paramEntries, by decide⟩

/-- Claim C5: parsing two param fields for the same name keeps exactly one
entry carrying the second description, and the param names of every
resolved model are unique. -/
theorem claim_C5_dup_last_wins :
    (∀ x d1 d2 : String, nameOk x = true →
      parse [fieldLine ':' "param" (some x) d1,
        fieldLine ':' "param" (some x) d2] DocstringStyle.rest =
        .ok ⟨none, none, false, false,
          [DocstringMeta.param x none d2 false none .positional]⟩) ∧
    ∀ items, distinctStrings (paramNames (resolve items)) = true := by
  constructor
  · intro x d1 d2 hx
    show Except.ok (fieldParse ':' _) = _
    rw [fieldParse_dup_param x d1 d2 hx]
  · exact paramNames_resolve_distinct

/-- Witness for claim C5 on the concrete duplicate-param input. -/
theorem claim_C5_witness :
    nameOk "x" = true ∧
    parse dupParamLines DocstringStyle.rest =
      .ok ⟨none, none, false, false,
        [DocstringMeta.param "x" none "second description" false none
          .positional]⟩ := by
  refine ⟨by decide, ?_⟩
  rw [show dupParamLines =
    [fieldLine ':' "param" (some "x") "first description",
     fieldLine ':' "param" (some "x") "second description"] from by decide]
  exact claim_C5_dup_last_wins.1 "x" "first description" "second description"
    (by decide)

/-- Claim C6: auto-detection picks google on the Google-style sample; on
plain prose, however, the dispatcher returns a model whose set content
field is the short description, not the long description the spec
asserts. -/
theorem claim_C6_auto_detection :
    (detect_and_parse googleSampleLines RequestedStyle.auto).map
      (fun r => r.2) = .ok DocstringStyle.google ∧
    detect_and_parse proseSampleLines RequestedStyle.auto =
      .ok (⟨some "Just some prose.", none, false, false, []⟩,
        DocstringStyle.rest) :=
  ⟨rfl, rfl⟩

/-- Claim C6 counterexample: on plain prose the dispatcher's model has its
short description set and no long description, refuting the spec sentence
that only the long description is set. -/
theorem claim_C6_counterexample :
    (detect_and_parse proseSampleLines RequestedStyle.auto).map
      (fun r => (r.1.short_description, r.1.long_description, r.1.meta)) =
      .ok (some "Just some prose.", none, []) := rfl

/-- Claim C7: a Numpydoc section header anywhere in the input followed by a
dash underline strictly shorter than the header makes the Numpydoc parser
fail with a parse error. -/
theorem claim_C7_short_underline (pre post : List String) (hdr und : String)
    (hh : isNpHeaderName hdr = true) (hd : isDashLine und = true)
    (hlen : und.length < hdr.length) :
    ∃ e, parse (pre ++ hdr :: und :: post) DocstringStyle.numpydoc =
      .error e := by
  have hbad : npBadPair hdr und = true := by
    unfold npBadPair
    rw [hh, hd]
    simp [hlen]
  obtain ⟨e, he⟩ := npCheck_err 1 pre post hdr und hbad
  refine ⟨e, ?_⟩
  show npParse _ = _
  unfold npParse
  rw [he]

/-- Witness for claim C7 on a Parameters header with a three-dash
underline. -/
theorem claim_C7_witness :
    isNpHeaderName "Parameters" = true ∧ isDashLine "---" = true ∧
    ("---" : String).length < ("Parameters" : String).length ∧
    ∃ e, parse ([] ++ "Parameters" :: "---" :: [])
      DocstringStyle.numpydoc = .error e :=
  ⟨by decide, by decide, by decide,
    claim_C7_short_underline [] [] "Parameters" "---" (by decide) (by decide)
      (by decide)⟩

/-- Claim C8: every composed docstring with a short description opens with
its normalized form, which always ends in a sentence terminator; the
normalization of the test input summary appends the period. -/
theorem claim_C8_short_terminator :
    (∀ (m : Docstring) (s : String) (S : DocstringStyle),
      m.short_description = some s →
      ∃ rest, compose m S = normalizeShort s :: rest ∧
        endsWithTerm (normalizeShort s) = true) ∧
    normalizeShort "First line" = "First line." := by
  constructor
  · intro m s S hs
    refine ⟨(if m.blank_after_short_description then [""] else []) ++
      (composeLong m ++ composeMetaBlock S m.meta), ?_,
      endsWithTerm_normalizeShort s⟩
    show composeShort m ++ composeLong m ++ composeMetaBlock S m.meta = _
    unfold composeShort
    rw [hs]
    simp
  · decide

/-- Witness for claim C8 at a concrete docstring. -/
theorem claim_C8_witness :
    rtWitnessDoc.short_description = some "Sum things." ∧
    ∃ rest, compose rtWitnessDoc DocstringStyle.rest =
      normalizeShort "Sum things." :: rest ∧
      endsWithTerm (normalizeShort "Sum things.") = true :=
  ⟨rfl, claim_C8_short_terminator.1 rtWitnessDoc "Sum things."
    DocstringStyle.rest rfl⟩

/-- Claim C9: reST text with a returns field and a separate rtype field
parses to a single Returns entry taking its description from returns and
its type from rtype, and the Numpydoc rendering of that entry is one
Returns section with the type line above the indented description; the
concrete instance is the integration-test docstring body. -/
theorem claim_C9_ret_rtype_merge :
    (∀ d t : String,
      parse ["First line", "", fieldLine ':' "returns" none d, "",
        fieldLine ':' "rtype" none t, ""] DocstringStyle.rest =
        .ok ⟨some "First line", none, true, false,
          [DocstringMeta.returns (some t) d false]⟩ ∧
      compose ⟨some "First line", none, true, false,
        [DocstringMeta.returns (some t) d false]⟩ DocstringStyle.numpydoc =
        [normalizeShort "First line", "", "Returns", dashesOf "Returns", t,
          indent4 d]) ∧
    (parse retRtypeLines DocstringStyle.rest).map
      (fun m => compose m DocstringStyle.numpydoc) =
      .ok ["First line.", "", "Returns", "-------", "ret type",
        "    smthg"] := by
  constructor
  · intro d t
    refine ⟨?_, compose_single_ret_np "First line" d t⟩
    show Except.ok (fieldParse ':' _) = _
    rw [fieldParse_ret_rtype]
  · rfl
